import Mathlib

/-!
# Verification of the MCTS e-graph extraction engine

A shallow embedding of the `mcts-extract` crate: the backtrack queue
(`backtrack_queue.rs`), the incremental extraction state with its
watched-dependency index (`extraction_state.rs`), the rollout estimator, and
the UCT search tree (`search_tree.rs`, `lib.rs`).

Modelling conventions:

* `ClassId` and `NodeId` are `Nat` (the crate is generic; its in-repo
  instantiation `SimpleEgraph` uses `usize` for both).
* `indexmap::IndexMap` is modelled as an insertion-ordered association list:
  `insert` of an existing key replaces the value in place, otherwise appends;
  `truncate` keeps the first `n` entries; `swap_remove` moves the last entry
  into the removed slot.
* `Utility = NotNan<f32>` is modelled as `ℚ`.  The two transcendental `f32`
  operations used by `uct_score` (`sqrt` and `ln`) are abstracted as rational
  functions carried in a `NumCtx`; theorems about the engine take the
  real-analytic facts they rely on as explicit hypotheses.
* The RNG is a stream of naturals; `gen_range(0..n)` reads the head modulo
  `n` and advances the stream.  `FxHashMap`/`FxHashSet` iteration is
  deterministic in Rust for a fixed insertion history; the children map of a
  tree node is modelled as an insertion-ordered list and `to_visit_set` as a
  `Finset`.
* Rust panics (assertion failures, `unwrap` of `None`) are modelled by the
  `Res.panic` outcome; loops take explicit fuel and exhaustion is the
  distinct outcome `Res.out`, so that normal returns, aborts and
  non-termination are never conflated.
-/

/-! ## Identifiers and assignments -/

abbrev ClassId := Nat

abbrev NodeId := Nat

/-- An assignment: insertion-ordered map from classes to nodes
(`Assignment<E> = IndexMap<ClassId, NodeId>`). -/
abbrev Assignment := List (ClassId × NodeId)

/-- Key lookup in an association list (first match), as `IndexMap::get`. -/
def lookupA (a : Assignment) (c : ClassId) : Option NodeId :=
  match a.find? (fun e => e.1 = c) with
  | some e => some e.2
  | none => none

/-- `IndexMap::contains_key`. -/
def containsKeyA (a : Assignment) (c : ClassId) : Bool :=
  a.any (fun e => e.1 = c)

/-- The keys of an assignment, in insertion order. -/
def keysA (a : Assignment) : List ClassId := a.map Prod.fst

/-- `IndexMap::insert`: replace in place if the key is present, else append. -/
def insertA (a : Assignment) (c : ClassId) (n : NodeId) : Assignment :=
  if containsKeyA a c then a.map (fun e => if e.1 = c then (c, n) else e)
  else a ++ [(c, n)]

theorem containsKeyA_iff (a : Assignment) (c : ClassId) :
    containsKeyA a c = true ↔ c ∈ keysA a := by
  simp [containsKeyA, keysA, List.any_eq_true]

theorem insertA_of_not_mem {a : Assignment} {c : ClassId} (n : NodeId)
    (h : c ∉ keysA a) : insertA a c n = a ++ [(c, n)] := by
  have : containsKeyA a c = false := by
    cases hb : containsKeyA a c with
    | true => exact absurd ((containsKeyA_iff a c).1 hb) h
    | false => rfl
  simp [insertA, this]

/-! ## The backtrack queue (`backtrack_queue.rs`) -/

/-- `BacktrackQueue<T>`: an append-only vector plus a front cursor. -/
structure BQueue (α : Type) where
  data : List α
  front : Nat
deriving DecidableEq

/-- `QueueSnapshot`: saved `(front, back)` pair. -/
structure QueueSnapshot where
  front : Nat
  back : Nat
deriving DecidableEq

/-- `BacktrackQueue::default()`. -/
def BQueue.empty {α : Type} : BQueue α := ⟨[], 0⟩

/-- `push_back`: append to the backing vector. -/
def BQueue.pushBack {α : Type} (q : BQueue α) (x : α) : BQueue α :=
  ⟨q.data ++ [x], q.front⟩

/-- `pop_front`: read the element at `front` and advance the cursor,
without deleting storage. -/
def BQueue.popFront {α : Type} (q : BQueue α) : Option α × BQueue α :=
  match q.data.get? q.front with
  | some x => (some x, ⟨q.data, q.front + 1⟩)
  | none => (none, q)

/-- `snapshot`: record `(front, back = data.len())`. -/
def BQueue.snapshot {α : Type} (q : BQueue α) : QueueSnapshot :=
  ⟨q.front, q.data.length⟩

/-- `restore`: reset the cursor and truncate the backing vector. -/
def BQueue.restore {α : Type} (q : BQueue α) (s : QueueSnapshot) : BQueue α :=
  ⟨q.data.take s.back, s.front⟩

/-- `front`: peek the element at the cursor. -/
def BQueue.frontElem {α : Type} (q : BQueue α) : Option α :=
  q.data.get? q.front

/-- `iter`: the live elements, from the cursor to the end. -/
def BQueue.live {α : Type} (q : BQueue α) : List α :=
  q.data.drop q.front

/-- An operation on the backtrack queue other than snapshot/restore. -/
inductive QOp (α : Type) where
  | push : α → QOp α
  | pop : QOp α
deriving DecidableEq

/-- Apply one queue operation, discarding the popped value. -/
def QOp.apply {α : Type} (q : BQueue α) : QOp α → BQueue α
  | .push x => q.pushBack x
  | .pop => (q.popFront).2

/-- Apply a sequence of queue operations from left to right. -/
def applyOps {α : Type} (q : BQueue α) : List (QOp α) → BQueue α
  | [] => q
  | op :: rest => applyOps (op.apply q) rest

theorem popFront_snd_data {α : Type} (q : BQueue α) :
    ((q.popFront).2).data = q.data := by
  unfold BQueue.popFront
  cases q.data.get? q.front <;> rfl

theorem applyOps_data {α : Type} (q : BQueue α) (ops : List (QOp α)) :
    ∃ extra : List α, (applyOps q ops).data = q.data ++ extra := by
  induction ops generalizing q with
  | nil => exact ⟨[], by simp [applyOps]⟩
  | cons op rest ih =>
    rcases ih (op.apply q) with ⟨extra, hex⟩
    cases op with
    | push x =>
      exact ⟨x :: extra, by
        simpa [QOp.apply, BQueue.pushBack, applyOps] using hex⟩
    | pop =>
      refine ⟨extra, ?_⟩
      rw [applyOps, hex, QOp.apply, popFront_snd_data]

/-- Pushes and pops never shrink the backing store, so restoring the
snapshot of `q` recovers `q` exactly. -/
theorem restore_applyOps {α : Type} (q : BQueue α) (ops : List (QOp α)) :
    (applyOps q ops).restore q.snapshot = q := by
  rcases applyOps_data q ops with ⟨extra, hex⟩
  simp [BQueue.restore, BQueue.snapshot, hex, List.take_append]

/-! ## Outcomes

Rust panics (failed `assert!`, `unwrap` of `None`) abort the process; loops
are given explicit fuel.  `Res.ok` is a normal return, `Res.panic` an abort,
`Res.out` fuel exhaustion. -/

inductive Res (α : Type) where
  | ok : α → Res α
  | panic : Res α
  | out : Res α
deriving DecidableEq

def Res.bind {α β : Type} : Res α → (α → Res β) → Res β
  | .ok x, f => f x
  | .panic, _ => .panic
  | .out, _ => .out

instance : Monad Res where
  pure := Res.ok
  bind := Res.bind

@[simp] theorem Res.bind_ok {α β : Type} (x : α) (f : α → Res β) :
    Res.bind (.ok x) f = f x := rfl

@[simp] theorem Res.bind_panic {α β : Type} (f : α → Res β) :
    Res.bind .panic f = .panic := rfl

@[simp] theorem Res.bind_out {α β : Type} (f : α → Res β) :
    Res.bind .out f = .out := rfl

/-! ## The e-graph capability (`Egraph` + `EgraphTotalCost` traits)

`children`/`members` as in the trait; `utility` is `assignment_utility`,
with `Utility = NotNan<f32>` modelled as `ℚ`. -/

structure EgraphT where
  children : NodeId → List ClassId
  members : ClassId → List NodeId
  utility : Assignment → ℚ

/-! ## The dependency index (`Deps` in `extraction_state.rs`)

`Deps.data : IndexMap<ClassId, SmallVec<PendingNode>>`, modelled as an
insertion-ordered list of buckets. -/

/-- `PendingNode { node, class, deps }`. -/
structure PendingNode where
  node : NodeId
  cls : ClassId
  deps : List ClassId
deriving DecidableEq

abbrev DepsMap := List (ClassId × List PendingNode)


/-- Total number of pending records filed in the index (termination measure
for the resolution cascade). -/
def depsSize (m : DepsMap) : Nat := (m.map (fun e => e.2.length)).sum

/-- Index of the bucket keyed `c` (first match), as `IndexMap` key lookup. -/
def findBucketIdx (c : ClassId) : DepsMap → Option Nat
  | [] => none
  | e :: rest => if e.1 = c then some 0 else (findBucketIdx c rest).map (· + 1)

/-- `IndexMap::swap_remove`: remove the bucket for `c`, moving the last
entry of the map into its slot.  Returns the removed bucket (if any) and the
resulting map. -/
def swapRemoveBucket (m : DepsMap) (c : ClassId) :
    Option (List PendingNode) × DepsMap :=
  match findBucketIdx c m with
  | none => (none, m)
  | some i =>
    match m[i]?, m.getLast? with
    | some e, some last => (some e.2, (m.set i last).dropLast)
    | _, _ => (none, m)

/-- `Deps.data.entry(c).or_default().push(p)`: append `p` to the bucket for
`c`, creating the bucket at the end of the map if absent. -/
def bucketPush (m : DepsMap) (c : ClassId) (p : PendingNode) : DepsMap :=
  match findBucketIdx c m with
  | some i =>
    match m[i]? with
    | some e => m.set i (e.1, e.2 ++ [p])
    | none => m ++ [(c, [p])]
  | none => m ++ [(c, [p])]

theorem depsSize_set (m : DepsMap) (i : Nat) (v : ClassId × List PendingNode)
    (e : ClassId × List PendingNode) (he : m[i]? = some e) :
    depsSize (m.set i v) + e.2.length = depsSize m + v.2.length := by
  induction m generalizing i with
  | nil => simp at he
  | cons hd tl ih =>
    cases i with
    | zero =>
      simp only [List.getElem?_cons_zero, Option.some_inj] at he
      subst he
      simp [depsSize, List.set]
      omega
    | succ j =>
      simp only [List.getElem?_cons_succ] at he
      have := ih j he
      simp [depsSize, List.set] at this ⊢
      omega

theorem depsSize_append (m m' : DepsMap) :
    depsSize (m ++ m') = depsSize m + depsSize m' := by
  simp [depsSize]

theorem depsSize_bucketPush (m : DepsMap) (c : ClassId) (p : PendingNode) :
    depsSize (bucketPush m c p) = depsSize m + 1 := by
  unfold bucketPush
  cases hf : findBucketIdx c m with
  | none => simp [depsSize_append, depsSize]
  | some i =>
    cases he : m[i]? with
    | none => simp [he, depsSize_append, depsSize]
    | some e =>
      simp only [he]
      have := depsSize_set m i (e.1, e.2 ++ [p]) e he
      simp at this
      omega

theorem getLast?_set_of_lt (m : DepsMap) (i : Nat)
    (v : ClassId × List PendingNode) (hi : i < m.length)
    (hl : m.getLast? = some v) : (m.set i v).getLast? = some v := by
  have hlen : (m.set i v).length = m.length := by simp
  by_cases hil : i = m.length - 1
  · subst hil
    rw [List.getLast?_eq_getElem?, hlen]
    rw [List.getElem?_set_eq_of_lt]
    omega
  · rw [List.getLast?_eq_getElem?, hlen, List.getElem?_set_ne hil]
    rw [List.getLast?_eq_getElem?] at hl; exact hl

theorem depsSize_dropLast (m : DepsMap) (v : ClassId × List PendingNode)
    (hl : m.getLast? = some v) :
    depsSize m = depsSize m.dropLast + v.2.length := by
  have hm : m ≠ [] := by intro h; subst h; simp at hl
  have hdec : m = m.dropLast ++ [v] := by
    conv_lhs => rw [← List.dropLast_append_getLast hm]
    rw [List.getLast?_eq_getLast m hm] at hl
    simp at hl
    rw [hl]
  conv_lhs => rw [hdec]
  simp [depsSize_append, depsSize]

theorem depsSize_swapRemove (m : DepsMap) (c : ClassId) :
    depsSize (swapRemoveBucket m c).2 + ((swapRemoveBucket m c).1.getD []).length
      = depsSize m := by
  unfold swapRemoveBucket
  cases hf : findBucketIdx c m with
  | none => simp
  | some i =>
    cases he : m[i]? with
    | none => simp [he]
    | some e =>
      cases hl : m.getLast? with
      | none => simp [he, hl]
      | some last =>
        simp only [he, hl, Option.getD_some]
        have hi : i < m.length := by
          rcases List.getElem?_eq_some.mp he with ⟨h, _⟩
          exact h
        have h1 := depsSize_set m i last e he
        have h2 := getLast?_set_of_lt m i last hi hl
        have h3 := depsSize_dropLast (m.set i last) last h2
        omega

/-- `Deps::resolve_dep`, in worklist form.  The Rust code iterates over the
removed bucket and recurses on each newly committed class; here the removed
bucket is prepended to the remaining worklist, which performs exactly the
same operations in the same order.  Returns the number of newly committed
`assign` entries together with the updated index and assignment. -/
def resolveLoop : List PendingNode → DepsMap → Assignment →
    Nat × DepsMap × Assignment
  | [], m, a => (0, m, a)
  | p :: rest, m, a =>
    match p.deps.filter (fun d => ¬ containsKeyA a d) with
    | d :: ds =>
      -- Start watching another unresolved dependency.
      resolveLoop rest (bucketPush m d ⟨p.node, p.cls, d :: ds⟩) a
    | [] =>
      -- Last pending dependency resolved: commit, then cascade.
      let a2 := insertA a p.cls p.node
      let rm := swapRemoveBucket m p.cls
      let r := resolveLoop (rm.1.getD [] ++ rest) rm.2 a2
      (r.1 + 1, r.2.1, r.2.2)
termination_by wl m _ => (depsSize m + wl.length, wl.length)
decreasing_by
  · apply Prod.Lex.right'
    · simp [depsSize_bucketPush]; omega
    · simp
  · apply Prod.Lex.left
    have h := depsSize_swapRemove m p.cls
    simp only [List.length_append, List.length_cons]
    omega

/-- The same worklist loop with an explicit iteration budget, structurally
recursive so that concrete runs compute by `rfl`.  The budget
`(depsSize m + wl.length)² + wl.length` strictly decreases at every
iteration, so any larger fuel gives the same result as `resolveLoop`
(`resolveLoopF_eq`). -/
def resolveLoopF : Nat → List PendingNode → DepsMap → Assignment →
    Nat × DepsMap × Assignment
  | 0, _, m, a => (0, m, a)
  | _ + 1, [], m, a => (0, m, a)
  | fuel + 1, p :: rest, m, a =>
    match p.deps.filter (fun d => ¬ containsKeyA a d) with
    | d :: ds =>
      resolveLoopF fuel rest (bucketPush m d ⟨p.node, p.cls, d :: ds⟩) a
    | [] =>
      let a2 := insertA a p.cls p.node
      let rm := swapRemoveBucket m p.cls
      let r := resolveLoopF fuel (rm.1.getD [] ++ rest) rm.2 a2
      (r.1 + 1, r.2.1, r.2.2)

theorem resolveLoopF_eq : ∀ (fuel : Nat) (wl : List PendingNode)
    (m : DepsMap) (a : Assignment),
    (depsSize m + wl.length) * (depsSize m + wl.length) + wl.length < fuel →
    resolveLoopF fuel wl m a = resolveLoop wl m a := by
  intro fuel
  induction fuel with
  | zero =>
    intro wl m a h
    omega
  | succ f ih =>
    intro wl m a h
    cases wl with
    | nil => simp [resolveLoopF, resolveLoop]
    | cons p rest =>
      unfold resolveLoopF
      conv_rhs => rw [resolveLoop]
      cases hf : p.deps.filter (fun d => ¬ containsKeyA a d) with
      | cons d ds =>
        have hs := depsSize_bucketPush m d ⟨p.node, p.cls, d :: ds⟩
        apply ih
        rw [hs]
        have he : depsSize m + 1 + rest.length =
            depsSize m + (rest.length + 1) := by omega
        rw [he]
        simp only [List.length_cons] at h
        omega
      | nil =>
        have hsw := depsSize_swapRemove m p.cls
        set A := depsSize (swapRemoveBucket m p.cls).2 with hA
        set k := ((swapRemoveBucket m p.cls).1.getD []).length with hk
        have harith : (A + ((swapRemoveBucket m p.cls).1.getD [] ++
            rest).length) * (A + ((swapRemoveBucket m p.cls).1.getD [] ++
            rest).length) + ((swapRemoveBucket m p.cls).1.getD [] ++
            rest).length < f := by
          rw [List.length_append, ← hk]
          set s := A + (k + rest.length) with hs
          have hb2 : depsSize m + (p :: rest).length = s + 1 := by
            simp only [List.length_cons]
            omega
          rw [hb2] at h
          have hsq : (s + 1) * (s + 1) = s * s + 2 * s + 1 := by ring
          omega
        have hrec := ih ((swapRemoveBucket m p.cls).1.getD [] ++ rest)
          (swapRemoveBucket m p.cls).2 (insertA a p.cls p.node) harith
        simp only [hrec]

/-- `Deps::resolve_dep(class, assign)`: revisit the pending nodes watching
`class`.  Stated over the budgeted loop; `resolve_dep_eq` recovers the
fuel-free form. -/
def resolve_dep (c : ClassId) (m : DepsMap) (a : Assignment) :
    Nat × DepsMap × Assignment :=
  let rm := swapRemoveBucket m c
  let wl := rm.1.getD []
  resolveLoopF ((depsSize rm.2 + wl.length) * (depsSize rm.2 + wl.length) +
    wl.length + 1) wl rm.2 a

theorem resolve_dep_eq (c : ClassId) (m : DepsMap) (a : Assignment) :
    resolve_dep c m a = resolveLoop ((swapRemoveBucket m c).1.getD [])
      (swapRemoveBucket m c).2 a := by
  unfold resolve_dep
  exact resolveLoopF_eq _ _ _ _ (by omega)

/-- `Deps::track_pending_assignment(node, class, assign, deps)`. -/
def track_pending_assignment (m : DepsMap) (node : NodeId) (cls : ClassId)
    (a : Assignment) (kids : List ClassId) : Nat × DepsMap × Assignment :=
  match kids.filter (fun d => ¬ containsKeyA a d) with
  | [] =>
    -- No pending dependencies: make the final assignment and cascade.
    let a2 := insertA a cls node
    let r := resolve_dep cls m a2
    (r.1 + 1, r.2.1, r.2.2)
  | d :: ds => (0, bucketPush m d ⟨node, cls, d :: ds⟩, a)

/-! ## The extraction state (`extraction_state.rs`) -/

/-- `PendingState<E>`. -/
structure PendingState where
  provisional_assign : Assignment
  n_remaining : Nat
  deps : DepsMap
  to_visit : BQueue ClassId
  to_visit_set : Finset ClassId
deriving DecidableEq

/-- `StateSnapshot` with the inner `PendingStateSnapshot` flattened. -/
structure StateSnapshot where
  assign_len : Nat
  prov_len : Nat
  n_remaining : Nat
  q : QueueSnapshot
deriving DecidableEq

/-- `ExtractionState<E>`.  The snapshot stack keeps its top at the head. -/
structure ExtractionState where
  assign : Assignment
  pending : PendingState
  snapshots : List StateSnapshot
deriving DecidableEq

/-- `PendingState::push_to_visit`: enqueue only classes that are neither
dispatched (in `provisional_assign`) nor already queued. -/
def PendingState.push_to_visit (ps : PendingState) (c : ClassId) :
    PendingState :=
  if ¬ containsKeyA ps.provisional_assign c ∧ c ∉ ps.to_visit_set then
    { ps with to_visit_set := insert c ps.to_visit_set,
              to_visit := ps.to_visit.pushBack c }
  else ps

/-- `ExtractionState::push_snapshot`. -/
def ExtractionState.push_snapshot (st : ExtractionState) : ExtractionState :=
  { st with snapshots :=
      ⟨st.assign.length, st.pending.provisional_assign.length,
       st.pending.n_remaining, st.pending.to_visit.snapshot⟩ :: st.snapshots }

/-- `ExtractionState::new(root)`. -/
def ExtractionState.new (root : ClassId) : ExtractionState :=
  let ps : PendingState := ⟨[], 0, [], BQueue.empty, ∅⟩
  ExtractionState.push_snapshot ⟨[], ps.push_to_visit root, []⟩

/-- `ExtractionState::pop_snapshot`. -/
def ExtractionState.pop_snapshot (st : ExtractionState) : ExtractionState :=
  { st with snapshots := st.snapshots.tail }

/-- The replay loop at the end of `PendingState::restore`: rebuild the
dependency index from the surviving provisional entries, asserting that no
replay step commits a new `assign` entry. -/
def replayLoop (g : EgraphT) : Assignment → DepsMap → Assignment →
    Res (DepsMap × Assignment)
  | [], m, a => .ok (m, a)
  | (c, n) :: rest, m, a =>
    if containsKeyA a c then replayLoop g rest m a
    else
      let r := track_pending_assignment m n c a (g.children n)
      if r.1 = 0 then replayLoop g rest r.2.1 r.2.2
      else .panic

/-- `PendingState::restore(snapshot, full_assign, egraph)`. -/
def PendingState.restore (g : EgraphT) (ps : PendingState)
    (snap : StateSnapshot) (full : Assignment) :
    Res (PendingState × Assignment) :=
  let prov := ps.provisional_assign.take snap.prov_len
  let q := ps.to_visit.restore snap.q
  Res.bind (replayLoop g prov [] full) fun r =>
    .ok ({ provisional_assign := prov, n_remaining := snap.n_remaining,
           deps := r.1, to_visit := q, to_visit_set := q.live.toFinset },
         r.2)

/-- `ExtractionState::reset(egraph)`: rewind to the top snapshot without
popping it. -/
def ExtractionState.reset (g : EgraphT) (st : ExtractionState) :
    Res ExtractionState :=
  match st.snapshots with
  | [] => .ok st
  | snap :: _ =>
    let a := st.assign.take snap.assign_len
    Res.bind (PendingState.restore g st.pending snap a) fun r =>
      .ok { assign := r.2, pending := r.1, snapshots := st.snapshots }

/-- `ExtractionState::complete_assignment`. -/
def ExtractionState.complete_assignment (st : ExtractionState) :
    Option Assignment :=
  if st.pending.n_remaining = 0 ∧ st.pending.to_visit_set = ∅ then
    some st.assign
  else none

/-- `ExtractionState::start_next_assign`: peek the front of the queue; the
in-source `assert!` that the peeked class is in `to_visit_set` is the panic
branch.  The returned class plays the role of the `AssignHandle`. -/
def ExtractionState.start_next_assign (st : ExtractionState) :
    Res (Option ClassId) :=
  match st.pending.to_visit.frontElem with
  | none => .ok none
  | some c => if c ∈ st.pending.to_visit_set then .ok (some c) else .panic

/-- `ExtractionState::provisional_assign(class, node, egraph)`. -/
def ExtractionState.provisional_assign (g : EgraphT) (st : ExtractionState)
    (c : ClassId) (node : NodeId) : ExtractionState :=
  let set2 := st.pending.to_visit_set.erase c
  let prov2 := insertA st.pending.provisional_assign c node
  let nr1 := st.pending.n_remaining + 1
  let r := track_pending_assignment st.pending.deps node c st.assign
    (g.children node)
  let ps : PendingState :=
    { provisional_assign := prov2, n_remaining := nr1 - r.1,
      deps := r.2.1, to_visit := st.pending.to_visit, to_visit_set := set2 }
  let ps2 := (g.children node).foldl
    (fun acc ch => if containsKeyA r.2.2 ch then acc else acc.push_to_visit ch)
    ps
  { assign := r.2.2, pending := ps2, snapshots := st.snapshots }

/-- `AssignHandle::assign(node, egraph)`: consume the front of the queue
(`unwrap` is the panic branch), then `provisional_assign`. -/
def ExtractionState.do_assign (g : EgraphT) (st : ExtractionState)
    (node : NodeId) : Res ExtractionState :=
  match st.pending.to_visit.popFront with
  | (some c, q2) =>
    .ok (ExtractionState.provisional_assign g
      { st with pending := { st.pending with to_visit := q2 } } c node)
  | (none, _) => .panic

/-! ## The rollout estimator (`random_cost_estimate`) -/

/-- The RNG, modelled as a stream of naturals. -/
abbrev Rng := Nat → Nat

/-- `rng.gen_range(0..len)`: read the head of the stream modulo `len` and
advance. -/
def genRange (len : Nat) (r : Rng) : Nat × Rng :=
  (r 0 % len, fun i => r (i + 1))

/-- The `while let Some(handle) = state.start_next_assign()` loop inside
`random_cost_estimate`, including the final
`assignment_utility(complete_assignment()?)`. -/
def rolloutLoop (g : EgraphT) : Nat → ExtractionState → Rng →
    Res (Option ℚ × ExtractionState × Rng)
  | 0, _, _ => .out
  | fuel + 1, st, r =>
    Res.bind st.start_next_assign fun h =>
    match h with
    | none => .ok (st.complete_assignment.map g.utility, st, r)
    | some c =>
      let scratch := g.members c
      if scratch.isEmpty then .ok (none, st, r)
      else
        let ir := genRange scratch.length r
        Res.bind (st.do_assign g (scratch.getD ir.1 0)) fun st2 =>
        rolloutLoop g fuel st2 ir.2

/-- `random_cost_estimate(egraph, state, rng)`. -/
def random_cost_estimate (g : EgraphT) (fuel : Nat) (st : ExtractionState)
    (r : Rng) : Res (Option ℚ × ExtractionState × Rng) :=
  Res.bind (rolloutLoop g fuel st.push_snapshot r) fun res =>
  Res.bind (res.2.1.reset g) fun st2 =>
  .ok (res.1, st2.pop_snapshot, res.2.2)

/-! ## The search tree (`search_tree.rs`) -/

/-- Numeric context: the two transcendental `f32` operations used by
`uct_score`, abstracted as rational functions (`sq` for `sqrt`, `ln` for
`ln`). -/
structure NumCtx where
  sq : ℚ → ℚ
  ln : ℚ → ℚ

/-- `uct_score(child_rounds, child_avg_utility, total_rounds, c)`:
`child_avg_utility + c * sqrt(ln(total_rounds) / max(child_rounds, 1))`. -/
def uct_score (nc : NumCtx) (child_rounds : Nat) (child_avg_utility : ℚ)
    (total_rounds : Nat) (c : ℚ) : ℚ :=
  let n_visits : ℚ := (max child_rounds 1 : Nat)
  child_avg_utility + c * nc.sq (nc.ln (total_rounds : ℚ) / n_visits)

/-- `cast_util`. -/
def cast_util (n : Nat) : ℚ := (n : ℚ)

/-- `u32::MAX`, the saturation bound for `n_visits`. -/
def u32Max : Nat := 2 ^ 32 - 1

/-- `TreeNode<N, C>`.  The children map (`state : FxHashMap<N, TreeNodeId>`)
is modelled as an insertion-ordered association list. -/
structure TreeNode where
  cls : ClassId
  n_visits : Nat
  total_utility : ℚ
  state : List (NodeId × Nat)
deriving DecidableEq

instance : Inhabited TreeNode := ⟨⟨0, 0, 0, []⟩⟩

/-- `SearchTree<E>`. -/
structure SearchTree where
  root_class : ClassId
  root_tree_node : Nat
  nodes : List TreeNode
deriving DecidableEq

/-- `SearchTree::new(root_class)`. -/
def SearchTree.new (root : ClassId) : SearchTree :=
  ⟨root, 0, [⟨root, 0, 0, []⟩]⟩

/-- `SearchTree::fresh_node(class)`; `u32::try_from(len).unwrap()` panics
once the node vector no longer fits a `u32` index. -/
def SearchTree.fresh_node (t : SearchTree) (cls : ClassId) :
    Res (Nat × SearchTree) :=
  if t.nodes.length < 2 ^ 32 then
    .ok (t.nodes.length, { t with nodes := t.nodes ++ [⟨cls, 0, 0, []⟩] })
  else .panic

/-- Record `(enode → child)` in `tree[cur].state`. -/
def SearchTree.addChild (t : SearchTree) (cur : Nat) (enode : NodeId)
    (ch : Nat) : SearchTree :=
  let old := t.nodes.getD cur default
  { t with nodes := t.nodes.set cur { old with state := old.state ++ [(enode, ch)] } }

/-- `SearchState<E, F>`: the per-round mutable state (`path` is drained
every playout and is therefore local to `run_playout`; the estimator and
exploration constant are passed as parameters). -/
structure SearchState where
  tree : SearchTree
  assignment : ExtractionState
  start_node : Nat
deriving DecidableEq

/-- The utility estimator `F: FnMut(&mut ExtractionState, &E) -> Utility`,
threading the captured RNG explicitly. -/
abbrev EstFn := ExtractionState → Rng → Res (ℚ × ExtractionState × Rng)

/-- The UCT selection in `run_playout`: score every member of the class and
keep the maximum, later entries winning ties (Rust `max_by_key` returns the
last maximal element). -/
def chooseNext (nc : NumCtx) (cq : ℚ) (t : SearchTree) (cur : TreeNode)
    (total : Nat) (mems : List NodeId) : Option (ℚ × Option Nat × NodeId) :=
  mems.foldl
    (fun best node =>
      let triple :=
        match (cur.state.find? (fun e => e.1 = node)).map (fun e => e.2) with
        | some child =>
          let cn := t.nodes.getD child default
          (uct_score nc cn.n_visits
            (cn.total_utility / cast_util (max cn.n_visits 1)) total cq,
           some child, node)
        | none => (uct_score nc 0 (cast_util 0) total cq, none, node)
      match best with
      | none => some triple
      | some b => if triple.1 ≥ b.1 then some triple else some b)
    none

/-- Saturating `n_visits + 1` and `total_utility += util` for one node. -/
def bumpNode (nd : TreeNode) (u : ℚ) : TreeNode :=
  { nd with n_visits := min (nd.n_visits + 1) u32Max,
            total_utility := nd.total_utility + u }

/-- Backpropagation over the recorded path (drained in reverse). -/
def backprop (t : SearchTree) (path : List Nat) (u : ℚ) : SearchTree :=
  path.reverse.foldl
    (fun acc i =>
      { acc with nodes := acc.nodes.set i (bumpNode (acc.nodes.getD i default) u) })
    t

/-- The descent loop of `run_playout`.  Returns the captured leaf utility
(`none` when the assignment became complete), the path, and the updated
tree, state and RNG. -/
def playoutLoop (nc : NumCtx) (cq : ℚ) (g : EgraphT) (est : EstFn) :
    Nat → Nat → List Nat → SearchTree → ExtractionState → Rng →
    Res (Option ℚ × List Nat × SearchTree × ExtractionState × Rng)
  | 0, _, _, _, _, _ => .out
  | fuel + 1, cur, path, tree, st, r =>
    Res.bind st.start_next_assign fun h =>
    match h with
    | none => .ok (none, path, tree, st, r)
    | some cl =>
      let nd := tree.nodes.getD cur default
      if nd.n_visits = 0 then
        -- Unvisited frontier node: estimate and stop descending.
        Res.bind (est st r) fun e => .ok (some e.1, path, tree, e.2.1, e.2.2)
      else
        match chooseNext nc cq tree nd nd.n_visits (g.members cl) with
        | none => .ok (some 0, path, tree, st, r)
        | some (_, copt, enode) =>
          Res.bind
            (match copt with
             | some ch => .ok (ch, tree)
             | none =>
               Res.bind (tree.fresh_node cl) fun f =>
               .ok (f.1, f.2.addChild cur enode f.1)) fun ct =>
          Res.bind (st.do_assign g enode) fun st2 =>
          playoutLoop nc cq g est fuel ct.1 (path ++ [ct.1]) ct.2 st2 r

/-- `SearchState::run_playout(egraph)`. -/
def run_playout (nc : NumCtx) (cq : ℚ) (g : EgraphT) (est : EstFn)
    (fuel : Nat) (S : SearchState) (r : Rng) : Res (SearchState × Rng) :=
  Res.bind
    (playoutLoop nc cq g est fuel S.start_node [S.start_node] S.tree
      S.assignment r) fun p =>
  Res.bind
    (match p.1 with
     | some u => .ok (u, p.2.2.2.1, p.2.2.2.2)
     | none => est p.2.2.2.1 p.2.2.2.2) fun e =>
  let tree2 := backprop p.2.2.1 p.2.1 e.1
  Res.bind (e.2.1.reset g) fun st3 =>
  .ok (⟨tree2, st3, S.start_node⟩, e.2.2)

/-- The `max_by_key` over the children map in `pick_node` (most visited
child, later entries winning ties). -/
def maxVisitsChild (t : SearchTree) (stl : List (NodeId × Nat)) :
    Option (NodeId × Nat) :=
  (stl.foldl
    (fun best e =>
      let v := (t.nodes.getD e.2 default).n_visits
      match best with
      | none => some (e.1, e.2, v)
      | some b => if v ≥ b.2.2 then some (e.1, e.2, v) else some b)
    none).map (fun b => (b.1, b.2.1))

/-- `SearchState::pick_node(egraph)`: `.ok none` models Rust's `None`
(no children, extraction fails); `.ok (some (false, _))` is "at a leaf";
`.ok (some (true, _))` advances the committed frontier by one class, pushes
a snapshot, and moves `start_node`.  The `assert!` comparing the chosen
child's recorded class with the peeked class is the panic branch. -/
def pick_node (g : EgraphT) (S : SearchState) :
    Res (Option (Bool × SearchState)) :=
  Res.bind S.assignment.start_next_assign fun h =>
  match h with
  | none => .ok (some (false, S))
  | some cl =>
    let cur := S.tree.nodes.getD S.start_node default
    match maxVisitsChild S.tree cur.state with
    | none => .ok none
    | some (enode, chId) =>
      if (S.tree.nodes.getD chId default).cls = cl then
        Res.bind (S.assignment.do_assign g enode) fun st2 =>
        .ok (some (true, ⟨S.tree, st2.push_snapshot, chId⟩))
      else .panic

/-- `MctsConfig`. -/
structure MctsConfig where
  playouts_per_round : Nat
  terms_to_sample : Nat

/-- `for _ in 0..options.playouts_per_round { self.run_playout(egraph) }`. -/
def playoutsRep (nc : NumCtx) (cq : ℚ) (g : EgraphT) (est : EstFn)
    (fuel : Nat) : Nat → SearchState → Rng → Res (SearchState × Rng)
  | 0, S, r => .ok (S, r)
  | k + 1, S, r =>
    Res.bind (run_playout nc cq g est fuel S r) fun p =>
    playoutsRep nc cq g est fuel k p.1 p.2

/-- The round loop of `SearchState::assign(options, egraph)`. -/
def assignLoop (nc : NumCtx) (cq : ℚ) (g : EgraphT) (est : EstFn)
    (fuelP : Nat) : Nat → MctsConfig → SearchState → Rng →
    Res (Option Assignment × SearchState × Rng)
  | 0, _, _, _ => .out
  | fuel + 1, cfg, S, r =>
    Res.bind (playoutsRep nc cq g est fuelP cfg.playouts_per_round S r)
      fun p =>
    Res.bind (pick_node g p.1) fun pk =>
    match pk with
    | none => .ok (none, p.1, p.2)
    | some (false, S2) =>
      .ok (S2.assignment.complete_assignment, S2, p.2)
    | some (true, S2) => assignLoop nc cq g est fuelP fuel cfg S2 p.2

/-! ## The entry point (`lib.rs`) -/

/-- The sampling loop of the estimator closure in `mcts_extract`: failed
extractions count as utility 0 (`unwrap_or_default`). -/
def sampleLoop (g : EgraphT) (fuelR : Nat) :
    Nat → ℚ → ExtractionState → Rng → Res (ℚ × ExtractionState × Rng)
  | 0, acc, st, r => .ok (acc, st, r)
  | k + 1, acc, st, r =>
    Res.bind (random_cost_estimate g fuelR st r) fun e =>
    sampleLoop g fuelR k (acc + e.1.getD 0) e.2.1 e.2.2

/-- The estimator closure built in `mcts_extract`: exact utility on a
complete assignment, otherwise the mean of `terms_to_sample` random
rollouts. -/
def mctsEstimate (g : EgraphT) (n_samples fuelR : Nat) : EstFn := fun st r =>
  match st.complete_assignment with
  | some a => .ok (g.utility a, st, r)
  | none =>
    Res.bind (sampleLoop g fuelR n_samples 0 st r) fun e =>
    .ok (e.1 / (n_samples : ℚ), e.2.1, e.2.2)

/-- `mcts_extract(egraph, root, config)`.  `cq` is the exploration constant
(`√2` in the source, abstracted because it is irrational), `nc` the numeric
context for `sqrt`/`ln`, `r` the RNG stream and `fuel` the loop fuel. -/
def mcts_extract (nc : NumCtx) (cq : ℚ) (g : EgraphT) (root : ClassId)
    (cfg : MctsConfig) (r : Rng) (fuel : Nat) : Res (Option Assignment) :=
  let S : SearchState :=
    ⟨SearchTree.new root, ExtractionState.new root, 0⟩
  Res.bind
    (assignLoop nc cq g (mctsEstimate g cfg.terms_to_sample fuel) fuel fuel
      cfg S r) fun res =>
  .ok res.1

/-! ## Concrete e-graphs from `tests.rs` -/

/-- The score function shared by both tests: utility 1 exactly on the
assignment `{0 → 1, 2 → 4, 3 → 5}`. -/
def scoreFn (a : Assignment) : ℚ :=
  if lookupA a 0 = some 1 ∧ lookupA a 2 = some 4 ∧ lookupA a 3 = some 5
  then 1 else 0

/-- Scenario A (`finds_high_util`): classes `[[0,1],[2,3],[4],[5]]`,
node children `[[2,1],[2,2],[2,3],[3],[3,3],[]]`. -/
def gA : EgraphT :=
  { children := fun n => [[2, 1], [2, 2], [2, 3], [3], [3, 3], []].getD n [],
    members := fun c => [[0, 1], [2, 3], [4], [5]].getD c [],
    utility := scoreFn }

/-- Scenario B (`fails_unextractable`): classes `[[0,1],[2,3],[4],[5]]`,
node children `[[0,1],[2,2],[3,2],[0,3],[1,0],[2,3,1]]`. -/
def gB : EgraphT :=
  { children := fun n =>
      [[0, 1], [2, 2], [3, 2], [0, 3], [1, 0], [2, 3, 1]].getD n [],
    members := fun c => [[0, 1], [2, 3], [4], [5]].getD c [],
    utility := scoreFn }

/-! ## C6: UCT monotonicity (Scenario F) -/

/-- **C6.**  Holding the child average utility and the child visit count
fixed, `uct_score` is non-decreasing in `total_rounds` (for
`total_rounds ≥ 1`) and non-increasing in `child_visits`; and at
`total_rounds = 1` with `child_visits ≥ 1` the exploration term vanishes,
so the score equals the child average utility.  The hypotheses are the
real-analytic facts about `sqrt`/`ln` and the exploration constant that the
source relies on (`sqrt` and `ln` monotone, `sqrt 0 = 0`, `ln 1 = 0`,
`c ≥ 0`; the source's `c = √2`). -/
theorem uct_score_props (nc : NumCtx) (c avg : ℚ) (v t1 t2 : Nat)
    (hsq : Monotone nc.sq) (hln : Monotone nc.ln) (hsq0 : nc.sq 0 = 0)
    (hln1 : nc.ln 1 = 0) (hc : 0 ≤ c) :
    (1 ≤ t1 → t1 ≤ t2 →
      uct_score nc v avg t1 c ≤ uct_score nc v avg t2 c) ∧
    (∀ v2, v ≤ v2 → 1 ≤ t1 →
      uct_score nc v2 avg t1 c ≤ uct_score nc v avg t1 c) ∧
    (1 ≤ v → uct_score nc v avg 1 c = avg) := by
  refine ⟨?_, ?_, ?_⟩
  · intro _ h12
    unfold uct_score
    have hn : (0 : ℚ) < ((max v 1 : Nat) : ℚ) := by
      have : 1 ≤ max v 1 := le_max_right v 1
      exact_mod_cast Nat.lt_of_lt_of_le Nat.zero_lt_one this
    have hdiv : nc.ln (t1 : ℚ) / ((max v 1 : Nat) : ℚ) ≤
        nc.ln (t2 : ℚ) / ((max v 1 : Nat) : ℚ) :=
      div_le_div_of_nonneg_right (hln (by exact_mod_cast h12)) hn.le
    have := hsq hdiv
    nlinarith [mul_le_mul_of_nonneg_left this hc]
  · intro v2 hv ht1
    unfold uct_score
    have hlnpos : 0 ≤ nc.ln (t1 : ℚ) := by
      have := hln (show (1 : ℚ) ≤ (t1 : ℚ) by exact_mod_cast ht1)
      rw [hln1] at this
      exact this
    have hmax : ((max v 1 : Nat) : ℚ) ≤ ((max v2 1 : Nat) : ℚ) := by
      exact_mod_cast max_le_max_right 1 hv
    have hn1 : (0 : ℚ) < ((max v 1 : Nat) : ℚ) := by
      have : 1 ≤ max v 1 := le_max_right v 1
      exact_mod_cast Nat.lt_of_lt_of_le Nat.zero_lt_one this
    have hdiv : nc.ln (t1 : ℚ) / ((max v2 1 : Nat) : ℚ) ≤
        nc.ln (t1 : ℚ) / ((max v 1 : Nat) : ℚ) :=
      div_le_div_of_nonneg_left hlnpos hn1 hmax
    have := hsq hdiv
    nlinarith [mul_le_mul_of_nonneg_left this hc]
  · intro _
    unfold uct_score
    simp [hln1, hsq0]

/-- Instantiation of `uct_score_props` at concrete inputs, discharging its
hypotheses (`sqrt := id`, `ln := fun x => x - 1`, `c := 1`). -/
theorem uct_score_props_witness :
    uct_score ⟨id, fun x => x - 1⟩ 2 5 1 1 = 5 := by
  have h := uct_score_props ⟨id, fun x => x - 1⟩ 1 5 2 1 3
    (fun a b hab => hab)
    (fun a b hab => by simpa using sub_le_sub_right hab 1)
    rfl (by norm_num) (by norm_num)
  exact h.2.2 (by norm_num)

/-! ## C3: backtrack-queue round trips -/

/-- The results of the `pop_front` operations in a sequence of queue
operations, in order. -/
def popResults {α : Type} (q : BQueue α) : List (QOp α) → List (Option α)
  | [] => []
  | .push x :: rest => popResults (q.pushBack x) rest
  | .pop :: rest => (q.popFront).1 :: popResults ((q.popFront).2) rest

/-- **C3, counterexample.**  Take a snapshot `s` of the empty queue, push
`5`, pop it (yielding `5`), then `restore s`: the subsequent `pop_front`
yields nothing, not the element the prior pop yielded, because `5` was
pushed after `s` and is truncated by the restore.  So the claim fails as
stated for general interleavings. -/
theorem backtrack_pop_replay_cex :
    (((BQueue.empty.pushBack 5).popFront).1 = some 5) ∧
    (((((BQueue.empty.pushBack 5).popFront).2.restore
        (BQueue.empty (α := Nat)).snapshot).popFront).1 = none) := by
  constructor <;> rfl

/-- **C3, amended.**  After any interleaving of `push_back` and `pop_front`
(with no intervening restore), `restore(s)` returns the queue exactly to
its state when `s` was taken; consequently every subsequent operation
sequence — in particular each subsequent `pop_front` — replays exactly what
the same operations yielded right after taking `s`.  Elements live at the
snapshot that were popped in between are therefore reachable again; only
elements pushed after the snapshot (or overwritten by other restores) are
not. -/
theorem backtrack_restore_replays {α : Type} (q : BQueue α)
    (ops ops2 : List (QOp α)) :
    (applyOps q ops).restore q.snapshot = q ∧
    popResults ((applyOps q ops).restore q.snapshot) ops2 =
      popResults q ops2 := by
  have h := restore_applyOps q ops
  exact ⟨h, by rw [h]⟩

/-- Closed instance of `backtrack_restore_replays`: push, pop and replay on
a two-element queue. -/
theorem backtrack_restore_replays_witness :
    popResults ((applyOps (BQueue.mk [1, 2] 0)
        [QOp.pop, QOp.push 7, QOp.pop]).restore
        (BQueue.mk [1, 2] 0).snapshot) [QOp.pop, QOp.pop] =
      popResults (BQueue.mk [1, 2] 0) [QOp.pop, QOp.pop] :=
  (backtrack_restore_replays (BQueue.mk [1, 2] 0)
    [QOp.pop, QOp.push 7, QOp.pop] [QOp.pop, QOp.pop]).2

/-! ## C9: determinism modulo the RNG -/

/-- **C9.**  The engine is a pure function of the e-graph, root,
configuration and RNG stream: two runs with the same seed stream on
identical inputs return identical results. -/
theorem mcts_extract_deterministic (nc : NumCtx) (cq : ℚ) (g : EgraphT)
    (root : ClassId) (cfg : MctsConfig) (fuel : Nat) (r1 r2 : Rng)
    (h : r1 = r2) :
    mcts_extract nc cq g root cfg r1 fuel =
      mcts_extract nc cq g root cfg r2 fuel := by
  rw [h]

/-- Closed instance of `mcts_extract_deterministic` on scenario A. -/
theorem mcts_extract_deterministic_witness :
    mcts_extract ⟨id, id⟩ 1 gA 0 ⟨1, 1⟩ (fun _ => 0) 6 =
      mcts_extract ⟨id, id⟩ 1 gA 0 ⟨1, 1⟩ (fun _ => 0) 6 :=
  mcts_extract_deterministic ⟨id, id⟩ 1 gA 0 ⟨1, 1⟩ 6 _ _ rfl

/-! ## Supporting lemmas about the dependency index -/

/-- All pending records filed in the index. -/
def pendings (m : DepsMap) : List PendingNode := (m.map Prod.snd).flatten

theorem findBucketIdx_none {c : ClassId} {m : DepsMap} :
    findBucketIdx c m = none ↔ ∀ e ∈ m, e.1 ≠ c := by
  induction m with
  | nil => simp [findBucketIdx]
  | cons e rest ih =>
    by_cases he : e.1 = c <;> simp [findBucketIdx, he, ih]

theorem findBucketIdx_some {c : ClassId} {m : DepsMap} {i : Nat}
    (h : findBucketIdx c m = some i) :
    ∃ hi : i < m.length, m[i].1 = c := by
  induction m generalizing i with
  | nil => simp [findBucketIdx] at h
  | cons e rest ih =>
    by_cases he : e.1 = c
    · simp [findBucketIdx, he] at h
      subst h
      exact ⟨by simp, he⟩
    · simp [findBucketIdx, he] at h
      rcases h with ⟨j, hj, rfl⟩
      rcases ih hj with ⟨hlt, hj2⟩
      exact ⟨by simpa using hlt, by simpa using hj2⟩

theorem pendings_append (m m' : DepsMap) :
    pendings (m ++ m') = pendings m ++ pendings m' := by
  simp [pendings]

theorem set_last_dropLast_perm {β : Type} (l : List β) (i : Nat)
    (hi : i < l.length) (last : β) (hl : l.getLast? = some last) :
    ((l.set i last).dropLast).Perm (l.eraseIdx i) := by
  have hne : l ≠ [] := by intro h; subst h; simp at hl
  have hdec : l = l.dropLast ++ [last] := by
    conv_lhs => rw [← List.dropLast_append_getLast hne]
    rw [List.getLast?_eq_getLast l hne] at hl
    simp at hl
    rw [hl]
  set L := l.dropLast with hL
  have hlen : l.length = L.length + 1 := by rw [hdec]; simp
  by_cases hiL : i < L.length
  · have hset : l.set i last = L.set i last ++ [last] := by
      conv_lhs => rw [hdec]
      rw [List.set_append, if_pos hiL]
    have hers : l.eraseIdx i = L.eraseIdx i ++ [last] := by
      conv_lhs => rw [hdec]
      rw [List.eraseIdx_append_of_lt_length hiL]
    rw [hset, List.dropLast_concat, hers]
    rw [List.set_eq_take_cons_drop _ hiL, List.eraseIdx_eq_take_drop_succ]
    exact List.perm_middle.trans (List.perm_append_singleton last _).symm
  · have hieq : i = L.length := by omega
    subst hieq
    have hset : l.set L.length last = l := by
      conv_lhs => rw [hdec]
      rw [List.set_append, if_neg (by omega)]
      simp
      exact hdec.symm
    have hers : l.eraseIdx L.length = L := by
      rw [List.eraseIdx_eq_take_drop_succ]
      conv_lhs => rw [hdec]
      rw [List.take_append_of_le_length (by omega), List.take_of_length_le (by omega),
        List.drop_eq_nil_of_le (by simp)]
      simp
    rw [hset, hers]

/-- Entry-level characterisation of a successful `swap_remove`: the removed
bucket is the one found for `c`, and the resulting map is a permutation of
the map with that entry erased. -/
theorem swapRemove_found {m : DepsMap} {c : ClassId} {i : Nat}
    (hf : findBucketIdx c m = some i) :
    ∃ hi : i < m.length, ∃ m2 : DepsMap,
      swapRemoveBucket m c = (some m[i].2, m2) ∧ m2.Perm (m.eraseIdx i) := by
  rcases findBucketIdx_some hf with ⟨hi, hci⟩
  have hne : m ≠ [] := by intro h; subst h; simp at hi
  have hget : m[i]? = some m[i] := List.getElem?_eq_getElem hi
  have hlast : m.getLast? = some (m.getLast hne) := List.getLast?_eq_getLast m hne
  refine ⟨hi, (m.set i (m.getLast hne)).dropLast, ?_,
    set_last_dropLast_perm m i hi _ hlast⟩
  unfold swapRemoveBucket
  rw [hf]
  simp only [hget, hlast]

theorem swapRemove_not_found {m : DepsMap} {c : ClassId}
    (hf : findBucketIdx c m = none) : swapRemoveBucket m c = (none, m) := by
  unfold swapRemoveBucket
  rw [hf]

/-- `pendings` of a map splits around any one entry. -/
theorem pendings_eraseIdx (m : DepsMap) (i : Nat) (hi : i < m.length) :
    (pendings m).Perm (m[i].2 ++ pendings (m.eraseIdx i)) := by
  have hm : m = m.take i ++ m[i] :: m.drop (i + 1) := by
    conv_lhs => rw [← List.take_append_drop i m]
    congr 1
    exact List.drop_eq_getElem_cons hi
  rw [List.eraseIdx_eq_take_drop_succ]
  conv_lhs => rw [hm]
  simp only [pendings, List.map_append, List.map_cons, List.flatten_append,
    List.flatten_cons]
  rw [← List.append_assoc]
  refine (List.perm_append_comm.append_right _).trans ?_
  rw [List.append_assoc]

theorem eraseIdx_set_same {β : Type} (l : List β) (i : Nat) (v : β)
    (hi : i < l.length) : (l.set i v).eraseIdx i = l.eraseIdx i := by
  rw [List.eraseIdx_eq_take_drop_succ, List.eraseIdx_eq_take_drop_succ]
  congr 1
  · rw [List.set_eq_take_cons_drop _ hi,
      List.take_append_of_le_length (by simpa using Nat.le_of_lt hi)]
    rw [List.take_take]
    simp
  · rw [List.drop_set, if_pos (by omega)]

/-- `bucketPush` adds exactly one record to the filed multiset. -/
theorem pendings_bucketPush (m : DepsMap) (c : ClassId) (p : PendingNode) :
    (pendings (bucketPush m c p)).Perm (pendings m ++ [p]) := by
  unfold bucketPush
  cases hf : findBucketIdx c m with
  | none => simp [pendings_append, pendings]
  | some i =>
    rcases findBucketIdx_some hf with ⟨hi, hci⟩
    have hget : m[i]? = some m[i] := List.getElem?_eq_getElem hi
    simp only [hget]
    have hlen : i < (m.set i (m[i].1, m[i].2 ++ [p])).length := by simpa using hi
    have h1 := pendings_eraseIdx (m.set i (m[i].1, m[i].2 ++ [p])) i hlen
    rw [List.getElem_set_self, eraseIdx_set_same m i _ hi] at h1
    have h2 := pendings_eraseIdx m i hi
    refine h1.trans (List.Perm.trans ?_ (h2.append_right [p]).symm)
    rw [List.append_assoc, List.append_assoc]
    exact List.perm_append_comm.append_left _

/-- Where each record of `bucketPush m c p` comes from: an existing bucket
of `m` (same key), or it is `p` filed under key `c`. -/
theorem bucketPush_entry_cases {m : DepsMap} {c : ClassId} {p : PendingNode}
    {e2 : ClassId × List PendingNode} (he2 : e2 ∈ bucketPush m c p)
    {q : PendingNode} (hq : q ∈ e2.2) :
    (∃ e ∈ m, e.1 = e2.1 ∧ q ∈ e.2) ∨ (e2.1 = c ∧ q = p) := by
  unfold bucketPush at he2
  cases hf : findBucketIdx c m with
  | none =>
    rw [hf] at he2
    rcases List.mem_append.mp he2 with h | h
    · exact Or.inl ⟨e2, h, rfl, hq⟩
    · simp at h
      subst h
      simp at hq
      exact Or.inr ⟨rfl, hq⟩
  | some i =>
    rcases findBucketIdx_some hf with ⟨hi, hci⟩
    have hget : m[i]? = some m[i] := List.getElem?_eq_getElem hi
    rw [hf] at he2
    simp only [hget] at he2
    rcases List.mem_or_eq_of_mem_set he2 with h | h
    · exact Or.inl ⟨e2, h, rfl, hq⟩
    · subst h
      simp only at hq
      rcases List.mem_append.mp hq with h | h
      · exact Or.inl ⟨m[i], List.getElem_mem hi, rfl, h⟩
      · simp at h
        subst h
        exact Or.inr ⟨hci, rfl⟩

/-- The bucket keys of `bucketPush`: unchanged when the key already has a
bucket, extended by `c` otherwise. -/
theorem keys_bucketPush (m : DepsMap) (c : ClassId) (p : PendingNode) :
    (bucketPush m c p).map Prod.fst = m.map Prod.fst ∨
    ((bucketPush m c p).map Prod.fst = m.map Prod.fst ++ [c] ∧
      findBucketIdx c m = none) := by
  unfold bucketPush
  cases hf : findBucketIdx c m with
  | none => right; simp
  | some i =>
    left
    rcases findBucketIdx_some hf with ⟨hi, hci⟩
    have hget : m[i]? = some m[i] := List.getElem?_eq_getElem hi
    simp only [hget, List.map_set]
    have hmap : i < (List.map Prod.fst m).length := by simpa using hi
    have hmi : m[i].1 = (List.map Prod.fst m)[i] := by
      rw [List.getElem_map]
    rw [hmi]
    apply List.ext_getElem
    · simp
    · intro j h1 h2
      by_cases hij : i = j
      · subst hij; simp
      · rw [List.getElem_set_ne hij]

/-! ## Invariants of the extraction state -/

theorem keysA_append (a b : Assignment) :
    keysA (a ++ b) = keysA a ++ keysA b := by
  simp [keysA]

theorem containsKeyA_false_iff (a : Assignment) (c : ClassId) :
    containsKeyA a c = false ↔ c ∉ keysA a := by
  rw [← Bool.not_eq_true, not_iff_not]
  exact containsKeyA_iff a c

theorem keysA_take (a : Assignment) (n : Nat) :
    keysA (a.take n) = (keysA a).take n := by
  simp [keysA, List.map_take]

/-- The number of provisional entries whose class is not committed
(the semantic value of `n_remaining`). -/
def remCount (a p : Assignment) : Nat :=
  (p.filter (fun e => !(containsKeyA a e.1))).length

/-- Each committed entry's children are committed strictly earlier
(the source of acyclicity). -/
def OrderClosed (g : EgraphT) (a : Assignment) : Prop :=
  ∀ i, ∀ hi : i < a.length, ∀ ch ∈ g.children a[i].2, ch ∈ keysA (a.take i)

/-- Well-formedness of one pending record with respect to the committed
assignment `a` and the provisional assignment `p`. -/
structure RecordWF (g : EgraphT) (a p : Assignment) (q : PendingNode) :
    Prop where
  ne : q.deps ≠ []
  sub : ∀ d ∈ q.deps, d ∈ g.children q.node
  cov : ∀ ch ∈ g.children q.node, ch ∈ keysA a ∨ ch ∈ q.deps
  notA : q.cls ∉ keysA a
  inP : (q.cls, q.node) ∈ p

/-- Well-formedness of the dependency index. -/
structure DepsWF (g : EgraphT) (a p : Assignment) (m : DepsMap) : Prop where
  recs : ∀ e ∈ m, ∀ q ∈ e.2, RecordWF g a p q
  watch : ∀ e ∈ m, ∀ q ∈ e.2, q.deps.head? = some e.1
  watchNotA : ∀ e ∈ m, e.1 ∉ keysA a
  keyNodup : (m.map Prod.fst).Nodup
  clsNodup : ((pendings m).map PendingNode.cls).Nodup
  cover : ∀ c, c ∈ (pendings m).map PendingNode.cls ↔
    (c ∈ keysA p ∧ c ∉ keysA a)

/-- A snapshot on the stack is consistent with the current state: the facts
about the truncated prefixes that `reset` needs in order to restore a
well-formed state. -/
structure GoodSnap (g : EgraphT) (root : ClassId) (a p : Assignment)
    (qd : List ClassId) (s : StateSnapshot) : Prop where
  aLen : s.assign_len ≤ a.length
  pLen : s.prov_len ≤ p.length
  qfb : s.q.front ≤ s.q.back
  qbLen : s.q.back ≤ qd.length
  subAP : ∀ e ∈ a.take s.assign_len, e ∈ p.take s.prov_len
  nrEq : s.n_remaining = remCount (a.take s.assign_len) (p.take s.prov_len)
  liveNodup : ((qd.take s.q.back).drop s.q.front).Nodup
  liveDisj : ∀ c ∈ (qd.take s.q.back).drop s.q.front,
    c ∉ keysA (p.take s.prov_len)
  replayZero : ∀ e ∈ p.take s.prov_len, e.1 ∉ keysA (a.take s.assign_len) →
    ∃ ch ∈ g.children e.2, ch ∉ keysA (a.take s.assign_len)
  rootIn : root ∈ (qd.take s.q.back).drop s.q.front ∨
    root ∈ keysA (p.take s.prov_len)

/-- The whole snapshot stack is consistent: each level is a consistent
snapshot of the state truncated by the levels above it. -/
def SnapsOK (g : EgraphT) (root : ClassId) :
    Assignment → Assignment → List ClassId → List StateSnapshot → Prop
  | _, _, _, [] => True
  | a, p, qd, s :: rest =>
    GoodSnap g root a p qd s ∧
    SnapsOK g root (a.take s.assign_len) (p.take s.prov_len)
      (qd.take s.q.back) rest

/-- The reachable-state invariant of the extraction state. -/
structure StInv (g : EgraphT) (root : ClassId) (st : ExtractionState) :
    Prop where
  nodupA : (keysA st.assign).Nodup
  nodupP : (keysA st.pending.provisional_assign).Nodup
  subAP : ∀ e ∈ st.assign, e ∈ st.pending.provisional_assign
  memP : ∀ e ∈ st.pending.provisional_assign, e.2 ∈ g.members e.1
  ordA : OrderClosed g st.assign
  nrEq : st.pending.n_remaining =
    remCount st.assign st.pending.provisional_assign
  qNodup : st.pending.to_visit.live.Nodup
  qSet : st.pending.to_visit_set = st.pending.to_visit.live.toFinset
  qDisj : ∀ c ∈ st.pending.to_visit.live,
    c ∉ keysA st.pending.provisional_assign
  qFront : st.pending.to_visit.front ≤ st.pending.to_visit.data.length
  depsWF : DepsWF g st.assign st.pending.provisional_assign st.pending.deps
  rootIn : root ∈ st.pending.to_visit.live ∨
    root ∈ keysA st.pending.provisional_assign
  snapsOK : SnapsOK g root st.assign st.pending.provisional_assign
    st.pending.to_visit.data st.snapshots

/-- The observable part of an extraction state: committed assignment,
provisional assignment, `n_remaining`, the queue (its backing store and
cursor), the to-visit set and the snapshot stack — everything except the
rebuilt dependency index. -/
def obs (st : ExtractionState) :
    Assignment × Assignment × Nat × BQueue ClassId × Finset ClassId ×
      List StateSnapshot :=
  (st.assign, st.pending.provisional_assign, st.pending.n_remaining,
   st.pending.to_visit, st.pending.to_visit_set, st.snapshots)

theorem mem_filterNotKey {a : Assignment} {l : List ClassId} {x : ClassId} :
    x ∈ l.filter (fun d => ¬ containsKeyA a d) ↔ x ∈ l ∧ x ∉ keysA a := by
  simp [List.mem_filter, containsKeyA_iff]

theorem mem_filterNotKeyE {a p : Assignment} {e : ClassId × NodeId} :
    e ∈ p.filter (fun e => !(containsKeyA a e.1)) ↔
      e ∈ p ∧ e.1 ∉ keysA a := by
  simp [List.mem_filter, containsKeyA_false_iff]

/-- The invariant carried through the dependency-resolution cascade:
`wl` is the worklist of records whose watch has just been committed. -/
structure CascadeInv (g : EgraphT) (P : Assignment)
    (wl : List PendingNode) (m : DepsMap) (a : Assignment) : Prop where
  nodupA : (keysA a).Nodup
  subAP : ∀ e ∈ a, e ∈ P
  ordA : OrderClosed g a
  recsM : ∀ e ∈ m, ∀ q ∈ e.2, RecordWF g a P q
  watchM : ∀ e ∈ m, ∀ q ∈ e.2, q.deps.head? = some e.1
  watchNotA : ∀ e ∈ m, e.1 ∉ keysA a
  keyNodup : (m.map Prod.fst).Nodup
  recsW : ∀ q ∈ wl, RecordWF g a P q
  clsNodup : ((pendings m ++ wl).map PendingNode.cls).Nodup
  cover : ∀ c, c ∈ (pendings m ++ wl).map PendingNode.cls ↔
    (c ∈ keysA P ∧ c ∉ keysA a)

theorem cascade_reinsert {g : EgraphT} {P : Assignment} {p : PendingNode}
    {rest : List PendingNode} {m : DepsMap} {a : Assignment}
    {d : ClassId} {ds : List ClassId}
    (hI : CascadeInv g P (p :: rest) m a)
    (hf : p.deps.filter (fun x => ¬ containsKeyA a x) = d :: ds) :
    CascadeInv g P rest (bucketPush m d ⟨p.node, p.cls, d :: ds⟩) a := by
  have hpWF := hI.recsW p (by simp)
  have hdmem : d ∈ p.deps.filter (fun x => ¬ containsKeyA a x) := by
    rw [hf]; simp
  have hdA : d ∉ keysA a := (mem_filterNotKey.mp hdmem).2
  have hp2 : RecordWF g a P ⟨p.node, p.cls, d :: ds⟩ :=
    { ne := by simp
      sub := fun x hx => hpWF.sub x (mem_filterNotKey.mp (hf ▸ hx)).1
      cov := fun ch hch => by
        rcases hpWF.cov ch hch with h | h
        · exact Or.inl h
        · by_cases hca : ch ∈ keysA a
          · exact Or.inl hca
          · exact Or.inr (hf ▸ mem_filterNotKey.mpr ⟨h, hca⟩)
      notA := hpWF.notA
      inP := hpWF.inP }
  have hperm : (((pendings (bucketPush m d ⟨p.node, p.cls, d :: ds⟩)) ++
      rest).map PendingNode.cls).Perm
      ((pendings m ++ p :: rest).map PendingNode.cls) := by
    have h1 := List.Perm.map PendingNode.cls
      ((pendings_bucketPush m d ⟨p.node, p.cls, d :: ds⟩).append_right rest)
    have h2 : (((pendings m ++ [(⟨p.node, p.cls, d :: ds⟩ : PendingNode)]) ++
        rest).map PendingNode.cls) =
        ((pendings m ++ p :: rest).map PendingNode.cls) := by
      simp
    exact h1.trans (h2 ▸ List.Perm.refl _)
  refine
    { nodupA := hI.nodupA
      subAP := hI.subAP
      ordA := hI.ordA
      recsM := fun e2 he2 q hq => ?_
      watchM := fun e2 he2 q hq => ?_
      watchNotA := fun e2 he2 => ?_
      keyNodup := ?_
      recsW := fun q hq => hI.recsW q (by simp [hq])
      clsNodup := hperm.symm.nodup hI.clsNodup
      cover := fun c => by
        rw [hperm.mem_iff]
        exact hI.cover c }
  · rcases bucketPush_entry_cases he2 hq with ⟨e, he, _, hqe⟩ | ⟨_, rfl⟩
    · exact hI.recsM e he q hqe
    · exact hp2
  · rcases bucketPush_entry_cases he2 hq with ⟨e, he, hkey, hqe⟩ | ⟨hkey, rfl⟩
    · rw [← hkey]
      exact hI.watchM e he q hqe
    · rw [hkey]
      rfl
  · have hmem : e2.1 ∈ (bucketPush m d ⟨p.node, p.cls, d :: ds⟩).map
        Prod.fst := List.mem_map.mpr ⟨e2, he2, rfl⟩
    rcases keys_bucketPush m d ⟨p.node, p.cls, d :: ds⟩ with hk | ⟨hk, _⟩
    · rw [hk] at hmem
      rcases List.mem_map.mp hmem with ⟨e, he, hkey⟩
      rw [← hkey]
      exact hI.watchNotA e he
    · rw [hk] at hmem
      rcases List.mem_append.mp hmem with h | h
      · rcases List.mem_map.mp h with ⟨e, he, hkey⟩
        rw [← hkey]
        exact hI.watchNotA e he
      · simp at h
        subst h
        exact hdA
  · rcases keys_bucketPush m d ⟨p.node, p.cls, d :: ds⟩ with hk | ⟨hk, hnone⟩
    · rw [hk]; exact hI.keyNodup
    · rw [hk]
      have hdnm : d ∉ m.map Prod.fst := by
        intro hmem
        rcases List.mem_map.mp hmem with ⟨e, he, hkey⟩
        exact (findBucketIdx_none.mp hnone e he) hkey
      simp [List.nodup_append, hI.keyNodup, hdnm]

theorem map_eraseIdx {β γ : Type} (f : β → γ) (l : List β) (i : Nat) :
    (l.eraseIdx i).map f = (l.map f).eraseIdx i := by
  rw [List.eraseIdx_eq_take_drop_succ, List.eraseIdx_eq_take_drop_succ]
  simp [List.map_take, List.map_drop]

theorem nodup_getElem_not_mem_eraseIdx {β : Type} (l : List β) (i : Nat)
    (hi : i < l.length) (hnd : l.Nodup) : l[i] ∉ l.eraseIdx i := by
  have hm : l = l.take i ++ l[i] :: l.drop (i + 1) := by
    conv_lhs => rw [← List.take_append_drop i l]
    congr 1
    exact List.drop_eq_getElem_cons hi
  rw [List.eraseIdx_eq_take_drop_succ]
  intro hmem
  have hnd2 : (l.take i ++ l[i] :: l.drop (i + 1)).Nodup := hm ▸ hnd
  have := List.nodup_middle.mp hnd2
  simp only [List.nodup_cons] at this
  exact this.1 hmem

theorem key_unique {m : DepsMap} (hnd : (m.map Prod.fst).Nodup) {i : Nat}
    (hi : i < m.length) {e : ClassId × List PendingNode}
    (he : e ∈ m.eraseIdx i) : e.1 ≠ m[i].1 := by
  intro hkey
  have h1 : e.1 ∈ (m.eraseIdx i).map Prod.fst := List.mem_map.mpr ⟨e, he, rfl⟩
  rw [map_eraseIdx] at h1
  have hi2 : i < (m.map Prod.fst).length := by simpa using hi
  have h2 : (m.map Prod.fst)[i] = m[i].1 := by
    rw [List.getElem_map]
  have h3 := nodup_getElem_not_mem_eraseIdx (m.map Prod.fst) i hi2 hnd
  rw [h2] at h3
  rw [hkey] at h1
  exact h3 h1

theorem mem_pendings {m : DepsMap} {e : ClassId × List PendingNode}
    {q : PendingNode} (he : e ∈ m) (hq : q ∈ e.2) : q ∈ pendings m := by
  unfold pendings
  exact List.mem_flatten.mpr ⟨e.2, List.mem_map.mpr ⟨e, he, rfl⟩, hq⟩

/-- Records survive when the committed assignment is extended by a class
that is not theirs. -/
theorem RecordWF.extend {g : EgraphT} {a P : Assignment} {q : PendingNode}
    (h : RecordWF g a P q) {c : ClassId} {n : NodeId} (hne : q.cls ≠ c) :
    RecordWF g (a ++ [(c, n)]) P q :=
  { ne := h.ne
    sub := h.sub
    cov := fun ch hch => by
      rcases h.cov ch hch with h2 | h2
      · exact Or.inl (by rw [keysA_append]; exact List.mem_append_left _ h2)
      · exact Or.inr h2
    notA := by
      rw [keysA_append]
      intro hmem
      rcases List.mem_append.mp hmem with h2 | h2
      · exact h.notA h2
      · simp [keysA] at h2
        exact hne h2
    inP := h.inP }

theorem OrderClosed.extendBy {g : EgraphT} {a : Assignment} (h : OrderClosed g a)
    {c : ClassId} {n : NodeId} (hch : ∀ ch ∈ g.children n, ch ∈ keysA a) :
    OrderClosed g (a ++ [(c, n)]) := by
  intro i hi ch hc
  have hlen : (a ++ [(c, n)]).length = a.length + 1 := by simp
  by_cases hia : i < a.length
  · rw [List.getElem_append_left hia] at hc
    rw [List.take_append_of_le_length (Nat.le_of_lt hia)]
    exact h i hia ch hc
  · have hieq : i = a.length := by omega
    subst hieq
    rw [List.getElem_append_right (Nat.le_refl _)] at hc
    simp at hc
    rw [List.take_append_of_le_length (Nat.le_refl _), List.take_of_length_le
      (Nat.le_refl _)]
    exact hch ch hc

theorem mem_pendings_inv {m : DepsMap} {q : PendingNode}
    (hq : q ∈ pendings m) : ∃ e ∈ m, q ∈ e.2 := by
  unfold pendings at hq
  rcases List.mem_flatten.mp hq with ⟨l, hl, hql⟩
  rcases List.mem_map.mp hl with ⟨e, he, rfl⟩
  exact ⟨e, he, hql⟩

theorem cascade_commit_core {g : EgraphT} {P : Assignment} {p : PendingNode}
    {rest : List PendingNode} {m : DepsMap} {a : Assignment}
    (hI : CascadeInv g P (p :: rest) m a)
    (hchA : ∀ ch ∈ g.children p.node, ch ∈ keysA a)
    {m2 : DepsMap} {B : List PendingNode}
    (hent : ∀ e ∈ m2, e ∈ m ∧ e.1 ≠ p.cls)
    (hknd : (m2.map Prod.fst).Nodup)
    (hros : ((pendings m2 ++ (B ++ rest)).map PendingNode.cls).Perm
      ((pendings m ++ rest).map PendingNode.cls))
    (hBsub : ∀ q ∈ B, q ∈ pendings m) :
    CascadeInv g P (B ++ rest) m2 (a ++ [(p.cls, p.node)]) := by
  have hpWF := hI.recsW p (by simp)
  have hkeys2 : keysA (a ++ [(p.cls, p.node)]) = keysA a ++ [p.cls] := by
    rw [keysA_append]; rfl
  have hmem2 : ∀ x, x ∈ keysA (a ++ [(p.cls, p.node)]) ↔
      (x ∈ keysA a ∨ x = p.cls) := by
    intro x
    rw [hkeys2]
    simp
  have holdmap : ((pendings m ++ p :: rest).map PendingNode.cls) =
      (pendings m).map PendingNode.cls ++ p.cls ::
        rest.map PendingNode.cls := by
    simp
  have hclsNotPm : p.cls ∉ ((pendings m ++ rest).map PendingNode.cls) := by
    have := hI.clsNodup
    rw [holdmap] at this
    have h2 := List.nodup_middle.mp this
    simp only [List.nodup_cons] at h2
    intro hmem
    exact h2.1 (by simpa using hmem)
  have hsurvives : ∀ q, q ∈ pendings m ∨ q ∈ rest → q.cls ≠ p.cls := by
    intro q hq hcls
    apply hclsNotPm
    rw [← hcls]
    rcases hq with h | h
    · exact List.mem_map.mpr ⟨q, List.mem_append_left _ h, rfl⟩
    · exact List.mem_map.mpr ⟨q, List.mem_append_right _ h, rfl⟩
  have hrecOf : ∀ q, q ∈ pendings m → RecordWF g a P q := by
    intro q hq
    rcases mem_pendings_inv hq with ⟨e, he, hqe⟩
    exact hI.recsM e he q hqe
  have hpmRestNodup : ((pendings m ++ rest).map PendingNode.cls).Nodup := by
    have := hI.clsNodup
    rw [holdmap] at this
    have h2 := List.nodup_middle.mp this
    simp only [List.nodup_cons] at h2
    simpa using h2.2
  refine
    { nodupA := ?_
      subAP := ?_
      ordA := OrderClosed.extendBy hI.ordA hchA
      recsM := ?_
      watchM := fun e he q hq => hI.watchM e (hent e he).1 q hq
      watchNotA := ?_
      keyNodup := hknd
      recsW := ?_
      clsNodup := hros.symm.nodup hpmRestNodup
      cover := ?_ }
  · rw [hkeys2]
    simp only [List.nodup_append, List.nodup_cons]
    exact ⟨hI.nodupA, by simp, by
      intro x hx
      simp only [List.mem_singleton]
      intro hxc
      subst hxc
      exact hpWF.notA hx⟩
  · intro e he
    rcases List.mem_append.mp he with h | h
    · exact hI.subAP e h
    · simp at h
      subst h
      exact hpWF.inP
  · intro e he q hq
    have hqm : q ∈ pendings m := mem_pendings (hent e he).1 hq
    exact (hI.recsM e (hent e he).1 q hq).extend (hsurvives q (Or.inl hqm))
  · intro e he
    rw [hmem2]
    push_neg
    exact ⟨hI.watchNotA e (hent e he).1, (hent e he).2⟩
  · intro q hq
    rcases List.mem_append.mp hq with h | h
    · exact (hrecOf q (hBsub q h)).extend (hsurvives q (Or.inl (hBsub q h)))
    · exact (hI.recsW q (by simp [h])).extend (hsurvives q (Or.inr h))
  · intro c
    rw [hros.mem_iff]
    constructor
    · intro hc
      have hcold : c ∈ ((pendings m ++ p :: rest).map PendingNode.cls) := by
        rcases List.mem_map.mp hc with ⟨q, hq, rfl⟩
        rcases List.mem_append.mp hq with h | h
        · exact List.mem_map.mpr ⟨q, List.mem_append_left _ h, rfl⟩
        · exact List.mem_map.mpr ⟨q, List.mem_append_right _ (by simp [h]), rfl⟩
      have := (hI.cover c).mp hcold
      refine ⟨this.1, ?_⟩
      rw [hmem2]
      push_neg
      refine ⟨this.2, ?_⟩
      intro hcc
      subst hcc
      exact hclsNotPm hc
    · intro ⟨hP, hna2⟩
      rw [hmem2] at hna2
      push_neg at hna2
      have hcold := (hI.cover c).mpr ⟨hP, hna2.1⟩
      rw [holdmap] at hcold
      rw [List.map_append]
      rcases List.mem_append.mp hcold with h | h
      · exact List.mem_append_left _ h
      · simp only [List.mem_cons] at h
        rcases h with h | h
        · exact absurd h hna2.2
        · exact List.mem_append_right _ h

theorem cascade_commit {g : EgraphT} {P : Assignment} {p : PendingNode}
    {rest : List PendingNode} {m : DepsMap} {a : Assignment}
    (hI : CascadeInv g P (p :: rest) m a)
    (hf : p.deps.filter (fun x => ¬ containsKeyA a x) = []) :
    insertA a p.cls p.node = a ++ [(p.cls, p.node)] ∧
    CascadeInv g P ((swapRemoveBucket m p.cls).1.getD [] ++ rest)
      (swapRemoveBucket m p.cls).2 (a ++ [(p.cls, p.node)]) := by
  have hpWF := hI.recsW p (by simp)
  have hins := insertA_of_not_mem p.node hpWF.notA
  have hchA : ∀ ch ∈ g.children p.node, ch ∈ keysA a := by
    intro ch hch
    rcases hpWF.cov ch hch with h | h
    · exact h
    · have h2 : containsKeyA a ch = true := by
        by_contra hcc
        exact (List.filter_eq_nil_iff.mp hf ch h) (by simp [hcc])
      exact (containsKeyA_iff _ _).mp h2
  cases hfb : findBucketIdx p.cls m with
  | none =>
    rw [swapRemove_not_found hfb]
    refine ⟨hins, ?_⟩
    have hres := cascade_commit_core (B := []) hI hchA
      (fun e he => ⟨he, findBucketIdx_none.mp hfb e he⟩) hI.keyNodup
      (by simp) (by intro q hq; simp at hq)
    simpa using hres
  | some i =>
    obtain ⟨hi, m2, heq, hperm⟩ := swapRemove_found hfb
    obtain ⟨hi2, hkey⟩ := findBucketIdx_some hfb
    rw [heq]
    refine ⟨hins, ?_⟩
    have hm2mem : ∀ e ∈ m2, e ∈ m ∧ e.1 ≠ p.cls := by
      intro e he
      have hee : e ∈ m.eraseIdx i := hperm.subset he
      refine ⟨List.mem_of_mem_eraseIdx hee, ?_⟩
      have := key_unique hI.keyNodup hi hee
      rw [hkey] at this
      exact this
    have hknd : (m2.map Prod.fst).Nodup := by
      have h1 : (m2.map Prod.fst).Perm ((m.eraseIdx i).map Prod.fst) :=
        hperm.map _
      have h2 : ((m.eraseIdx i).map Prod.fst).Nodup := by
        rw [map_eraseIdx]
        exact (List.eraseIdx_sublist _ i).nodup hI.keyNodup
      exact h1.symm.nodup h2
    have hp2 : (pendings m2).Perm (pendings (m.eraseIdx i)) := by
      unfold pendings
      exact (hperm.map Prod.snd).flatten
    have hpp := pendings_eraseIdx m i hi
    have hros : ((pendings m2 ++ (m[i].2 ++ rest)).map PendingNode.cls).Perm
        ((pendings m ++ rest).map PendingNode.cls) := by
      refine List.Perm.map _ ?_
      rw [← List.append_assoc]
      refine ((List.perm_append_comm.append_right rest).trans ?_)
      refine ((hp2.append_left m[i].2).append_right rest).trans ?_
      exact (hpp.symm).append_right rest
    have hres := cascade_commit_core (B := m[i].2) hI hchA hm2mem hknd hros
      (fun q hq => mem_pendings (List.getElem_mem hi) hq)
    simpa using hres

/-- Master specification of the resolution cascade: it appends exactly the
newly committed entries to the assignment, returns their number, and
preserves the cascade invariant (in particular, the dependency index is
well-formed for the extended assignment when the worklist is exhausted). -/
theorem resolveLoop_spec (g : EgraphT) (P : Assignment) :
    ∀ wl m a, CascadeInv g P wl m a →
    ∃ delta : Assignment,
      (resolveLoop wl m a).2.2 = a ++ delta ∧
      (resolveLoop wl m a).1 = delta.length ∧
      CascadeInv g P [] (resolveLoop wl m a).2.1 (a ++ delta) := by
  intro wl m a
  induction wl, m, a using resolveLoop.induct with
  | case1 m a =>
    intro hI
    exact ⟨[], by simp [resolveLoop], by simp [resolveLoop], by
      simpa [resolveLoop] using hI⟩
  | case2 p rest m a d ds hf ih =>
    intro hI
    have hf2 : p.deps.filter (fun x => ¬ containsKeyA a x) = d :: ds := hf
    have hI2 := cascade_reinsert hI hf2
    rcases ih hI2 with ⟨delta, h1, h2, h3⟩
    refine ⟨delta, ?_, ?_, ?_⟩
    · simp only [resolveLoop, hf]
      exact h1
    · simp only [resolveLoop, hf]
      exact h2
    · simp only [resolveLoop, hf]
      exact h3
  | case3 p rest m a hf a2 rm ih =>
    intro hI
    have hf2 : p.deps.filter (fun x => ¬ containsKeyA a x) = [] := hf
    obtain ⟨hins, hI2⟩ := cascade_commit hI hf2
    rw [← hins] at hI2
    rcases ih hI2 with ⟨delta2, h1, h2, h3⟩
    have ha2 : a2 ++ delta2 = a ++ (p.cls, p.node) :: delta2 := by
      show insertA a p.cls p.node ++ delta2 = _
      rw [hins]
      simp
    refine ⟨(p.cls, p.node) :: delta2, ?_, ?_, ?_⟩
    · simp only [resolveLoop, hf]
      rw [h1, ha2]
    · simp only [resolveLoop, hf]
      rw [h2]
      simp
    · simp only [resolveLoop, hf]
      rw [← ha2]
      exact h3

theorem RecordWF.monoP {g : EgraphT} {a P P2 : Assignment} {q : PendingNode}
    (h : RecordWF g a P q) (hsub : ∀ e ∈ P, e ∈ P2) : RecordWF g a P2 q :=
  { ne := h.ne, sub := h.sub, cov := h.cov, notA := h.notA,
    inP := hsub _ h.inP }

theorem cascadeInv_to_DepsWF {g : EgraphT} {P2 a2 : Assignment} {m2 : DepsMap}
    (h : CascadeInv g P2 [] m2 a2) : DepsWF g a2 P2 m2 :=
  { recs := h.recsM
    watch := h.watchM
    watchNotA := h.watchNotA
    keyNodup := h.keyNodup
    clsNodup := by simpa using h.clsNodup
    cover := fun x => by simpa using h.cover x }

/-- Filing a fresh record under its first unresolved dependency preserves
the well-formedness of the index, with the dispatched class appended to the
provisional assignment. -/
theorem track_file_wf {g : EgraphT} {P a : Assignment} {m : DepsMap}
    {c : ClassId} {n : NodeId} {d : ClassId} {ds : List ClassId}
    (hWF : DepsWF g a P m) (hcP : c ∉ keysA P) (hca : c ∉ keysA a)
    (hf : (g.children n).filter (fun x => ¬ containsKeyA a x) = d :: ds) :
    DepsWF g a (P ++ [(c, n)]) (bucketPush m d ⟨n, c, d :: ds⟩) := by
  have hP2 : ∀ e ∈ P, e ∈ P ++ [(c, n)] := fun e he =>
    List.mem_append_left _ he
  have hkeysP2 : ∀ x, x ∈ keysA (P ++ [(c, n)]) ↔
      (x ∈ keysA P ∨ x = c) := by
    intro x
    rw [keysA_append]
    simp [keysA]
  have hd : d ∈ (g.children n).filter (fun x => ¬ containsKeyA a x) := by
    rw [hf]; simp
  have hdA : d ∉ keysA a := (mem_filterNotKey.mp hd).2
  have hrec : RecordWF g a (P ++ [(c, n)]) ⟨n, c, d :: ds⟩ :=
    { ne := by simp
      sub := fun x hx => (mem_filterNotKey.mp (hf ▸ hx)).1
      cov := fun ch hch => by
        by_cases hcha : ch ∈ keysA a
        · exact Or.inl hcha
        · exact Or.inr (hf ▸ mem_filterNotKey.mpr ⟨hch, hcha⟩)
      notA := hca
      inP := by simp }
  have hcnew : c ∉ (pendings m).map PendingNode.cls := by
    intro hmem
    exact hcP ((hWF.cover c).mp (by simpa using hmem)).1
  have hperm : ((pendings (bucketPush m d ⟨n, c, d :: ds⟩)).map
      PendingNode.cls).Perm ((pendings m).map PendingNode.cls ++ [c]) := by
    have := List.Perm.map PendingNode.cls (pendings_bucketPush m d
      ⟨n, c, d :: ds⟩)
    simpa using this
  refine
    { recs := fun e2 he2 q hq => ?_
      watch := fun e2 he2 q hq => ?_
      watchNotA := fun e2 he2 => ?_
      keyNodup := ?_
      clsNodup := ?_
      cover := fun x => ?_ }
  · rcases bucketPush_entry_cases he2 hq with ⟨e, he, _, hqe⟩ | ⟨_, rfl⟩
    · exact (hWF.recs e he q hqe).monoP hP2
    · exact hrec
  · rcases bucketPush_entry_cases he2 hq with ⟨e, he, hkey, hqe⟩ | ⟨hkey, rfl⟩
    · rw [← hkey]
      exact hWF.watch e he q hqe
    · rw [hkey]
      rfl
  · have hmem : e2.1 ∈ (bucketPush m d ⟨n, c, d :: ds⟩).map Prod.fst :=
      List.mem_map.mpr ⟨e2, he2, rfl⟩
    rcases keys_bucketPush m d ⟨n, c, d :: ds⟩ with hk | ⟨hk, _⟩
    · rw [hk] at hmem
      rcases List.mem_map.mp hmem with ⟨e, he, hkey⟩
      rw [← hkey]
      exact hWF.watchNotA e he
    · rw [hk] at hmem
      rcases List.mem_append.mp hmem with h | h
      · rcases List.mem_map.mp h with ⟨e, he, hkey⟩
        rw [← hkey]
        exact hWF.watchNotA e he
      · simp at h
        subst h
        exact hdA
  · rcases keys_bucketPush m d ⟨n, c, d :: ds⟩ with hk | ⟨hk, hnone⟩
    · rw [hk]; exact hWF.keyNodup
    · rw [hk]
      have hdnm : d ∉ m.map Prod.fst := by
        intro hmem
        rcases List.mem_map.mp hmem with ⟨e, he, hkey⟩
        exact (findBucketIdx_none.mp hnone e he) hkey
      simp [List.nodup_append, hWF.keyNodup, hdnm]
  · refine hperm.symm.nodup ?_
    simp [List.nodup_append, hWF.clsNodup, hcnew]
  · rw [hperm.mem_iff]
    constructor
    · intro hx
      rcases List.mem_append.mp hx with h | h
      · have := (hWF.cover x).mp h
        exact ⟨(hkeysP2 x).mpr (Or.inl this.1), this.2⟩
      · simp at h
        subst h
        exact ⟨(hkeysP2 x).mpr (Or.inr rfl), hca⟩
    · intro ⟨hx1, hx2⟩
      rcases (hkeysP2 x).mp hx1 with h | h
      · exact List.mem_append_left _ ((hWF.cover x).mpr ⟨h, hx2⟩)
      · subst h
        simp

/-- Specification of `track_pending_assignment` as called on a freshly
dispatched class `c` (just inserted into the provisional assignment):
the committed assignment is extended by exactly the returned number of
entries and every invariant piece survives with `P ++ [(c, n)]` as the
provisional assignment. -/
theorem track_spec {g : EgraphT} {P a : Assignment} {m : DepsMap}
    {c : ClassId} {n : NodeId}
    (hWF : DepsWF g a P m)
    (hnodupA : (keysA a).Nodup) (hsubAP : ∀ e ∈ a, e ∈ P)
    (hordA : OrderClosed g a)
    (hcP : c ∉ keysA P) (hca : c ∉ keysA a) :
    ∃ delta : Assignment,
      (track_pending_assignment m n c a (g.children n)).2.2 = a ++ delta ∧
      (track_pending_assignment m n c a (g.children n)).1 = delta.length ∧
      DepsWF g (a ++ delta) (P ++ [(c, n)])
        (track_pending_assignment m n c a (g.children n)).2.1 ∧
      (keysA (a ++ delta)).Nodup ∧
      (∀ e ∈ a ++ delta, e ∈ P ++ [(c, n)]) ∧
      OrderClosed g (a ++ delta) := by
  have hP2 : ∀ e ∈ P, e ∈ P ++ [(c, n)] := fun e he =>
    List.mem_append_left _ he
  have hkeysP2 : ∀ x, x ∈ keysA (P ++ [(c, n)]) ↔
      (x ∈ keysA P ∨ x = c) := by
    intro x
    rw [keysA_append]
    simp [keysA]
  unfold track_pending_assignment
  cases hf : (g.children n).filter (fun d => ¬ containsKeyA a d) with
  | cons d ds =>
    -- A pending dependency remains: file the record, commit nothing.
    refine ⟨[], by simp, by simp, ?_, by simpa using hnodupA,
      by
        rw [List.append_nil]
        exact fun e he => hP2 e (hsubAP e he),
      by simpa using hordA⟩
    rw [List.append_nil]
    exact track_file_wf hWF hcP hca hf
  | nil =>
    -- No pending dependencies: commit `(c, n)` and run the cascade.
    have hchA : ∀ ch ∈ g.children n, ch ∈ keysA a := by
      intro ch hch
      have h2 : containsKeyA a ch = true := by
        by_contra hcc
        exact (List.filter_eq_nil_iff.mp hf ch hch) (by simp [hcc])
      exact (containsKeyA_iff _ _).mp h2
    have hins : insertA a c n = a ++ [(c, n)] := insertA_of_not_mem n hca
    have hkeys2 : keysA (a ++ [(c, n)]) = keysA a ++ [c] := by
      rw [keysA_append]; rfl
    have hmem2 : ∀ x, x ∈ keysA (a ++ [(c, n)]) ↔
        (x ∈ keysA a ∨ x = c) := by
      intro x
      rw [hkeys2]
      simp
    have hnodupA2 : (keysA (a ++ [(c, n)])).Nodup := by
      rw [hkeys2]
      simp [List.nodup_append, hnodupA, hca]
    have hCI : ∀ {m2 : DepsMap} {B : List PendingNode},
        (∀ e ∈ m2, e ∈ m ∧ e.1 ≠ c) →
        (m2.map Prod.fst).Nodup →
        ((pendings m2 ++ B).map PendingNode.cls).Perm
          ((pendings m).map PendingNode.cls) →
        (∀ q ∈ B, q ∈ pendings m) →
        CascadeInv g (P ++ [(c, n)]) B m2 (a ++ [(c, n)]) := by
      intro m2 B hent hknd hros hBsub
      have hclsNe : ∀ q ∈ pendings m, q.cls ≠ c := by
        intro q hq hqc
        apply hcP
        have : q.cls ∈ (pendings m).map PendingNode.cls :=
          List.mem_map.mpr ⟨q, hq, rfl⟩
        exact hqc ▸ ((hWF.cover q.cls).mp this).1
      have hrecOf : ∀ q ∈ pendings m, RecordWF g a P q := by
        intro q hq
        rcases mem_pendings_inv hq with ⟨e, he, hqe⟩
        exact hWF.recs e he q hqe
      refine
        { nodupA := hnodupA2
          subAP := fun e he => ?_
          ordA := OrderClosed.extendBy hordA hchA
          recsM := fun e he q hq =>
            ((hWF.recs e (hent e he).1 q hq).monoP hP2).extend
              (hclsNe q (mem_pendings (hent e he).1 hq))
          watchM := fun e he q hq => hWF.watch e (hent e he).1 q hq
          watchNotA := fun e he => ?_
          keyNodup := hknd
          recsW := fun q hq =>
            ((hrecOf q (hBsub q hq)).monoP hP2).extend
              (hclsNe q (hBsub q hq))
          clsNodup := ?_
          cover := fun x => ?_ }
      · rcases List.mem_append.mp he with h | h
        · exact hP2 e (hsubAP e h)
        · simp at h
          subst h
          simp
      · rw [hmem2]
        push_neg
        exact ⟨hWF.watchNotA e (hent e he).1, (hent e he).2⟩
      · exact hros.symm.nodup hWF.clsNodup
      · rw [hros.mem_iff]
        rw [hWF.cover x]
        constructor
        · intro ⟨h1, h2⟩
          refine ⟨(hkeysP2 x).mpr (Or.inl h1), ?_⟩
          rw [hmem2]
          push_neg
          exact ⟨h2, fun hxc => hcP (hxc ▸ h1)⟩
        · intro ⟨h1, h2⟩
          rw [hmem2] at h2
          push_neg at h2
          rcases (hkeysP2 x).mp h1 with h | h
          · exact ⟨h, h2.1⟩
          · exact absurd h h2.2
    rw [hins]
    simp only [resolve_dep_eq]
    have hfinish : ∀ {B : List PendingNode} {m2 : DepsMap},
        CascadeInv g (P ++ [(c, n)]) B m2 (a ++ [(c, n)]) →
        ∃ delta : Assignment,
          ((resolveLoop B m2 (a ++ [(c, n)])).1 + 1,
            (resolveLoop B m2 (a ++ [(c, n)])).2.1,
            (resolveLoop B m2 (a ++ [(c, n)])).2.2).2.2 = a ++ delta ∧
          ((resolveLoop B m2 (a ++ [(c, n)])).1 + 1,
            (resolveLoop B m2 (a ++ [(c, n)])).2.1,
            (resolveLoop B m2 (a ++ [(c, n)])).2.2).1 = delta.length ∧
          DepsWF g (a ++ delta) (P ++ [(c, n)])
            ((resolveLoop B m2 (a ++ [(c, n)])).1 + 1,
              (resolveLoop B m2 (a ++ [(c, n)])).2.1,
              (resolveLoop B m2 (a ++ [(c, n)])).2.2).2.1 ∧
          (keysA (a ++ delta)).Nodup ∧
          (∀ e ∈ a ++ delta, e ∈ P ++ [(c, n)]) ∧
          OrderClosed g (a ++ delta) := by
      intro B m2 hI
      rcases resolveLoop_spec g (P ++ [(c, n)]) B m2 (a ++ [(c, n)]) hI with
        ⟨delta2, h1, h2, h3⟩
      have hass : (a ++ [(c, n)]) ++ delta2 = a ++ (c, n) :: delta2 := by
        simp
      rw [hass] at h1 h3
      refine ⟨(c, n) :: delta2, h1, by rw [h2]; simp,
        cascadeInv_to_DepsWF h3, h3.nodupA, h3.subAP, h3.ordA⟩
    cases hfb : findBucketIdx c m with
    | none =>
      rw [swapRemove_not_found hfb]
      simp only [Option.getD_none]
      exact hfinish (@hCI m []
        (fun e he => ⟨he, findBucketIdx_none.mp hfb e he⟩) hWF.keyNodup
        (by simp) (by intro q hq; simp at hq))
    | some i =>
      obtain ⟨hi, m2, heq, hperm⟩ := swapRemove_found hfb
      obtain ⟨hi2, hkey⟩ := findBucketIdx_some hfb
      rw [heq]
      simp only [Option.getD_some]
      have hm2mem : ∀ e ∈ m2, e ∈ m ∧ e.1 ≠ c := by
        intro e he
        have hee : e ∈ m.eraseIdx i := hperm.subset he
        refine ⟨List.mem_of_mem_eraseIdx hee, ?_⟩
        have := key_unique hWF.keyNodup hi hee
        rw [hkey] at this
        exact this
      have hknd : (m2.map Prod.fst).Nodup := by
        have h1 : (m2.map Prod.fst).Perm ((m.eraseIdx i).map Prod.fst) :=
          hperm.map _
        have h2 : ((m.eraseIdx i).map Prod.fst).Nodup := by
          rw [map_eraseIdx]
          exact (List.eraseIdx_sublist _ i).nodup hWF.keyNodup
        exact h1.symm.nodup h2
      have hp2 : (pendings m2).Perm (pendings (m.eraseIdx i)) := by
        unfold pendings
        exact (hperm.map Prod.snd).flatten
      have hpp := pendings_eraseIdx m i hi
      have hros : ((pendings m2 ++ m[i].2).map PendingNode.cls).Perm
          ((pendings m).map PendingNode.cls) := by
        refine List.Perm.map _ ?_
        refine List.perm_append_comm.trans ?_
        refine ((hp2.append_left m[i].2)).trans ?_
        exact hpp.symm
      exact hfinish (@hCI m2 (m[i].2) hm2mem hknd hros
        (fun q hq => mem_pendings (List.getElem_mem hi) hq))

/-! ## Bookkeeping lemmas for `n_remaining` and the snapshot stack -/

theorem length_filter_key (p : Assignment) (q : ClassId → Bool) :
    (p.filter (fun e => q e.1)).length = ((keysA p).filter q).length := by
  unfold keysA
  induction p with
  | nil => rfl
  | cons e rest ih =>
    by_cases h : q e.1 <;> simp [h, List.filter_cons, ih]

theorem remCount_append_entry (a p : Assignment) (c : ClassId) (n : NodeId)
    (hca : c ∉ keysA a) :
    remCount a (p ++ [(c, n)]) = remCount a p + 1 := by
  unfold remCount
  rw [List.filter_append]
  have : containsKeyA a c = false := (containsKeyA_false_iff a c).mpr hca
  simp [this]

theorem nodup_length_eq_of_mem_iff {l1 l2 : List ClassId} (h1 : l1.Nodup)
    (h2 : l2.Nodup) (hiff : ∀ x, x ∈ l1 ↔ x ∈ l2) :
    l1.length = l2.length := by
  rw [← List.toFinset_card_of_nodup h1, ← List.toFinset_card_of_nodup h2]
  congr 1
  ext x
  simp [hiff x]

theorem remCount_extend (a delta p : Assignment)
    (hpnd : (keysA p).Nodup)
    (hnd : (keysA (a ++ delta)).Nodup)
    (hsub : ∀ x ∈ keysA delta, x ∈ keysA p) :
    remCount a p = remCount (a ++ delta) p + delta.length := by
  unfold remCount
  rw [length_filter_key p (fun x => !(containsKeyA a x)),
    length_filter_key p (fun x => !(containsKeyA (a ++ delta) x))]
  have hdnd : (keysA delta).Nodup := by
    rw [keysA_append] at hnd
    exact hnd.of_append_right
  have hdisj : ∀ x ∈ keysA delta, x ∉ keysA a := by
    intro x hx hxa
    rw [keysA_append] at hnd
    exact (List.disjoint_of_nodup_append hnd) hxa hx
  have hsplit : ∀ x ∈ keysA p,
      (!(containsKeyA a x)) =
        ((!(containsKeyA (a ++ delta) x)) || decide (x ∈ keysA delta)) := by
    intro x _
    by_cases hxa : x ∈ keysA a
    · have h1 : containsKeyA a x = true := (containsKeyA_iff _ _).mpr hxa
      have h2 : containsKeyA (a ++ delta) x = true := by
        rw [containsKeyA_iff, keysA_append]
        exact List.mem_append_left _ hxa
      have h3 : x ∉ keysA delta := fun hxd => hdisj x hxd hxa
      simp [h1, h2, h3]
    · have h1 : containsKeyA a x = false := (containsKeyA_false_iff _ _).mpr hxa
      by_cases hxd : x ∈ keysA delta
      · simp [h1, hxd]
      · have h2 : containsKeyA (a ++ delta) x = false := by
          rw [containsKeyA_false_iff, keysA_append]
          intro hmem
          rcases List.mem_append.mp hmem with h | h
          · exact hxa h
          · exact hxd h
        simp [h1, h2, hxd]
  rw [List.filter_congr hsplit]
  have hexcl : ∀ x ∈ keysA p, ¬((!(containsKeyA (a ++ delta) x)) = true ∧
      decide (x ∈ keysA delta) = true) := by
    intro x _ ⟨h1, h2⟩
    simp only [Bool.not_eq_true', decide_eq_true_eq] at h1 h2
    have h3 : containsKeyA (a ++ delta) x = true := by
      rw [containsKeyA_iff, keysA_append]
      exact List.mem_append_right _ h2
    rw [h3] at h1
    simp at h1
  have hor : ∀ l : List ClassId, (∀ x ∈ l, ¬((!(containsKeyA (a ++ delta) x))
      = true ∧ decide (x ∈ keysA delta) = true)) →
      (l.filter (fun x => (!(containsKeyA (a ++ delta) x)) ||
        decide (x ∈ keysA delta))).length =
      (l.filter (fun x => !(containsKeyA (a ++ delta) x))).length +
      (l.filter (fun x => decide (x ∈ keysA delta))).length := by
    intro l
    induction l with
    | nil => intro _; rfl
    | cons x rest ih =>
      intro hl
      have hx := hl x (by simp)
      have hrest := ih (fun y hy => hl y (by simp [hy]))
      by_cases h1 : (!(containsKeyA (a ++ delta) x)) = true
      · have h2 : decide (x ∈ keysA delta) = false := by
          by_contra hc
          exact hx ⟨h1, by simpa using hc⟩
        simp [List.filter_cons, h1, h2, hrest] <;> omega
      · simp only [Bool.not_eq_true] at h1
        by_cases h2 : decide (x ∈ keysA delta) = true
        · simp [List.filter_cons, h1, h2, hrest] <;> omega
        · simp only [Bool.not_eq_true] at h2
          simp [List.filter_cons, h1, h2, hrest] <;> omega
  rw [hor (keysA p) hexcl]
  have hlast : ((keysA p).filter (fun x => decide (x ∈ keysA delta))).length =
      delta.length := by
    have hdnd : (keysA delta).Nodup := by
      rw [keysA_append] at hnd
      exact hnd.of_append_right
    have heq : ((keysA p).filter (fun x => decide (x ∈ keysA delta))).length =
        (keysA delta).length :=
      nodup_length_eq_of_mem_iff (hpnd.filter _) hdnd (by
        intro x
        simp only [List.mem_filter, decide_eq_true_eq]
        exact ⟨fun h => h.2, fun h => ⟨hsub x h, h⟩⟩)
    rw [heq]
    simp [keysA]
  rw [hlast]

theorem GoodSnap_extend {g : EgraphT} {root : ClassId} {A P : Assignment}
    {qd : List ClassId} {s : StateSnapshot} (h : GoodSnap g root A P qd s)
    (dA dP : Assignment) (dQ : List ClassId) :
    GoodSnap g root (A ++ dA) (P ++ dP) (qd ++ dQ) s := by
  have ta : (A ++ dA).take s.assign_len = A.take s.assign_len :=
    List.take_append_of_le_length h.aLen
  have tp : (P ++ dP).take s.prov_len = P.take s.prov_len :=
    List.take_append_of_le_length h.pLen
  have tq : (qd ++ dQ).take s.q.back = qd.take s.q.back :=
    List.take_append_of_le_length h.qbLen
  exact
    { aLen := le_trans h.aLen (by simp)
      pLen := le_trans h.pLen (by simp)
      qfb := h.qfb
      qbLen := le_trans h.qbLen (by simp)
      subAP := by rw [ta, tp]; exact h.subAP
      nrEq := by rw [ta, tp]; exact h.nrEq
      liveNodup := by rw [tq]; exact h.liveNodup
      liveDisj := by rw [tq, tp]; exact h.liveDisj
      replayZero := by rw [ta, tp]; exact h.replayZero
      rootIn := by rw [tq, tp]; exact h.rootIn }

theorem SnapsOK_extend {g : EgraphT} {root : ClassId} {A P : Assignment}
    {qd : List ClassId} {snaps : List StateSnapshot}
    (h : SnapsOK g root A P qd snaps) (dA dP : Assignment)
    (dQ : List ClassId) :
    SnapsOK g root (A ++ dA) (P ++ dP) (qd ++ dQ) snaps := by
  cases snaps with
  | nil => trivial
  | cons s rest =>
    obtain ⟨h1, h2⟩ := h
    refine ⟨GoodSnap_extend h1 dA dP dQ, ?_⟩
    rw [List.take_append_of_le_length h1.aLen,
      List.take_append_of_le_length h1.pLen,
      List.take_append_of_le_length h1.qbLen]
    exact h2

theorem live_eq_cons {q : BQueue ClassId} {c : ClassId}
    (h : q.frontElem = some c) :
    q.live = c :: q.data.drop (q.front + 1) := by
  unfold BQueue.frontElem at h
  unfold BQueue.live
  rw [List.get?_eq_getElem?] at h
  rcases List.getElem?_eq_some.mp h with ⟨hlt, hget⟩
  rw [List.drop_eq_getElem_cons hlt, hget]

/-- The `push_to_visit` fold at the end of `provisional_assign` only
appends fresh undispatched classes to the queue, keeping it deduplicated,
in sync with the set, and disjoint from the provisional assignment. -/
theorem push_foldl_spec (A2 : Assignment) (l : List ClassId) :
    ∀ ps : PendingState,
    ps.to_visit_set = ps.to_visit.live.toFinset →
    ps.to_visit.live.Nodup →
    (∀ x ∈ ps.to_visit.live, x ∉ keysA ps.provisional_assign) →
    ps.to_visit.front ≤ ps.to_visit.data.length →
    ∃ dQ : List ClassId,
      (l.foldl (fun acc ch => if containsKeyA A2 ch then acc
        else acc.push_to_visit ch) ps) =
      { provisional_assign := ps.provisional_assign
        n_remaining := ps.n_remaining
        deps := ps.deps
        to_visit := ⟨ps.to_visit.data ++ dQ, ps.to_visit.front⟩
        to_visit_set := (ps.to_visit.live ++ dQ).toFinset } ∧
      (ps.to_visit.live ++ dQ).Nodup ∧
      (∀ x ∈ ps.to_visit.live ++ dQ, x ∉ keysA ps.provisional_assign) := by
  induction l with
  | nil =>
    intro ps h1 h2 h3 h4
    refine ⟨[], ?_, by simpa using h2, by simpa using h3⟩
    simp only [List.foldl_nil, List.append_nil]
    rw [← h1]
  | cons x rest ih =>
    intro ps h1 h2 h3 h4
    simp only [List.foldl_cons]
    by_cases hx : containsKeyA A2 x
    · rw [if_pos hx]
      exact ih ps h1 h2 h3 h4
    · rw [if_neg hx]
      by_cases hcond : ¬ containsKeyA ps.provisional_assign x = true ∧
          x ∉ ps.to_visit_set
      · have hxp : x ∉ keysA ps.provisional_assign := by
          rw [← containsKeyA_false_iff]
          cases hb : containsKeyA ps.provisional_assign x with
          | true => exact absurd hb hcond.1
          | false => rfl
        have hxl : x ∉ ps.to_visit.live := by
          intro hmem
          exact hcond.2 (h1 ▸ List.mem_toFinset.mpr hmem)
        have hlive2 : (ps.to_visit.pushBack x).live =
            ps.to_visit.live ++ [x] := by
          unfold BQueue.pushBack BQueue.live
          simp only
          rw [List.drop_append_of_le_length h4]
        have hpush : ps.push_to_visit x =
            ⟨ps.provisional_assign, ps.n_remaining, ps.deps,
             ps.to_visit.pushBack x, insert x ps.to_visit_set⟩ := by
          unfold PendingState.push_to_visit
          rw [if_pos hcond]
        rw [hpush]
        set ps2 : PendingState :=
          ⟨ps.provisional_assign, ps.n_remaining, ps.deps,
           ps.to_visit.pushBack x, insert x ps.to_visit_set⟩ with hps2def
        have c1 : ps2.to_visit_set = ps2.to_visit.live.toFinset := by
          show insert x ps.to_visit_set = (ps.to_visit.pushBack x).live.toFinset
          rw [hlive2, h1, List.toFinset_append]
          ext y
          simp [or_comm]
        have c2 : ps2.to_visit.live.Nodup := by
          show (ps.to_visit.pushBack x).live.Nodup
          rw [hlive2]
          simp [List.nodup_append, h2, hxl]
        have c3 : ∀ y ∈ ps2.to_visit.live,
            y ∉ keysA ps2.provisional_assign := by
          show ∀ y ∈ (ps.to_visit.pushBack x).live, _
          rw [hlive2]
          intro y hy
          rcases List.mem_append.mp hy with h | h
          · exact h3 y h
          · simp at h
            subst h
            exact hxp
        have c4 : ps2.to_visit.front ≤ ps2.to_visit.data.length := by
          show ps.to_visit.front ≤ (ps.to_visit.pushBack x).data.length
          unfold BQueue.pushBack
          simp only
          rw [List.length_append]
          omega
        rcases ih ps2 c1 c2 c3 c4 with ⟨dQ, hfold, hnd, hdisj⟩
        refine ⟨x :: dQ, ?_, ?_, ?_⟩
        · rw [hfold]
          have hdata : ps2.to_visit.data = ps.to_visit.data ++ [x] := rfl
          have hfront : ps2.to_visit.front = ps.to_visit.front := rfl
          have hlv : ps2.to_visit.live = ps.to_visit.live ++ [x] := hlive2
          rw [hdata, hfront, hlv]
          simp
        · have : ps2.to_visit.live ++ dQ =
              ps.to_visit.live ++ (x :: dQ) := by
            rw [hlive2]
            simp
          rw [← this]
          exact hnd
        · intro y hy
          have heq2 : ps2.to_visit.live ++ dQ =
              ps.to_visit.live ++ (x :: dQ) := by
            rw [hlive2]
            simp
          apply hdisj y
          rw [heq2]
          exact hy
      · have hpush : ps.push_to_visit x = ps := by
          unfold PendingState.push_to_visit
          rw [if_neg hcond]
        rw [hpush]
        exact ih ps h1 h2 h3 h4

theorem keysA_mono_of_subAP {A P : Assignment} (h : ∀ e ∈ A, e ∈ P) :
    ∀ x ∈ keysA A, x ∈ keysA P := by
  intro x hx
  rcases List.mem_map.mp hx with ⟨e, he, rfl⟩
  exact List.mem_map.mpr ⟨e, h e he, rfl⟩

/-- Dispatching the front class with a member node (`start_next_assign`
followed by `AssignHandle::assign`) succeeds, preserves the invariant, and
only appends: to the committed assignment, to the provisional assignment
(one entry), and to the queue's backing store, advancing the cursor by
one.  The snapshot stack is untouched. -/
theorem do_assign_spec {g : EgraphT} {root : ClassId} {st : ExtractionState}
    {c : ClassId} {node : NodeId}
    (hInv : StInv g root st)
    (hfront : st.pending.to_visit.frontElem = some c)
    (hmem : node ∈ g.members c) :
    ∃ st2, st.do_assign g node = .ok st2 ∧ StInv g root st2 ∧
      (∃ dA, st2.assign = st.assign ++ dA) ∧
      st2.pending.provisional_assign =
        st.pending.provisional_assign ++ [(c, node)] ∧
      (∃ dQ, st2.pending.to_visit.data = st.pending.to_visit.data ++ dQ) ∧
      st2.pending.to_visit.front = st.pending.to_visit.front + 1 ∧
      st2.snapshots = st.snapshots := by
  have hpop : st.pending.to_visit.popFront =
      (some c, ⟨st.pending.to_visit.data, st.pending.to_visit.front + 1⟩) := by
    unfold BQueue.popFront
    unfold BQueue.frontElem at hfront
    rw [hfront]
  have hflt : st.pending.to_visit.front < st.pending.to_visit.data.length := by
    unfold BQueue.frontElem at hfront
    rw [List.get?_eq_getElem?] at hfront
    exact (List.getElem?_eq_some.mp hfront).1
  have hlive : st.pending.to_visit.live =
      c :: st.pending.to_visit.data.drop (st.pending.to_visit.front + 1) :=
    live_eq_cons hfront
  have hcl : c ∈ st.pending.to_visit.live := by rw [hlive]; simp
  have hcP : c ∉ keysA st.pending.provisional_assign := hInv.qDisj c hcl
  have hcA : c ∉ keysA st.assign := fun hx =>
    hcP (keysA_mono_of_subAP hInv.subAP c hx)
  obtain ⟨delta, ht1, ht2, ht3, ht4, ht5, ht6⟩ :=
    track_spec (g := g) (m := st.pending.deps) (n := node)
      hInv.depsWF hInv.nodupA hInv.subAP hInv.ordA hcP hcA
  have hprov : insertA st.pending.provisional_assign c node =
      st.pending.provisional_assign ++ [(c, node)] :=
    insertA_of_not_mem node hcP
  -- The tail of the live queue after the pop.
  set live1 := st.pending.to_visit.data.drop (st.pending.to_visit.front + 1)
    with hlive1def
  have hlive1nd : live1.Nodup := by
    have := hInv.qNodup
    rw [hlive] at this
    exact this.of_cons
  have hcl1 : c ∉ live1 := by
    have := hInv.qNodup
    rw [hlive] at this
    exact (List.nodup_cons.mp this).1
  set r := track_pending_assignment st.pending.deps node c st.assign
    (g.children node) with hrdef
  set ps : PendingState :=
    ⟨insertA st.pending.provisional_assign c node,
     st.pending.n_remaining + 1 - r.1, r.2.1,
     ⟨st.pending.to_visit.data, st.pending.to_visit.front + 1⟩,
     st.pending.to_visit_set.erase c⟩ with hpsdef
  have hpslive : ps.to_visit.live = live1 := by
    show st.pending.to_visit.data.drop (st.pending.to_visit.front + 1) = live1
    rfl
  have c1 : ps.to_visit_set = ps.to_visit.live.toFinset := by
    show st.pending.to_visit_set.erase c = _
    rw [hpslive, hInv.qSet, hlive]
    rw [List.toFinset_cons]
    exact Finset.erase_insert (fun hmemf => hcl1 (List.mem_toFinset.mp hmemf))
  have c2 : ps.to_visit.live.Nodup := by rw [hpslive]; exact hlive1nd
  have c3 : ∀ y ∈ ps.to_visit.live, y ∉ keysA ps.provisional_assign := by
    rw [hpslive]
    intro y hy
    show y ∉ keysA (insertA st.pending.provisional_assign c node)
    rw [hprov, keysA_append]
    intro hmem2
    rcases List.mem_append.mp hmem2 with h | h
    · exact hInv.qDisj y (by rw [hlive]; simp [hy]) h
    · simp [keysA] at h
      subst h
      exact hcl1 hy
  have c4 : ps.to_visit.front ≤ ps.to_visit.data.length := by
    show st.pending.to_visit.front + 1 ≤ st.pending.to_visit.data.length
    omega
  obtain ⟨dQ, hfold, hnd2, hdisj2⟩ := push_foldl_spec r.2.2 (g.children node)
    ps c1 c2 c3 c4
  rw [hpslive] at hfold hnd2 hdisj2
  refine ⟨⟨r.2.2,
    (g.children node).foldl
      (fun acc ch => if containsKeyA r.2.2 ch then acc
        else acc.push_to_visit ch) ps,
    st.snapshots⟩, ?_, ?_, ⟨delta, ht1⟩, ?_, ⟨dQ, ?_⟩, ?_, ?_⟩
  · show st.do_assign g node = .ok _
    unfold ExtractionState.do_assign
    rw [hpop]
    rfl
  case refine_3 =>
    show ((g.children node).foldl _ ps).provisional_assign = _
    rw [hfold]
    exact hprov
  case refine_4 =>
    show ((g.children node).foldl _ ps).to_visit.data = _
    rw [hfold]
  case refine_5 =>
    show ((g.children node).foldl _ ps).to_visit.front = _
    rw [hfold]
  case refine_6 => rfl
  -- The invariant for the new state.
  rw [hfold, ht1]
  have hprovK : keysA (ps.provisional_assign) =
      keysA st.pending.provisional_assign ++ [c] := by
    show keysA (insertA st.pending.provisional_assign c node) = _
    rw [hprov, keysA_append]
    rfl
  have hnodupP2 : (keysA ps.provisional_assign).Nodup := by
    rw [hprovK]
    simp [List.nodup_append, hInv.nodupP, hcP]
  constructor
  case nodupA => exact ht4
  case nodupP => exact hnodupP2
  case subAP =>
    intro e he
    show e ∈ insertA st.pending.provisional_assign c node
    rw [hprov]
    exact ht5 e he
  case memP =>
    intro e he
    have : e ∈ st.pending.provisional_assign ++ [(c, node)] := by
      rw [← hprov]
      exact he
    rcases List.mem_append.mp this with h | h
    · exact hInv.memP e h
    · simp at h
      subst h
      exact hmem
  case ordA => exact ht6
  case nrEq =>
    show st.pending.n_remaining + 1 - r.1 =
      remCount (st.assign ++ delta) ps.provisional_assign
    have e1 : remCount st.assign
        (st.pending.provisional_assign ++ [(c, node)]) =
        remCount st.assign st.pending.provisional_assign + 1 :=
      remCount_append_entry _ _ c node hcA
    have e2 : remCount st.assign (st.pending.provisional_assign ++
        [(c, node)]) = remCount (st.assign ++ delta)
        (st.pending.provisional_assign ++ [(c, node)]) + delta.length := by
      refine remCount_extend _ _ _ ?_ ht4 ?_
      · rw [keysA_append]
        refine List.Nodup.append hInv.nodupP (by simp [keysA]) ?_
        intro x hx hx2
        simp [keysA] at hx2
        subst hx2
        exact hcP hx
      · intro x hx
        rcases List.mem_map.mp hx with ⟨e, he, rfl⟩
        have : e ∈ st.pending.provisional_assign ++ [(c, node)] :=
          ht5 e (List.mem_append_right _ he)
        exact List.mem_map.mpr ⟨e, this, rfl⟩
    have e3 := hInv.nrEq
    have e4 : r.1 = delta.length := ht2
    show _ = remCount (st.assign ++ delta)
      (insertA st.pending.provisional_assign c node)
    rw [hprov]
    omega
  case qNodup =>
    show ((⟨st.pending.to_visit.data ++ dQ,
      st.pending.to_visit.front + 1⟩ : BQueue ClassId)).live.Nodup
    unfold BQueue.live
    simp only
    rw [List.drop_append_of_le_length (by omega)]
    exact hnd2
  case qSet =>
    show (live1 ++ dQ).toFinset = _
    unfold BQueue.live
    simp only
    rw [List.drop_append_of_le_length (by omega)]
  case qDisj =>
    intro y hy
    unfold BQueue.live at hy
    simp only at hy
    rw [List.drop_append_of_le_length (by omega)] at hy
    exact hdisj2 y hy
  case qFront =>
    show st.pending.to_visit.front + 1 ≤
      (st.pending.to_visit.data ++ dQ).length
    rw [List.length_append]
    omega
  case depsWF =>
    show DepsWF g (st.assign ++ delta) ps.provisional_assign r.2.1
    have : ps.provisional_assign =
        st.pending.provisional_assign ++ [(c, node)] := hprov
    rw [this]
    exact ht3
  case rootIn =>
    unfold BQueue.live
    simp only
    rw [List.drop_append_of_le_length (by omega)]
    rcases hInv.rootIn with h | h
    · rw [hlive] at h
      rcases List.mem_cons.mp h with h | h
      · subst h
        right
        rw [hprovK]
        simp
      · left
        exact List.mem_append_left _ h
    · right
      rw [hprovK]
      exact List.mem_append_left _ h
  case snapsOK =>
    show SnapsOK g root (st.assign ++ delta)
      (insertA st.pending.provisional_assign c node)
      (st.pending.to_visit.data ++ dQ) st.snapshots
    rw [hprov]
    exact SnapsOK_extend hInv.snapsOK delta [(c, node)] dQ

/-! ## Replaying provisional entries (`PendingState::restore`) -/

theorem track_eq_of_filter_cons {g : EgraphT} {m : DepsMap} {n : NodeId}
    {c : ClassId} {a : Assignment} {d : ClassId} {ds : List ClassId}
    (hf : (g.children n).filter (fun x => ¬ containsKeyA a x) = d :: ds) :
    track_pending_assignment m n c a (g.children n) =
      (0, bucketPush m d ⟨n, c, d :: ds⟩, a) := by
  unfold track_pending_assignment
  rw [hf]

/-- Recording a provisional entry whose class is already committed leaves the
dependency index untouched and well-formed. -/
theorem DepsWF.extendP_mem {g : EgraphT} {a P : Assignment} {m : DepsMap}
    {c : ClassId} {n : NodeId} (hWF : DepsWF g a P m) (hc : c ∈ keysA a) :
    DepsWF g a (P ++ [(c, n)]) m := by
  refine ⟨fun e he q hq => (hWF.recs e he q hq).monoP
      (fun e2 he2 => List.mem_append_left _ he2),
    hWF.watch, hWF.watchNotA, hWF.keyNodup, hWF.clsNodup, fun x => ?_⟩
  rw [hWF.cover x, keysA_append]
  constructor
  · intro ⟨h1, h2⟩
    exact ⟨List.mem_append_left _ h1, h2⟩
  · intro ⟨h1, h2⟩
    rcases List.mem_append.mp h1 with h | h
    · exact ⟨h, h2⟩
    · simp [keysA] at h
      subst h
      exact absurd hc h2

/-- The empty dependency index is well-formed for an empty provisional
assignment. -/
theorem DepsWF.empty (g : EgraphT) (a : Assignment) : DepsWF g a [] [] := by
  refine ⟨?_, ?_, ?_, ?_, ?_, ?_⟩ <;> simp [pendings, keysA]

/-- The replay loop of `restore` never panics and never commits: provided
every surviving uncommitted entry still has an unresolved child (the
`replayZero` snapshot fact), each `track_pending_assignment` call returns
zero, the assignment comes back unchanged, and the rebuilt index is
well-formed. -/
theorem replayLoop_spec (g : EgraphT) (A2 : Assignment) :
    ∀ (l Q : Assignment) (m : DepsMap),
    DepsWF g A2 Q m →
    (keysA (Q ++ l)).Nodup →
    (∀ e ∈ l, e.1 ∉ keysA A2 → ∃ ch ∈ g.children e.2, ch ∉ keysA A2) →
    ∃ m2, replayLoop g l m A2 = .ok (m2, A2) ∧ DepsWF g A2 (Q ++ l) m2 := by
  intro l
  induction l with
  | nil =>
    intro Q m hWF _ _
    exact ⟨m, rfl, by simpa using hWF⟩
  | cons e rest ih =>
    intro Q m hWF hnd hrz
    obtain ⟨c0, n0⟩ := e
    have hc0Q : c0 ∉ keysA Q := by
      rw [keysA_append] at hnd
      intro h
      exact (List.disjoint_of_nodup_append hnd) h (by simp [keysA])
    unfold replayLoop
    by_cases hca : containsKeyA A2 c0
    · rw [if_pos hca]
      have hWF2 : DepsWF g A2 (Q ++ [(c0, n0)]) m :=
        hWF.extendP_mem ((containsKeyA_iff _ _).mp hca)
      have hnd2 : (keysA ((Q ++ [(c0, n0)]) ++ rest)).Nodup := by
        rw [List.append_assoc]
        simpa using hnd
      obtain ⟨m2, hrun, hWF3⟩ := ih (Q ++ [(c0, n0)]) m hWF2 hnd2
        (fun e2 he2 h => hrz e2 (List.mem_cons_of_mem _ he2) h)
      refine ⟨m2, hrun, ?_⟩
      rw [List.append_assoc] at hWF3
      simpa using hWF3
    · rw [if_neg hca]
      have hc0A : c0 ∉ keysA A2 := fun h => hca ((containsKeyA_iff _ _).mpr h)
      obtain ⟨ch, hch, hchA⟩ := hrz (c0, n0) (by simp) hc0A
      cases hf : (g.children n0).filter (fun x => ¬ containsKeyA A2 x) with
      | nil =>
        exact absurd (mem_filterNotKey.mpr ⟨hch, hchA⟩) (by rw [hf]; simp)
      | cons d ds =>
        rw [track_eq_of_filter_cons hf]
        have h0 : ((0 : Nat), bucketPush m d ⟨n0, c0, d :: ds⟩, A2).1 = 0 := rfl
        rw [if_pos h0]
        have hWF2 : DepsWF g A2 (Q ++ [(c0, n0)])
            (bucketPush m d ⟨n0, c0, d :: ds⟩) :=
          track_file_wf hWF hc0Q hc0A hf
        have hnd2 : (keysA ((Q ++ [(c0, n0)]) ++ rest)).Nodup := by
          rw [List.append_assoc]
          simpa using hnd
        obtain ⟨m2, hrun, hWF3⟩ := ih (Q ++ [(c0, n0)]) _ hWF2 hnd2
          (fun e2 he2 h => hrz e2 (List.mem_cons_of_mem _ he2) h)
        refine ⟨m2, hrun, ?_⟩
        rw [List.append_assoc] at hWF3
        simpa using hWF3

/-- A prefix of an order-closed assignment is order-closed. -/
theorem OrderClosed.take {g : EgraphT} {a : Assignment} (h : OrderClosed g a)
    (n : Nat) : OrderClosed g (a.take n) := by
  intro i hi ch hch
  have hlen : i < min n a.length := by simpa using hi
  have hia : i < a.length := lt_of_lt_of_le hlen (min_le_right _ _)
  have hin : i < n := lt_of_lt_of_le hlen (min_le_left _ _)
  rw [List.getElem_take] at hch
  have h2 := h i hia ch hch
  rw [List.take_take, min_eq_left (le_of_lt hin)]
  exact h2

/-- `ExtractionState::reset` never panics on an invariant-satisfying state:
it returns a state that satisfies the invariant again, keeps the snapshot
stack, and — when a snapshot exists — restores the committed assignment,
the provisional assignment, `n_remaining` and the queue exactly to the
top-snapshot truncations. -/
theorem reset_spec {g : EgraphT} {root : ClassId} {st : ExtractionState}
    (hInv : StInv g root st) :
    ∃ st2, st.reset g = .ok st2 ∧ StInv g root st2 ∧
      st2.snapshots = st.snapshots ∧
      (st.snapshots = [] → st2 = st) ∧
      (∀ s rest, st.snapshots = s :: rest →
        st2.assign = st.assign.take s.assign_len ∧
        st2.pending.provisional_assign =
          st.pending.provisional_assign.take s.prov_len ∧
        st2.pending.n_remaining = s.n_remaining ∧
        st2.pending.to_visit =
          ⟨st.pending.to_visit.data.take s.q.back, s.q.front⟩ ∧
        st2.pending.to_visit_set = st2.pending.to_visit.live.toFinset) := by
  cases hsn : st.snapshots with
  | nil =>
    refine ⟨st, ?_, hInv, hsn, fun _ => rfl, fun s rest h => ?_⟩
    · unfold ExtractionState.reset
      rw [hsn]
    · exact absurd h (by simp)
  | cons s rest =>
    set A' := st.assign.take s.assign_len with hA'
    set P' := st.pending.provisional_assign.take s.prov_len with hP'
    have hGS : GoodSnap g root st.assign st.pending.provisional_assign
        st.pending.to_visit.data s := by
      have h := hInv.snapsOK
      rw [hsn] at h
      exact h.1
    have hrest : SnapsOK g root A' P'
        (st.pending.to_visit.data.take s.q.back) rest := by
      have h := hInv.snapsOK
      rw [hsn] at h
      exact h.2
    have hndP' : (keysA P').Nodup := by
      rw [hP', keysA_take]
      exact (List.take_sublist _ _).nodup hInv.nodupP
    obtain ⟨m2, hrun, hWF2⟩ := replayLoop_spec g A' P' [] [] (DepsWF.empty g A')
      (by simpa using hndP') hGS.replayZero
    have hWF2' : DepsWF g A' P' m2 := by simpa using hWF2
    have hA'len : A'.length = s.assign_len := by
      rw [hA', List.length_take]
      exact min_eq_left hGS.aLen
    have hP'len : P'.length = s.prov_len := by
      rw [hP', List.length_take]
      exact min_eq_left hGS.pLen
    have hA'take : A'.take s.assign_len = A' :=
      List.take_of_length_le (le_of_eq hA'len)
    have hP'take : P'.take s.prov_len = P' :=
      List.take_of_length_le (le_of_eq hP'len)
    have hQlen : (st.pending.to_visit.data.take s.q.back).length = s.q.back := by
      rw [List.length_take]
      exact min_eq_left hGS.qbLen
    have hQtake : (st.pending.to_visit.data.take s.q.back).take s.q.back =
        st.pending.to_visit.data.take s.q.back :=
      List.take_of_length_le (le_of_eq hQlen)
    refine ⟨⟨A', ⟨P', s.n_remaining, m2, st.pending.to_visit.restore s.q,
      (st.pending.to_visit.restore s.q).live.toFinset⟩, s :: rest⟩,
      ?_, ?_, hsn.symm ▸ rfl, ?_, ?_⟩
    · show st.reset g = _
      unfold ExtractionState.reset PendingState.restore
      rw [hsn]
      simp only
      rw [← hA', ← hP', hrun]
      rfl
    · refine ⟨?_, hndP', hGS.subAP, ?_, hInv.ordA.take _, hGS.nrEq, ?_, rfl,
        ?_, ?_, hWF2', ?_, ?_⟩
      · rw [hA', keysA_take]
        exact (List.take_sublist _ _).nodup hInv.nodupA
      · intro e he
        exact hInv.memP e (List.take_subset _ _ (hP' ▸ he))
      · exact hGS.liveNodup
      · exact hGS.liveDisj
      · show s.q.front ≤ (st.pending.to_visit.data.take s.q.back).length
        rw [hQlen]
        exact hGS.qfb
      · exact hGS.rootIn
      · show SnapsOK g root A' P' (st.pending.to_visit.data.take s.q.back)
          (s :: rest)
        refine ⟨?_, ?_⟩
        · refine ⟨le_of_eq hA'len.symm, le_of_eq hP'len.symm, hGS.qfb,
            le_of_eq hQlen.symm, ?_, ?_, ?_, ?_, ?_, ?_⟩
          · rw [hA'take, hP'take]
            exact hGS.subAP
          · rw [hA'take, hP'take]
            exact hGS.nrEq
          · rw [hQtake]
            exact hGS.liveNodup
          · rw [hQtake, hP'take]
            exact hGS.liveDisj
          · rw [hA'take, hP'take]
            exact hGS.replayZero
          · rw [hQtake, hP'take]
            exact hGS.rootIn
        · rw [hA'take, hP'take, hQtake]
          exact hrest
    · intro h
      exact absurd h (by simp)
    · intro s2 rest2 h
      injection h with h1 h2
      subst h1
      exact ⟨hA', hP', rfl, rfl, rfl⟩

/-! ## Snapshot push/pop and the initial state -/

/-- On duplicate-free keys, an association list is functional. -/
theorem keys_nodup_functional {P : Assignment} (h : (keysA P).Nodup)
    {c : ClassId} {n1 n2 : NodeId} (h1 : (c, n1) ∈ P) (h2 : (c, n2) ∈ P) :
    n1 = n2 := by
  induction P with
  | nil => cases h1
  | cons e rest ih =>
    simp only [keysA, List.map_cons, List.nodup_cons] at h
    rcases List.mem_cons.mp h1 with he1 | he1 <;>
      rcases List.mem_cons.mp h2 with he2 | he2
    · rw [← he1] at he2
      exact (Prod.mk.injEq _ _ _ _).mp he2.symm |>.2
    · exact absurd (List.mem_map.mpr ⟨(c, n2), he2, by rw [← he1]⟩) h.1
    · exact absurd (List.mem_map.mpr ⟨(c, n1), he1, by rw [← he2]⟩) h.1
    · exact ih h.2 he1 he2

/-- Any uncommitted provisional entry has a watched (hence uncommitted)
child: the fact `restore` relies on to replay without committing. -/
theorem DepsWF.replayZero {g : EgraphT} {a P : Assignment} {m : DepsMap}
    (hWF : DepsWF g a P m) (hndP : (keysA P).Nodup) :
    ∀ e ∈ P, e.1 ∉ keysA a → ∃ ch ∈ g.children e.2, ch ∉ keysA a := by
  intro e he hea
  have hcls : e.1 ∈ (pendings m).map PendingNode.cls :=
    (hWF.cover e.1).mpr ⟨List.mem_map.mpr ⟨e, he, rfl⟩, hea⟩
  rcases List.mem_map.mp hcls with ⟨q, hq, hqcls⟩
  rcases mem_pendings_inv hq with ⟨e2, he2, hqe2⟩
  have hwatch := hWF.watch e2 he2 q hqe2
  have hwNA := hWF.watchNotA e2 he2
  have hd : e2.1 ∈ q.deps := by
    cases hq2 : q.deps with
    | nil => rw [hq2] at hwatch; simp at hwatch
    | cons d ds =>
      rw [hq2] at hwatch
      simp at hwatch
      rw [← hwatch]
      simp
  have hsub := (hWF.recs e2 he2 q hqe2).sub e2.1 hd
  have hinP := (hWF.recs e2 he2 q hqe2).inP
  have hnode : q.node = e.2 := by
    have h1 : (e.1, q.node) ∈ P := by
      rw [← hqcls]
      exact hinP
    have h2 : (e.1, e.2) ∈ P := by
      rw [Prod.mk.eta]
      exact he
    exact keys_nodup_functional hndP h1 h2
  rw [hnode] at hsub
  exact ⟨e2.1, hsub, hwNA⟩

/-- A snapshot that records the full current lengths is consistent,
provided the corresponding live facts hold. -/
theorem GoodSnap_full {g : EgraphT} {root : ClassId} {A P : Assignment}
    {qd : List ClassId} {s : StateSnapshot}
    (h1 : s.assign_len = A.length) (h2 : s.prov_len = P.length)
    (h3 : s.q.back = qd.length) (h4 : s.q.front ≤ qd.length)
    (hsub : ∀ e ∈ A, e ∈ P)
    (hnr : s.n_remaining = remCount A P)
    (hnd : (qd.drop s.q.front).Nodup)
    (hdisj : ∀ c ∈ qd.drop s.q.front, c ∉ keysA P)
    (hrz : ∀ e ∈ P, e.1 ∉ keysA A → ∃ ch ∈ g.children e.2, ch ∉ keysA A)
    (hroot : root ∈ qd.drop s.q.front ∨ root ∈ keysA P) :
    GoodSnap g root A P qd s := by
  have hfb : s.q.front ≤ s.q.back := by
    rw [h3]
    exact h4
  refine ⟨le_of_eq h1, le_of_eq h2, hfb, le_of_eq h3, ?_, ?_, ?_, ?_, ?_, ?_⟩
  · rw [h1, h2, List.take_length, List.take_length]
    exact hsub
  · rw [h1, h2, List.take_length, List.take_length]
    exact hnr
  · rw [h3, List.take_length]
    exact hnd
  · rw [h3, h2, List.take_length, List.take_length]
    exact hdisj
  · rw [h1, h2, List.take_length, List.take_length]
    exact hrz
  · rw [h3, h2, List.take_length, List.take_length]
    exact hroot

/-- Truncating at the full lengths does not change the state the stack is
judged against. -/
theorem SnapsOK_take_length {g : EgraphT} {root : ClassId} {A P : Assignment}
    {qd : List ClassId} {l : List StateSnapshot}
    (h : SnapsOK g root A P qd l) {n k b : Nat}
    (hn : n = A.length) (hk : k = P.length) (hb : b = qd.length) :
    SnapsOK g root (A.take n) (P.take k) (qd.take b) l := by
  subst hn hk hb
  rw [List.take_length, List.take_length, List.take_length]
  exact h

/-- `push_snapshot` preserves the invariant: the recorded snapshot is
consistent by construction. -/
theorem push_snapshot_inv {g : EgraphT} {root : ClassId}
    {st : ExtractionState} (hInv : StInv g root st) :
    StInv g root st.push_snapshot := by
  refine ⟨hInv.nodupA, hInv.nodupP, hInv.subAP, hInv.memP, hInv.ordA,
    hInv.nrEq, hInv.qNodup, hInv.qSet, hInv.qDisj, hInv.qFront, hInv.depsWF,
    hInv.rootIn, ?_⟩
  refine ⟨?_, ?_⟩
  · exact GoodSnap_full rfl rfl rfl hInv.qFront hInv.subAP hInv.nrEq
      hInv.qNodup hInv.qDisj (hInv.depsWF.replayZero hInv.nodupP) hInv.rootIn
  · exact SnapsOK_take_length hInv.snapsOK rfl rfl rfl

/-- A snapshot stack consistent with a truncation of the state is consistent
with the state itself. -/
theorem SnapsOK_promote {g : EgraphT} {root : ClassId} {A P : Assignment}
    {qd : List ClassId} {n k b : Nat} {l : List StateSnapshot}
    (h : SnapsOK g root (A.take n) (P.take k) (qd.take b) l) :
    SnapsOK g root A P qd l := by
  cases l with
  | nil => trivial
  | cons s rest =>
    obtain ⟨hG, hrest⟩ := h
    have han : s.assign_len ≤ n := le_trans hG.aLen (by
      rw [List.length_take]; exact min_le_left _ _)
    have hpk : s.prov_len ≤ k := le_trans hG.pLen (by
      rw [List.length_take]; exact min_le_left _ _)
    have hqb : s.q.back ≤ b := le_trans hG.qbLen (by
      rw [List.length_take]; exact min_le_left _ _)
    have hAeq : (A.take n).take s.assign_len = A.take s.assign_len := by
      rw [List.take_take, min_eq_left han]
    have hPeq : (P.take k).take s.prov_len = P.take s.prov_len := by
      rw [List.take_take, min_eq_left hpk]
    have hQeq : (qd.take b).take s.q.back = qd.take s.q.back := by
      rw [List.take_take, min_eq_left hqb]
    have haA : s.assign_len ≤ A.length :=
      le_trans hG.aLen (by rw [List.length_take]; exact min_le_right _ _)
    have hpP : s.prov_len ≤ P.length :=
      le_trans hG.pLen (by rw [List.length_take]; exact min_le_right _ _)
    have hbQ : s.q.back ≤ qd.length :=
      le_trans hG.qbLen (by rw [List.length_take]; exact min_le_right _ _)
    refine ⟨?_, ?_⟩
    · refine ⟨haA, hpP, hG.qfb, hbQ, ?_, ?_, ?_, ?_, ?_, ?_⟩
      · have h2 := hG.subAP
        rw [hAeq, hPeq] at h2
        exact h2
      · have h2 := hG.nrEq
        rw [hAeq, hPeq] at h2
        exact h2
      · have h2 := hG.liveNodup
        rw [hQeq] at h2
        exact h2
      · have h2 := hG.liveDisj
        rw [hQeq, hPeq] at h2
        exact h2
      · have h2 := hG.replayZero
        rw [hAeq, hPeq] at h2
        exact h2
      · have h2 := hG.rootIn
        rw [hQeq, hPeq] at h2
        exact h2
    · rw [hAeq, hPeq, hQeq] at hrest
      exact hrest

/-- `pop_snapshot` preserves the invariant. -/
theorem pop_snapshot_inv {g : EgraphT} {root : ClassId}
    {st : ExtractionState} (hInv : StInv g root st) :
    StInv g root st.pop_snapshot := by
  refine ⟨hInv.nodupA, hInv.nodupP, hInv.subAP, hInv.memP, hInv.ordA,
    hInv.nrEq, hInv.qNodup, hInv.qSet, hInv.qDisj, hInv.qFront, hInv.depsWF,
    hInv.rootIn, ?_⟩
  show SnapsOK g root st.assign st.pending.provisional_assign
    st.pending.to_visit.data st.snapshots.tail
  cases hs : st.snapshots with
  | nil => trivial
  | cons s rest =>
    have h := hInv.snapsOK
    rw [hs] at h
    exact SnapsOK_promote h.2

/-- On an invariant-satisfying state, `start_next_assign` never hits the
`assert!`: it returns the front of the queue. -/
theorem start_next_assign_spec {g : EgraphT} {root : ClassId}
    {st : ExtractionState} (hInv : StInv g root st) :
    st.start_next_assign = .ok st.pending.to_visit.frontElem := by
  unfold ExtractionState.start_next_assign
  cases hfe : st.pending.to_visit.frontElem with
  | none => rfl
  | some c =>
    have hcl : c ∈ st.pending.to_visit.live := by
      rw [live_eq_cons hfe]
      simp
    have hset : c ∈ st.pending.to_visit_set := by
      rw [hInv.qSet]
      exact List.mem_toFinset.mpr hcl
    show (if c ∈ st.pending.to_visit_set then Res.ok (some c) else Res.panic) =
      Res.ok (some c)
    rw [if_pos hset]

/-- The freshly created `ExtractionState` satisfies the invariant. -/
theorem new_inv (g : EgraphT) (root : ClassId) :
    StInv g root (ExtractionState.new root) := by
  have hps : (⟨[], 0, [], BQueue.empty, ∅⟩ : PendingState).push_to_visit root
      = ⟨[], 0, [], ⟨[root], 0⟩, {root}⟩ := by
    unfold PendingState.push_to_visit
    rw [if_pos]
    · rfl
    · refine ⟨by simp [containsKeyA], by simp⟩
  have h0 : StInv g root ⟨[],
      (⟨[], 0, [], BQueue.empty, ∅⟩ : PendingState).push_to_visit root, []⟩ := by
    rw [hps]
    refine ⟨by simp [keysA], by simp [keysA], by simp, by simp, ?_,
      rfl, ?_, ?_, ?_, ?_, DepsWF.empty g [], ?_, trivial⟩
    · intro i hi
      simp at hi
    · show ((([root] : List ClassId).drop 0)).Nodup
      simp
    · show ({root} : Finset ClassId) = (([root] : List ClassId).drop 0).toFinset
      simp
    · intro c hc
      simp [keysA]
    · show (0 : Nat) ≤ ([root] : List ClassId).length
      simp
    · exact Or.inl (by show root ∈ ([root] : List ClassId).drop 0; simp)
  show StInv g root (ExtractionState.push_snapshot _)
  exact push_snapshot_inv h0

/-! ## The rollout estimator leaves the observable state unchanged -/

/-- The rollout loop either runs out of fuel or returns a state that still
satisfies the invariant and only extends the append-only components,
keeping the snapshot stack intact. -/
theorem rolloutLoop_spec (g : EgraphT) (root : ClassId) :
    ∀ (fuel : Nat) (st : ExtractionState) (r : Rng), StInv g root st →
    (rolloutLoop g fuel st r = .out ∨
     ∃ res, rolloutLoop g fuel st r = .ok res ∧ StInv g root res.2.1 ∧
       (∃ dA, res.2.1.assign = st.assign ++ dA) ∧
       (∃ dP, res.2.1.pending.provisional_assign =
         st.pending.provisional_assign ++ dP) ∧
       (∃ dQ, res.2.1.pending.to_visit.data =
         st.pending.to_visit.data ++ dQ) ∧
       res.2.1.snapshots = st.snapshots) := by
  intro fuel
  induction fuel with
  | zero =>
    intro st r _
    exact Or.inl rfl
  | succ fuel ih =>
    intro st r hInv
    unfold rolloutLoop
    rw [start_next_assign_spec hInv]
    cases hfe : st.pending.to_visit.frontElem with
    | none =>
      refine Or.inr ⟨(st.complete_assignment.map g.utility, st, r), rfl,
        hInv, ⟨[], (List.append_nil _).symm⟩, ⟨[], (List.append_nil _).symm⟩,
        ⟨[], (List.append_nil _).symm⟩, rfl⟩
    | some c =>
      have hshow : ∀ z : Res (Option ℚ × ExtractionState × Rng),
          ((if (g.members c).isEmpty = true then Res.ok (none, st, r)
            else Res.bind (st.do_assign g ((g.members c).getD
              (genRange (g.members c).length r).1 0)) fun st2 =>
              rolloutLoop g fuel st2 (genRange (g.members c).length r).2) = z)
          → (Res.bind (Res.ok (some c)) (fun h =>
              match h with
              | none => Res.ok (st.complete_assignment.map g.utility, st, r)
              | some c =>
                if (g.members c).isEmpty then Res.ok (none, st, r)
                else
                  Res.bind (st.do_assign g ((g.members c).getD
                    (genRange (g.members c).length r).1 0)) fun st2 =>
                  rolloutLoop g fuel st2
                    (genRange (g.members c).length r).2) = z) :=
        fun z h => h
      by_cases hmem : (g.members c).isEmpty
      · refine Or.inr ⟨(none, st, r), hshow _ (by rw [if_pos hmem]), hInv,
          ⟨[], (List.append_nil _).symm⟩, ⟨[], (List.append_nil _).symm⟩,
          ⟨[], (List.append_nil _).symm⟩, rfl⟩
      · have hlen : 0 < (g.members c).length := by
          cases hm : g.members c with
          | nil => rw [hm] at hmem; simp at hmem
          | cons x xs => simp [hm]
        have hidx : (genRange (g.members c).length r).1 <
            (g.members c).length := Nat.mod_lt _ hlen
        have hnode : (g.members c).getD (genRange (g.members c).length r).1 0
            ∈ g.members c := by
          rw [List.getD_eq_getElem _ _ hidx]
          exact List.getElem_mem _
        obtain ⟨st2, hok, hInv2, ⟨dA, hdA⟩, hdP, ⟨dQ, hdQ⟩, hfr, hsn⟩ :=
          do_assign_spec hInv hfe hnode
        rcases ih st2 (genRange (g.members c).length r).2 hInv2 with hout |
          ⟨res, hrun, hInv3, ⟨dA2, hdA2⟩, ⟨dP2, hdP2⟩, ⟨dQ2, hdQ2⟩, hsn2⟩
        · refine Or.inl (hshow _ ?_)
          rw [if_neg hmem, hok]
          exact hout
        · refine Or.inr ⟨res, hshow _ ?_, hInv3, ?_, ?_, ?_, ?_⟩
          · rw [if_neg hmem, hok]
            exact hrun
          · exact ⟨dA ++ dA2, by rw [hdA2, hdA, List.append_assoc]⟩
          · exact ⟨[(c, (g.members c).getD (genRange (g.members c).length r).1
                0)] ++ dP2, by rw [hdP2, hdP, List.append_assoc]⟩
          · exact ⟨dQ ++ dQ2, by rw [hdQ2, hdQ, List.append_assoc]⟩
          · rw [hsn2, hsn]

/-- `random_cost_estimate` (when its rollout does not run out of fuel)
returns a state satisfying the invariant whose observable part — committed
assignment, provisional assignment, `n_remaining`, queue, to-visit set and
snapshot stack — is exactly that of the input state. -/
theorem random_cost_estimate_spec {g : EgraphT} {root : ClassId}
    {st : ExtractionState} (fuel : Nat) (r : Rng) (hInv : StInv g root st) :
    random_cost_estimate g fuel st r = .out ∨
    ∃ u st2 r2, random_cost_estimate g fuel st r = .ok (u, st2, r2) ∧
      StInv g root st2 ∧ obs st2 = obs st := by
  unfold random_cost_estimate
  rcases rolloutLoop_spec g root fuel st.push_snapshot r
      (push_snapshot_inv hInv) with hout |
    ⟨res, hrun, hInv2, ⟨dA, hdA⟩, ⟨dP, hdP⟩, ⟨dQ, hdQ⟩, hsn⟩
  · left
    rw [hout]
    rfl
  · right
    have hdA2 : res.2.1.assign = st.assign ++ dA := hdA
    have hdP2 : res.2.1.pending.provisional_assign =
        st.pending.provisional_assign ++ dP := hdP
    have hdQ2 : res.2.1.pending.to_visit.data =
        st.pending.to_visit.data ++ dQ := hdQ
    have hsn2 : res.2.1.snapshots =
        (⟨st.assign.length, st.pending.provisional_assign.length,
          st.pending.n_remaining,
          ⟨st.pending.to_visit.front, st.pending.to_visit.data.length⟩⟩ :
          StateSnapshot) :: st.snapshots := hsn
    obtain ⟨st3, hreset, hInv3, hsn3, _, hcons⟩ := reset_spec hInv2
    obtain ⟨hA3, hP3, hnr3, hq3, hset3⟩ := hcons _ _ hsn2
    have hA4 : st3.assign = res.2.1.assign.take st.assign.length := hA3
    have hP4 : st3.pending.provisional_assign =
        res.2.1.pending.provisional_assign.take
          st.pending.provisional_assign.length := hP3
    have hnr4 : st3.pending.n_remaining = st.pending.n_remaining := hnr3
    have hq4 : st3.pending.to_visit =
        ⟨res.2.1.pending.to_visit.data.take st.pending.to_visit.data.length,
         st.pending.to_visit.front⟩ := hq3
    have e1 : st3.assign = st.assign := by
      rw [hA4, hdA2]
      exact List.take_left _ _
    have e2 : st3.pending.provisional_assign =
        st.pending.provisional_assign := by
      rw [hP4, hdP2]
      exact List.take_left _ _
    have e4 : st3.pending.to_visit = st.pending.to_visit := by
      rw [hq4, hdQ2, List.take_left]
    have e5 : st3.pending.to_visit_set = st.pending.to_visit_set := by
      rw [hset3, e4, ← hInv.qSet]
    have e6 : st3.snapshots =
        (⟨st.assign.length, st.pending.provisional_assign.length,
          st.pending.n_remaining,
          ⟨st.pending.to_visit.front, st.pending.to_visit.data.length⟩⟩ :
          StateSnapshot) :: st.snapshots := by
      rw [hsn3, hsn2]
    refine ⟨res.1, st3.pop_snapshot, res.2.2, ?_,
      pop_snapshot_inv hInv3, ?_⟩
    · rw [hrun]
      show Res.bind (res.2.1.reset g) _ = _
      rw [hreset]
      rfl
    · show (st3.assign, st3.pending.provisional_assign,
        st3.pending.n_remaining, st3.pending.to_visit,
        st3.pending.to_visit_set, st3.snapshots.tail) =
        (st.assign, st.pending.provisional_assign, st.pending.n_remaining,
         st.pending.to_visit, st.pending.to_visit_set, st.snapshots)
      rw [e1, e2, hnr4, e4, e5, e6]
      rfl

/-- C2: on a reachable (invariant-satisfying) extraction state,
`random_cost_estimate` leaves the state observably unchanged: whenever it
returns (with a utility or with none), the committed assignment, the
provisional assignment, `n_remaining`, the to-visit queue (backing store and
cursor), the to-visit set and the snapshot stack all equal their values at
the moment of the call. -/
theorem random_cost_estimate_frame {g : EgraphT} {root : ClassId}
    {st st2 : ExtractionState} {fuel : Nat} {r r2 : Rng} {u : Option ℚ}
    (hInv : StInv g root st)
    (hrun : random_cost_estimate g fuel st r = .ok (u, st2, r2)) :
    st2.assign = st.assign ∧
    st2.pending.provisional_assign = st.pending.provisional_assign ∧
    st2.pending.n_remaining = st.pending.n_remaining ∧
    st2.pending.to_visit = st.pending.to_visit ∧
    st2.pending.to_visit_set = st.pending.to_visit_set ∧
    st2.snapshots = st.snapshots := by
  rcases random_cost_estimate_spec fuel r hInv with hout |
    ⟨u2, st3, r3, hok, _, hobs⟩
  · rw [hout] at hrun
    exact Res.noConfusion hrun
  · rw [hok] at hrun
    injection hrun with h
    have hst : st3 = st2 := congrArg (fun p => p.2.1) h
    rw [hst] at hobs
    simp only [obs, Prod.mk.injEq] at hobs
    exact hobs

/-- C2 witness: a concrete rollout on the Scenario A e-graph, rooted at a
class with no members, with the all-zeros RNG stream. -/
theorem random_cost_estimate_frame_witness :
    (ExtractionState.new 7).assign = (ExtractionState.new 7).assign ∧
    (ExtractionState.new 7).pending.provisional_assign =
      (ExtractionState.new 7).pending.provisional_assign ∧
    (ExtractionState.new 7).pending.n_remaining =
      (ExtractionState.new 7).pending.n_remaining ∧
    (ExtractionState.new 7).pending.to_visit =
      (ExtractionState.new 7).pending.to_visit ∧
    (ExtractionState.new 7).pending.to_visit_set =
      (ExtractionState.new 7).pending.to_visit_set ∧
    (ExtractionState.new 7).snapshots = (ExtractionState.new 7).snapshots :=
  @random_cost_estimate_frame gA 7 (ExtractionState.new 7)
    (ExtractionState.new 7) 10 (fun _ => 0) (fun _ => 0) none
    (new_inv gA 7) (by rfl)

/-- C7: on a reachable (invariant-satisfying) extraction state, the replay
in `PendingState::restore` commits nothing — for the top snapshot, replaying
the surviving provisional entries returns the truncated assignment unchanged
and never panics — so `reset` always returns normally. -/
theorem reset_never_panics {g : EgraphT} {root : ClassId}
    {st : ExtractionState} (hInv : StInv g root st) :
    (∃ st2, st.reset g = .ok st2) ∧
    (∀ s rest, st.snapshots = s :: rest →
      ∃ m2, replayLoop g (st.pending.provisional_assign.take s.prov_len) []
        (st.assign.take s.assign_len) =
        .ok (m2, st.assign.take s.assign_len)) := by
  obtain ⟨st2, hok, _⟩ := reset_spec hInv
  refine ⟨⟨st2, hok⟩, ?_⟩
  intro s rest hsn
  have hGS : GoodSnap g root st.assign st.pending.provisional_assign
      st.pending.to_visit.data s := by
    have h := hInv.snapsOK
    rw [hsn] at h
    exact h.1
  have hndP : (keysA (st.pending.provisional_assign.take s.prov_len)).Nodup := by
    rw [keysA_take]
    exact (List.take_sublist _ _).nodup hInv.nodupP
  obtain ⟨m2, hrun, _⟩ := replayLoop_spec g (st.assign.take s.assign_len)
    (st.pending.provisional_assign.take s.prov_len) [] []
    (DepsWF.empty g _) (by simpa using hndP) hGS.replayZero
  exact ⟨m2, hrun⟩

/-- C7 witness: resetting the freshly created state for the Scenario A
e-graph. -/
theorem reset_never_panics_witness :
    (∃ st2, (ExtractionState.new 0).reset gA = .ok st2) ∧
    (∀ s rest, (ExtractionState.new 0).snapshots = s :: rest →
      ∃ m2, replayLoop gA
        ((ExtractionState.new 0).pending.provisional_assign.take s.prov_len)
        [] ((ExtractionState.new 0).assign.take s.assign_len) =
        .ok (m2, (ExtractionState.new 0).assign.take s.assign_len)) :=
  reset_never_panics (new_inv gA 0)

/-- C8: on every reachable extraction state no class is both a key of
`provisional_assign` and a member of `to_visit_set`, and every public
operation — creation, `push_snapshot`, `pop_snapshot`, `reset`, and
`start_next_assign` followed by `assign` (`do_assign`) — preserves the
reachable-state invariant and hence this disjointness. -/
theorem provisional_tovisit_disjoint {g : EgraphT} {root : ClassId} :
    (∀ st, StInv g root st →
      ∀ c ∈ keysA st.pending.provisional_assign,
        c ∉ st.pending.to_visit_set) ∧
    StInv g root (ExtractionState.new root) ∧
    (∀ st, StInv g root st → StInv g root st.push_snapshot) ∧
    (∀ st, StInv g root st → StInv g root st.pop_snapshot) ∧
    (∀ st, StInv g root st → ∃ st2, st.reset g = .ok st2 ∧ StInv g root st2) ∧
    (∀ st c node, StInv g root st →
      st.pending.to_visit.frontElem = some c → node ∈ g.members c →
      ∃ st2, st.do_assign g node = .ok st2 ∧ StInv g root st2) := by
  refine ⟨?_, new_inv g root, fun st h => push_snapshot_inv h,
    fun st h => pop_snapshot_inv h, ?_, ?_⟩
  · intro st hInv c hc hset
    rw [hInv.qSet] at hset
    exact hInv.qDisj c (List.mem_toFinset.mp hset) hc
  · intro st hInv
    obtain ⟨st2, hok, hInv2, _⟩ := reset_spec hInv
    exact ⟨st2, hok, hInv2⟩
  · intro st c node hInv hfe hmem
    obtain ⟨st2, hok, hInv2, _⟩ := do_assign_spec hInv hfe hmem
    exact ⟨st2, hok, hInv2⟩

/-- C8 witness: the Scenario A e-graph with root class 0; the dispatch
conjunct applied to the first assignment from the initial state. -/
theorem provisional_tovisit_disjoint_witness :
    ∃ st2, (ExtractionState.new 0).do_assign gA 0 = .ok st2 ∧
      StInv gA 0 st2 :=
  (provisional_tovisit_disjoint).2.2.2.2.2 (ExtractionState.new 0) 0 0
    (new_inv gA 0) rfl (by simp [gA])

/-! ## C1: soundness of a returned assignment -/

/-- A concrete term over the e-graph: a chosen e-node with subterms. -/
inductive Term where
  | mk : NodeId → List Term → Term

/-- Collect a list of options, failing on the first `none`. -/
def allSome {α : Type} : List (Option α) → Option (List α)
  | [] => some []
  | none :: _ => none
  | some x :: rest => (allSome rest).map (x :: ·)

/-- Unfold the term induced by an assignment from a class, with fuel
bounding the recursion depth. -/
def unfoldClass (g : EgraphT) (a : Assignment) : Nat → ClassId → Option Term
  | 0, _ => none
  | fuel + 1, c =>
    match lookupA a c with
    | none => none
    | some n =>
      match allSome ((g.children n).map (unfoldClass g a fuel)) with
      | some ts => some (Term.mk n ts)
      | none => none

theorem allSome_of_forall {α : Type} :
    ∀ (l : List (Option α)), (∀ x ∈ l, ∃ y, x = some y) →
    ∃ ys, allSome l = some ys := by
  intro l
  induction l with
  | nil => exact fun _ => ⟨[], rfl⟩
  | cons x rest ih =>
    intro h
    obtain ⟨y, hy⟩ := h x (by simp)
    obtain ⟨ys, hys⟩ := ih (fun z hz => h z (List.mem_cons_of_mem _ hz))
    subst hy
    exact ⟨y :: ys, by simp [allSome, hys]⟩

theorem lookupA_eq_of_mem {a : Assignment} (hnd : (keysA a).Nodup)
    {c : ClassId} {n : NodeId} (h : (c, n) ∈ a) : lookupA a c = some n := by
  induction a with
  | nil => cases h
  | cons e rest ih =>
    simp only [keysA, List.map_cons, List.nodup_cons] at hnd
    rcases List.mem_cons.mp h with he | he
    · subst he
      simp [lookupA, List.find?]
    · have hne : e.1 ≠ c := by
        intro hc
        exact hnd.1 (List.mem_map.mpr ⟨(c, n), he, hc.symm⟩)
      have := ih hnd.2 he
      unfold lookupA at this ⊢
      rw [List.find?_cons_of_neg _ (by simp [hne])]
      exact this

theorem keysA_take_mono {a : Assignment} {i j : Nat} (hij : i ≤ j)
    {c : ClassId} (h : c ∈ keysA (a.take i)) : c ∈ keysA (a.take j) := by
  rw [keysA_take] at h ⊢
  have hsub : (keysA a).take i = ((keysA a).take j).take i := by
    rw [List.take_take, min_eq_left hij]
  rw [hsub] at h
  exact (List.take_sublist _ _).mem h

/-- Under the ordering invariant, unfolding any committed class with fuel
at least its position succeeds: the induced term is finite. -/
theorem unfoldClass_of_ordered {g : EgraphT} {a : Assignment}
    (hnd : (keysA a).Nodup) (hord : OrderClosed g a) :
    ∀ (i : Nat) (c : ClassId), c ∈ keysA (a.take i) →
    ∃ t, unfoldClass g a i c = some t := by
  intro i
  induction i with
  | zero =>
    intro c h
    simp [keysA] at h
  | succ i ih =>
    intro c h
    rw [keysA_take] at h
    obtain ⟨j, hj, hjc⟩ := List.mem_take_iff_getElem.mp h
    have hjlen : j < a.length := by
      simpa [keysA] using hj.trans_le (min_le_right _ _)
    have hjiq : j < i + 1 := lt_of_lt_of_le hj (min_le_left _ _)
    have hkey : (a[j].1, a[j].2) ∈ a := by
      rw [Prod.mk.eta]
      exact List.getElem_mem _
    have hgc : a[j].1 = c := by
      rw [← hjc]
      simp [keysA]
    have hlook : lookupA a c = some a[j].2 := by
      rw [← hgc]
      exact lookupA_eq_of_mem hnd hkey
    have hch : ∀ ch ∈ g.children a[j].2, ch ∈ keysA (a.take i) := by
      intro ch hc2
      exact keysA_take_mono (by omega) (hord j hjlen ch hc2)
    obtain ⟨ts, hts⟩ := allSome_of_forall
      ((g.children a[j].2).map (unfoldClass g a i)) (by
        intro x hx
        rcases List.mem_map.mp hx with ⟨ch, hchm, rfl⟩
        obtain ⟨t, ht⟩ := ih ch (hch ch hchm)
        exact ⟨t, ht⟩)
    refine ⟨Term.mk a[j].2 ts, ?_⟩
    unfold unfoldClass
    rw [hlook]
    show (match allSome ((g.children a[j].2).map (unfoldClass g a i)) with
      | some ts => some (Term.mk a[j].2 ts)
      | none => none) = some (Term.mk a[j].2 ts)
    rw [hts]

/-- Soundness of a complete assignment on an invariant-satisfying state:
members, children-closure, root coverage and a finite induced term. -/
theorem complete_sound {g : EgraphT} {root : ClassId}
    {st : ExtractionState} {a : Assignment} (hInv : StInv g root st)
    (h : st.complete_assignment = some a) :
    (∀ e ∈ a, e.2 ∈ g.members e.1) ∧
    (∀ e ∈ a, ∀ ch ∈ g.children e.2, ch ∈ keysA a) ∧
    root ∈ keysA a ∧
    (∃ t, unfoldClass g a a.length root = some t) := by
  unfold ExtractionState.complete_assignment at h
  by_cases hc : st.pending.n_remaining = 0 ∧ st.pending.to_visit_set = ∅
  swap
  · rw [if_neg hc] at h
    cases h
  rw [if_pos hc] at h
  injection h with ha
  subst ha
  have hmem : ∀ e ∈ st.assign, e.2 ∈ g.members e.1 := fun e he =>
    hInv.memP e (hInv.subAP e he)
  have hcc : ∀ e ∈ st.assign, ∀ ch ∈ g.children e.2,
      ch ∈ keysA st.assign := by
    intro e he ch hch
    obtain ⟨i, hi, hie⟩ := List.mem_iff_getElem.mp he
    have h2 := hInv.ordA i hi ch (by rw [hie]; exact hch)
    have h3 : ch ∈ keysA (st.assign.take st.assign.length) :=
      keysA_take_mono (le_of_lt hi) h2
    rw [List.take_length] at h3
    exact h3
  have hlive : st.pending.to_visit.live = [] := by
    have h4 := hInv.qSet
    rw [hc.2] at h4
    exact (List.toFinset_eq_empty_iff _).mp h4.symm
  have hroot : root ∈ keysA st.pending.provisional_assign := by
    rcases hInv.rootIn with h4 | h4
    · rw [hlive] at h4
      cases h4
    · exact h4
  have hsubK : ∀ c ∈ keysA st.pending.provisional_assign,
      c ∈ keysA st.assign := by
    intro c hc2
    rcases List.mem_map.mp hc2 with ⟨e, he, rfl⟩
    have hnr := hInv.nrEq
    rw [hc.1] at hnr
    have hl0 : (st.pending.provisional_assign.filter
        (fun e => !(containsKeyA st.assign e.1))).length = 0 := hnr.symm
    have hfe : st.pending.provisional_assign.filter
        (fun e => !(containsKeyA st.assign e.1)) = [] :=
      List.length_eq_zero.mp hl0
    by_contra hnc
    have h5 := mem_filterNotKeyE.mpr ⟨he, hnc⟩
    rw [hfe] at h5
    cases h5
  have hrootA : root ∈ keysA st.assign := hsubK root hroot
  refine ⟨hmem, hcc, hrootA, ?_⟩
  exact unfoldClass_of_ordered hInv.nodupA hInv.ordA st.assign.length root
    (by rw [List.take_length]; exact hrootA)

/-- The search-tree shape invariant: every recorded child edge points into
the node vector and its e-node belongs to the members of the child's class. -/
def TreeInv (g : EgraphT) (t : SearchTree) : Prop :=
  ∀ nd ∈ t.nodes, ∀ e ∈ nd.state,
    e.2 < t.nodes.length ∧ e.1 ∈ g.members ((t.nodes.getD e.2 default).cls)

/-- The search-state invariant: the extraction state is reachable and the
tree is well-formed. -/
def SSInv (g : EgraphT) (root : ClassId) (S : SearchState) : Prop :=
  StInv g root S.assignment ∧ TreeInv g S.tree

theorem chooseNext_node_mem {nc : NumCtx} {cq : ℚ} {t : SearchTree}
    {cur : TreeNode} {total : Nat} {mems : List NodeId}
    {res : ℚ × Option Nat × NodeId}
    (h : chooseNext nc cq t cur total mems = some res) : res.2.2 ∈ mems := by
  unfold chooseNext at h
  suffices haux : ∀ (l : List NodeId) (acc : Option (ℚ × Option Nat × NodeId)),
      (∀ x ∈ l, x ∈ mems) → (∀ b, acc = some b → b.2.2 ∈ mems) →
      ∀ res2, l.foldl
        (fun best node =>
          let triple :=
            match (cur.state.find? (fun e => e.1 = node)).map (fun e => e.2)
              with
            | some child =>
              let cn := t.nodes.getD child default
              (uct_score nc cn.n_visits
                (cn.total_utility / cast_util (max cn.n_visits 1)) total cq,
               some child, node)
            | none => (uct_score nc 0 (cast_util 0) total cq, none, node)
          match best with
          | none => some triple
          | some b => if triple.1 ≥ b.1 then some triple else some b)
        acc = some res2 → res2.2.2 ∈ mems by
    exact haux mems none (fun x hx => hx) (by simp) res h
  intro l
  induction l with
  | nil =>
    intro acc _ hacc res2 h2
    exact hacc res2 h2
  | cons x rest ih =>
    intro acc hsub hacc res2 h2
    refine ih _ (fun y hy => hsub y (List.mem_cons_of_mem _ hy)) ?_ res2 h2
    intro b hb
    have hx : x ∈ mems := hsub x (by simp)
    cases hfind : (cur.state.find? (fun e => e.1 = x)).map (fun e => e.2) with
    | some child =>
      simp only [hfind] at hb
      split at hb
      · injection hb with hb2
        rw [← hb2]
        exact hx
      · rename_i bb b2
        split at hb
        · injection hb with hb2
          rw [← hb2]
          exact hx
        · injection hb with hb2
          rw [← hb2]
          exact hacc b2 rfl
    | none =>
      simp only [hfind] at hb
      split at hb
      · injection hb with hb2
        rw [← hb2]
        exact hx
      · rename_i bb b2
        split at hb
        · injection hb with hb2
          rw [← hb2]
          exact hx
        · injection hb with hb2
          rw [← hb2]
          exact hacc b2 rfl

theorem maxVisitsChild_mem {t : SearchTree} {stl : List (NodeId × Nat)}
    {res : NodeId × Nat} (h : maxVisitsChild t stl = some res) : res ∈ stl := by
  unfold maxVisitsChild at h
  suffices haux : ∀ (l : List (NodeId × Nat))
      (acc : Option (NodeId × Nat × Nat)),
      (∀ x ∈ l, x ∈ stl) → (∀ b, acc = some b → (b.1, b.2.1) ∈ stl) →
      ∀ res2, l.foldl
        (fun best e =>
          let v := (t.nodes.getD e.2 default).n_visits
          match best with
          | none => some (e.1, e.2, v)
          | some b => if v ≥ b.2.2 then some (e.1, e.2, v) else some b)
        acc = some res2 → (res2.1, res2.2.1) ∈ stl by
    rcases Option.map_eq_some'.mp h with ⟨b, hb, hres⟩
    have := haux stl none (fun x hx => hx) (by simp) b hb
    rw [← hres]
    exact this
  intro l
  induction l with
  | nil =>
    intro acc _ hacc res2 h2
    exact hacc res2 h2
  | cons x rest ih =>
    intro acc hsub hacc res2 h2
    refine ih _ (fun y hy => hsub y (List.mem_cons_of_mem _ hy)) ?_ res2 h2
    intro b hb
    have hx : x ∈ stl := hsub x (by simp)
    simp only [] at hb
    split at hb
    · injection hb with hb2
      rw [← hb2]
      exact hx
    · rename_i bb b2
      split at hb
      · injection hb with hb2
        rw [← hb2]
        exact hx
      · injection hb with hb2
        rw [← hb2]
        exact hacc b2 rfl

/-- `SearchTree.new` satisfies the tree invariant. -/
theorem TreeInv_new (g : EgraphT) (root : ClassId) :
    TreeInv g (SearchTree.new root) := by
  intro nd hnd e he
  simp [SearchTree.new] at hnd
  rw [hnd] at he
  cases he

/-- `fresh_node` (on success) preserves the invariant; the new node carries
the requested class and sits at the old length. -/
theorem fresh_node_ok {g : EgraphT} {t : SearchTree} {cls : ClassId}
    {idv : Nat} {t2 : SearchTree}
    (hT : TreeInv g t) (h : t.fresh_node cls = .ok (idv, t2)) :
    TreeInv g t2 ∧ idv = t.nodes.length ∧
    t2.nodes.length = t.nodes.length + 1 ∧
    (t2.nodes.getD idv default).cls = cls ∧
    (∀ i, i < t.nodes.length →
      t2.nodes.getD i default = t.nodes.getD i default) := by
  unfold SearchTree.fresh_node at h
  by_cases hlt : t.nodes.length < 2 ^ 32
  swap
  · rw [if_neg hlt] at h
    cases h
  rw [if_pos hlt] at h
  injection h with h2
  have hid : idv = t.nodes.length := (congrArg Prod.fst h2).symm
  have ht2 : t2 = { t with nodes := t.nodes ++ [⟨cls, 0, 0, []⟩] } :=
    (congrArg Prod.snd h2).symm
  subst hid ht2
  have hsame : ∀ i, i < t.nodes.length →
      (t.nodes ++ [(⟨cls, 0, 0, []⟩ : TreeNode)]).getD i default =
        t.nodes.getD i default := by
    intro i hi
    simp only [List.getD_eq_getElem?_getD, List.getElem?_append_left hi]
  refine ⟨?_, rfl, by simp, ?_, hsame⟩
  · intro nd hnd e he
    rcases List.mem_append.mp hnd with hm | hm
    · obtain ⟨hb, hmem⟩ := hT nd hm e he
      refine ⟨by simp; omega, ?_⟩
      rw [hsame e.2 hb]
      exact hmem
    · simp at hm
      rw [hm] at he
      cases he
  · simp only [List.getD_eq_getElem?_getD,
      List.getElem?_append_right (le_refl _)]
    simp

/-- `addChild` preserves the invariant when the new edge is well-formed. -/
theorem addChild_ok {g : EgraphT} {t : SearchTree} {cur : Nat}
    {enode : NodeId} {ch : Nat}
    (hT : TreeInv g t) (hch : ch < t.nodes.length)
    (hmem : enode ∈ g.members ((t.nodes.getD ch default).cls)) :
    TreeInv g (t.addChild cur enode ch) ∧
    (t.addChild cur enode ch).nodes.length = t.nodes.length ∧
    (∀ i, ((t.addChild cur enode ch).nodes.getD i default).cls =
      (t.nodes.getD i default).cls) := by
  unfold SearchTree.addChild
  have hlen : (t.nodes.set cur
      { t.nodes.getD cur default with
        state := (t.nodes.getD cur default).state ++ [(enode, ch)] }).length =
      t.nodes.length := List.length_set _ _ _
  have hcls : ∀ i, ((t.nodes.set cur
      { t.nodes.getD cur default with
        state := (t.nodes.getD cur default).state ++ [(enode, ch)] }).getD i
        default).cls = (t.nodes.getD i default).cls := by
    intro i
    by_cases hic : i = cur
    · subst hic
      simp only [List.getD_eq_getElem?_getD, List.getElem?_set_self']
      cases t.nodes[i]? with
      | none => rfl
      | some nd => rfl
    · simp only [List.getD_eq_getElem?_getD,
        List.getElem?_set_ne (Ne.symm hic)]
  refine ⟨?_, hlen, hcls⟩
  intro nd hnd e he
  rcases List.mem_or_eq_of_mem_set hnd with hm | hm
  · obtain ⟨hb, hmem2⟩ := hT nd hm e he
    refine ⟨by rw [hlen]; exact hb, ?_⟩
    rw [hcls e.2]
    exact hmem2
  · rw [hm] at he
    rcases List.mem_append.mp he with hold | hnew
    · by_cases hcur : cur < t.nodes.length
      · have hcm : t.nodes.getD cur default ∈ t.nodes := by
          rw [List.getD_eq_getElem _ _ hcur]
          exact List.getElem_mem _
        obtain ⟨hb, hmem2⟩ := hT _ hcm e hold
        refine ⟨by rw [hlen]; exact hb, ?_⟩
        rw [hcls e.2]
        exact hmem2
      · have h0 : t.nodes.getD cur default = default := by
          rw [List.getD_eq_getElem?_getD, List.getElem?_eq_none (by omega)]
          rfl
        rw [h0] at hold
        cases hold
    · simp at hnew
      rw [hnew]
      refine ⟨by rw [hlen]; exact hch, ?_⟩
      rw [hcls ch]
      exact hmem

/-- Backpropagation changes only visit counts and utilities: lengths,
classes and child maps are untouched. -/
theorem backprop_shape (u : ℚ) :
    ∀ (path : List Nat) (t : SearchTree),
    (backprop t path u).nodes.length = t.nodes.length ∧
    ∀ i, ((backprop t path u).nodes.getD i default).cls =
        (t.nodes.getD i default).cls ∧
      ((backprop t path u).nodes.getD i default).state =
        (t.nodes.getD i default).state := by
  have haux : ∀ (l : List Nat) (t : SearchTree),
      (l.foldl (fun acc i => ⟨acc.root_class, acc.root_tree_node,
        acc.nodes.set i (bumpNode (acc.nodes.getD i default) u)⟩)
        t).nodes.length = t.nodes.length ∧
      ∀ i, ((l.foldl (fun acc i => ⟨acc.root_class, acc.root_tree_node,
          acc.nodes.set i (bumpNode (acc.nodes.getD i default) u)⟩)
          t).nodes.getD i default).cls = (t.nodes.getD i default).cls ∧
        ((l.foldl (fun acc i => ⟨acc.root_class, acc.root_tree_node,
          acc.nodes.set i (bumpNode (acc.nodes.getD i default) u)⟩)
          t).nodes.getD i default).state = (t.nodes.getD i default).state := by
    intro l
    induction l with
    | nil => exact fun t => ⟨rfl, fun i => ⟨rfl, rfl⟩⟩
    | cons j rest ih =>
      intro t
      obtain ⟨hlen, hpt⟩ := ih
        ⟨t.root_class, t.root_tree_node,
         t.nodes.set j (bumpNode (t.nodes.getD j default) u)⟩
      have hstep : ∀ i,
          ((t.nodes.set j (bumpNode (t.nodes.getD j default) u)).getD i
            default).cls = (t.nodes.getD i default).cls ∧
          ((t.nodes.set j (bumpNode (t.nodes.getD j default) u)).getD i
            default).state = (t.nodes.getD i default).state := by
        intro i
        by_cases hij : i = j
        · subst hij
          simp only [List.getD_eq_getElem?_getD, List.getElem?_set_self']
          cases t.nodes[i]? with
          | none => exact ⟨rfl, rfl⟩
          | some nd => exact ⟨rfl, rfl⟩
        · simp only [List.getD_eq_getElem?_getD,
            List.getElem?_set_ne (Ne.symm hij), and_self]
      refine ⟨?_, fun i => ⟨?_, ?_⟩⟩
      · exact hlen.trans (List.length_set _ _ _)
      · exact ((hpt i).1).trans ((hstep i).1)
      · exact ((hpt i).2).trans ((hstep i).2)
  intro path t
  exact haux path.reverse t

/-- A tree with the same classes and child maps satisfies the invariant of
the original. -/
theorem TreeInv_of_shape {g : EgraphT} {t t2 : SearchTree}
    (hlen : t2.nodes.length = t.nodes.length)
    (hpt : ∀ i, (t2.nodes.getD i default).cls =
        (t.nodes.getD i default).cls ∧
      (t2.nodes.getD i default).state = (t.nodes.getD i default).state)
    (h : TreeInv g t) : TreeInv g t2 := by
  intro nd hnd e he
  obtain ⟨i, hi, hieq⟩ := List.mem_iff_getElem.mp hnd
  have hgd : t2.nodes.getD i default = nd := by
    rw [List.getD_eq_getElem _ _ hi]
    exact hieq
  have hit : i < t.nodes.length := by
    rw [← hlen]
    exact hi
  have htn : t.nodes.getD i default ∈ t.nodes := by
    rw [List.getD_eq_getElem _ _ hit]
    exact List.getElem_mem _
  have hes : e ∈ (t.nodes.getD i default).state := by
    rw [← (hpt i).2, hgd]
    exact he
  obtain ⟨hb, hmem⟩ := h _ htn e hes
  refine ⟨by rw [hlen]; exact hb, ?_⟩
  rw [(hpt e.2).1]
  exact hmem

/-- An estimator that preserves the invariant of the extraction state. -/
def EstOK (g : EgraphT) (root : ClassId) (est : EstFn) : Prop :=
  ∀ st r, StInv g root st → ∀ q st2 r2, est st r = .ok (q, st2, r2) →
    StInv g root st2

/-- The sampling loop preserves the invariant. -/
theorem sampleLoop_ok {g : EgraphT} {root : ClassId} {fuelR : Nat} :
    ∀ (k : Nat) (acc : ℚ) (st : ExtractionState) (r : Rng),
    StInv g root st → ∀ q st2 r2,
    sampleLoop g fuelR k acc st r = .ok (q, st2, r2) → StInv g root st2 := by
  intro k
  induction k with
  | zero =>
    intro acc st r hInv q st2 r2 h
    injection h with h2
    have : st = st2 := congrArg (fun p => p.2.1) h2
    rw [← this]
    exact hInv
  | succ k ih =>
    intro acc st r hInv q st2 r2 h
    unfold sampleLoop at h
    rcases random_cost_estimate_spec fuelR r hInv with hout |
      ⟨u, st3, r3, hok, hInv3, _⟩
    · rw [hout] at h
      cases h
    · rw [hok] at h
      exact ih _ st3 r3 hInv3 q st2 r2 h

/-- The estimator closure of `mcts_extract` preserves the invariant. -/
theorem mctsEstimate_ok (g : EgraphT) (root : ClassId)
    (n_samples fuelR : Nat) : EstOK g root (mctsEstimate g n_samples fuelR) := by
  intro st r hInv q st2 r2 h
  unfold mctsEstimate at h
  cases hca : st.complete_assignment with
  | some a =>
    rw [hca] at h
    injection h with h2
    have : st = st2 := congrArg (fun p => p.2.1) h2
    rw [← this]
    exact hInv
  | none =>
    rw [hca] at h
    cases hsl : sampleLoop g fuelR n_samples 0 st r with
    | ok e =>
      rw [hsl] at h
      injection h with h2
      have he : e.2.1 = st2 := congrArg (fun p => p.2.1) h2
      rw [← he]
      exact sampleLoop_ok n_samples 0 st r hInv e.1 e.2.1 e.2.2
        (by rw [hsl])
    | panic =>
      rw [hsl] at h
      cases h
    | out =>
      rw [hsl] at h
      cases h

/-- The playout descent preserves the extraction-state and tree invariants
whenever it returns. -/
theorem playoutLoop_ok {g : EgraphT} {root : ClassId} (nc : NumCtx) (cq : ℚ)
    {est : EstFn} (hest : EstOK g root est) :
    ∀ (fuel cur : Nat) (path : List Nat) (tree : SearchTree)
      (st : ExtractionState) (r : Rng)
      (res : Option ℚ × List Nat × SearchTree × ExtractionState × Rng),
    StInv g root st → TreeInv g tree →
    playoutLoop nc cq g est fuel cur path tree st r = .ok res →
    StInv g root res.2.2.2.1 ∧ TreeInv g res.2.2.1 := by
  intro fuel
  induction fuel with
  | zero =>
    intro cur path tree st r res _ _ h
    cases h
  | succ fuel ih =>
    intro cur path tree st r res hInv hTree h
    unfold playoutLoop at h
    rw [start_next_assign_spec hInv] at h
    cases hfe : st.pending.to_visit.frontElem with
    | none =>
      rw [hfe] at h
      have h2 : (Res.ok (none, path, tree, st, r) :
          Res (Option ℚ × List Nat × SearchTree × ExtractionState × Rng)) =
          .ok res := h
      injection h2 with h4
      rw [← h4]
      exact ⟨hInv, hTree⟩
    | some cl =>
      rw [hfe] at h
      have h2 : (if (tree.nodes.getD cur default).n_visits = 0 then
          Res.bind (est st r) fun e => .ok (some e.1, path, tree, e.2.1, e.2.2)
        else
          match chooseNext nc cq tree (tree.nodes.getD cur default)
            (tree.nodes.getD cur default).n_visits (g.members cl) with
          | none => .ok (some 0, path, tree, st, r)
          | some (_, copt, enode) =>
            Res.bind (match copt with
              | some ch => .ok (ch, tree)
              | none => Res.bind (tree.fresh_node cl) fun f =>
                  .ok (f.1, f.2.addChild cur enode f.1)) fun ct =>
            Res.bind (st.do_assign g enode) fun st2 =>
            playoutLoop nc cq g est fuel ct.1 (path ++ [ct.1]) ct.2 st2 r) =
          .ok res := h
      by_cases hnv : (tree.nodes.getD cur default).n_visits = 0
      · rw [if_pos hnv] at h2
        cases hes : est st r with
        | ok e =>
          rw [hes] at h2
          have h3 : (Res.ok (some e.1, path, tree, e.2.1, e.2.2) :
              Res (Option ℚ × List Nat × SearchTree × ExtractionState ×
                Rng)) = .ok res := h2
          injection h3 with h4
          rw [← h4]
          exact ⟨hest st r hInv e.1 e.2.1 e.2.2 (by rw [hes]), hTree⟩
        | panic =>
          rw [hes] at h2
          cases h2
        | out =>
          rw [hes] at h2
          cases h2
      · rw [if_neg hnv] at h2
        cases hcn : chooseNext nc cq tree (tree.nodes.getD cur default)
            (tree.nodes.getD cur default).n_visits (g.members cl) with
        | none =>
          rw [hcn] at h2
          have h3 : (Res.ok (some 0, path, tree, st, r) :
              Res (Option ℚ × List Nat × SearchTree × ExtractionState ×
                Rng)) = .ok res := h2
          injection h3 with h4
          rw [← h4]
          exact ⟨hInv, hTree⟩
        | some trip =>
          rw [hcn] at h2
          obtain ⟨q, copt, enode⟩ := trip
          have hen : enode ∈ g.members cl := chooseNext_node_mem hcn
          cases copt with
          | some ch =>
            have h3 : (Res.bind (st.do_assign g enode) fun st2 =>
                playoutLoop nc cq g est fuel ch (path ++ [ch]) tree st2 r) =
                .ok res := h2
            obtain ⟨st2, hok, hInv2, _⟩ := do_assign_spec hInv hfe hen
            rw [hok] at h3
            have h4 : playoutLoop nc cq g est fuel ch (path ++ [ch]) tree
                st2 r = .ok res := h3
            exact ih ch (path ++ [ch]) tree st2 r res hInv2 hTree h4
          | none =>
            cases hfn : tree.fresh_node cl with
            | ok f =>
              obtain ⟨fid, t2⟩ := f
              rw [hfn] at h2
              have h3 : (Res.bind (st.do_assign g enode) fun st2 =>
                  playoutLoop nc cq g est fuel fid (path ++ [fid])
                    (t2.addChild cur enode fid) st2 r) = .ok res := h2
              obtain ⟨hT2, hfid, hlen2, hcls2, _⟩ := fresh_node_ok hTree hfn
              have hchlt : fid < t2.nodes.length := by
                rw [hlen2, hfid]
                omega
              have hmem2 : enode ∈ g.members
                  ((t2.nodes.getD fid default).cls) := by
                rw [hcls2]
                exact hen
              obtain ⟨hT3, _, _⟩ := @addChild_ok g t2 cur enode fid hT2 hchlt hmem2
              obtain ⟨st2, hok, hInv2, _⟩ := do_assign_spec hInv hfe hen
              rw [hok] at h3
              have h4 : playoutLoop nc cq g est fuel fid (path ++ [fid])
                  (t2.addChild cur enode fid) st2 r = .ok res := h3
              exact ih fid (path ++ [fid]) (t2.addChild cur enode fid) st2 r
                res hInv2 hT3 h4
            | panic =>
              rw [hfn] at h2
              have h3 : (Res.panic :
                  Res (Option ℚ × List Nat × SearchTree × ExtractionState ×
                    Rng)) = .ok res := h2
              cases h3
            | out =>
              rw [hfn] at h2
              have h3 : (Res.out :
                  Res (Option ℚ × List Nat × SearchTree × ExtractionState ×
                    Rng)) = .ok res := h2
              cases h3

/-- `run_playout` preserves the search-state invariant. -/
theorem run_playout_ok {g : EgraphT} {root : ClassId} (nc : NumCtx) (cq : ℚ)
    {est : EstFn} (hest : EstOK g root est) (fuel : Nat) (S : SearchState)
    (r : Rng) (res : SearchState × Rng)
    (hS : SSInv g root S)
    (h : run_playout nc cq g est fuel S r = .ok res) :
    SSInv g root res.1 := by
  unfold run_playout at h
  cases hpl : playoutLoop nc cq g est fuel S.start_node [S.start_node]
      S.tree S.assignment r with
  | panic =>
    rw [hpl] at h
    cases h
  | out =>
    rw [hpl] at h
    cases h
  | ok p =>
    rw [hpl] at h
    obtain ⟨hInv2, hT2⟩ := playoutLoop_ok nc cq hest fuel S.start_node
      [S.start_node] S.tree S.assignment r p hS.1 hS.2 hpl
    have hnext : ∀ (e : ℚ × ExtractionState × Rng),
        (match p.1 with
         | some u => (.ok (u, p.2.2.2.1, p.2.2.2.2) :
             Res (ℚ × ExtractionState × Rng))
         | none => est p.2.2.2.1 p.2.2.2.2) = .ok e →
        StInv g root e.2.1 := by
      intro e he
      cases hp1 : p.1 with
      | some u =>
        rw [hp1] at he
        injection he with he2
        have : p.2.2.2.1 = e.2.1 := congrArg (fun z => z.2.1) he2
        rw [← this]
        exact hInv2
      | none =>
        rw [hp1] at he
        exact hest p.2.2.2.1 p.2.2.2.2 hInv2 e.1 e.2.1 e.2.2 (by
          rw [← he])
    have h2 : (Res.bind (match p.1 with
        | some u => (.ok (u, p.2.2.2.1, p.2.2.2.2) :
            Res (ℚ × ExtractionState × Rng))
        | none => est p.2.2.2.1 p.2.2.2.2) fun e =>
        Res.bind (e.2.1.reset g) fun st3 =>
        (.ok (⟨backprop p.2.2.1 p.2.1 e.1, st3, S.start_node⟩, e.2.2) :
          Res (SearchState × Rng))) = .ok res := h
    cases hmid : (match p.1 with
        | some u => (.ok (u, p.2.2.2.1, p.2.2.2.2) :
            Res (ℚ × ExtractionState × Rng))
        | none => est p.2.2.2.1 p.2.2.2.2) with
    | panic =>
      rw [hmid] at h2
      cases h2
    | out =>
      rw [hmid] at h2
      cases h2
    | ok e =>
      rw [hmid] at h2
      have hInv3 := hnext e hmid
      obtain ⟨st3, hreset, hInv4, _⟩ := reset_spec hInv3
      have h3 : (Res.bind (e.2.1.reset g) fun st3 =>
          (.ok (⟨backprop p.2.2.1 p.2.1 e.1, st3, S.start_node⟩, e.2.2) :
            Res (SearchState × Rng))) = .ok res := h2
      rw [hreset] at h3
      have h4 : (Res.ok (⟨backprop p.2.2.1 p.2.1 e.1, st3, S.start_node⟩,
          e.2.2) : Res (SearchState × Rng)) = .ok res := h3
      injection h4 with h5
      rw [← h5]
      refine ⟨hInv4, ?_⟩
      obtain ⟨hlen, hpt⟩ := backprop_shape e.1 p.2.1 p.2.2.1
      exact TreeInv_of_shape hlen hpt hT2

/-- Repeated playouts preserve the search-state invariant. -/
theorem playoutsRep_ok {g : EgraphT} {root : ClassId} (nc : NumCtx) (cq : ℚ)
    {est : EstFn} (hest : EstOK g root est) (fuel : Nat) :
    ∀ (k : Nat) (S : SearchState) (r : Rng) (res : SearchState × Rng),
    SSInv g root S →
    playoutsRep nc cq g est fuel k S r = .ok res → SSInv g root res.1 := by
  intro k
  induction k with
  | zero =>
    intro S r res hS h
    injection h with h2
    have : S = res.1 := congrArg Prod.fst h2
    rw [← this]
    exact hS
  | succ k ih =>
    intro S r res hS h
    unfold playoutsRep at h
    cases hrp : run_playout nc cq g est fuel S r with
    | panic =>
      rw [hrp] at h
      cases h
    | out =>
      rw [hrp] at h
      cases h
    | ok p =>
      rw [hrp] at h
      exact ih p.1 p.2 res (run_playout_ok nc cq hest fuel S r p hS hrp) h

/-- `pick_node` on an invariant-satisfying state: either it reports a dead
end, or stays at a leaf, or advances by one dispatched class; in every
returned case the resulting search state satisfies the invariant. -/
theorem pick_node_ok {g : EgraphT} {root : ClassId} {S : SearchState}
    {v : Option (Bool × SearchState)}
    (hS : SSInv g root S) (h : pick_node g S = .ok v) :
    v = none ∨ (v = some (false, S)) ∨
    (∃ S2, v = some (true, S2) ∧ SSInv g root S2) := by
  unfold pick_node at h
  rw [start_next_assign_spec hS.1] at h
  cases hfe : S.assignment.pending.to_visit.frontElem with
  | none =>
    rw [hfe] at h
    have h2 : (Res.ok (some (false, S)) :
        Res (Option (Bool × SearchState))) = .ok v := h
    injection h2 with h3
    exact Or.inr (Or.inl h3.symm)
  | some cl =>
    rw [hfe] at h
    have h1 : (match maxVisitsChild S.tree
        (S.tree.nodes.getD S.start_node default).state with
      | none => (Res.ok none : Res (Option (Bool × SearchState)))
      | some (enode, chId) =>
        if (S.tree.nodes.getD chId default).cls = cl then
          Res.bind (S.assignment.do_assign g enode) fun st2 =>
            .ok (some (true, ⟨S.tree, st2.push_snapshot, chId⟩))
        else .panic) = .ok v := h
    cases hmv : maxVisitsChild S.tree
        (S.tree.nodes.getD S.start_node default).state with
    | none =>
      rw [hmv] at h1
      have h2 : (Res.ok none : Res (Option (Bool × SearchState))) = .ok v := h1
      injection h2 with h3
      exact Or.inl h3.symm
    | some pr =>
      rw [hmv] at h1
      obtain ⟨enode, chId⟩ := pr
      by_cases hcls : (S.tree.nodes.getD chId default).cls = cl
      swap
      · have h2 : (if (S.tree.nodes.getD chId default).cls = cl then
            Res.bind (S.assignment.do_assign g enode) fun st2 =>
              (.ok (some (true, ⟨S.tree, st2.push_snapshot, chId⟩)) :
                Res (Option (Bool × SearchState)))
          else .panic) = .ok v := h1
        rw [if_neg hcls] at h2
        cases h2
      · have h2 : (if (S.tree.nodes.getD chId default).cls = cl then
            Res.bind (S.assignment.do_assign g enode) fun st2 =>
              (.ok (some (true, ⟨S.tree, st2.push_snapshot, chId⟩)) :
                Res (Option (Bool × SearchState)))
          else .panic) = .ok v := h1
        rw [if_pos hcls] at h2
        -- the chosen e-node is a member of the peeked class
        by_cases hsb : S.start_node < S.tree.nodes.length
        swap
        · exfalso
          have h0 : S.tree.nodes.getD S.start_node default = default := by
            rw [List.getD_eq_getElem?_getD, List.getElem?_eq_none (by omega)]
            rfl
          rw [h0] at hmv
          cases hmv
        · have hcm : S.tree.nodes.getD S.start_node default ∈
              S.tree.nodes := by
            rw [List.getD_eq_getElem _ _ hsb]
            exact List.getElem_mem _
          have hentry := maxVisitsChild_mem hmv
          obtain ⟨_, hmem⟩ := hS.2 _ hcm (enode, chId) hentry
          rw [hcls] at hmem
          obtain ⟨st2, hok, hInv2, _⟩ := do_assign_spec hS.1 hfe hmem
          rw [hok] at h2
          have h3 : (Res.ok (some (true,
              (⟨S.tree, st2.push_snapshot, chId⟩ : SearchState))) :
              Res (Option (Bool × SearchState))) = .ok v := h2
          injection h3 with h4
          exact Or.inr (Or.inr ⟨⟨S.tree, st2.push_snapshot, chId⟩, h4.symm,
            push_snapshot_inv hInv2, hS.2⟩)

/-- The round loop preserves the invariant, and when it yields an
assignment, that assignment is the complete assignment of the final
(invariant-satisfying) extraction state. -/
theorem assignLoop_ok {g : EgraphT} {root : ClassId} (nc : NumCtx) (cq : ℚ)
    {est : EstFn} (hest : EstOK g root est) (fuelP : Nat) :
    ∀ (fuel : Nat) (cfg : MctsConfig) (S : SearchState) (r : Rng)
      (res : Option Assignment × SearchState × Rng),
    SSInv g root S →
    assignLoop nc cq g est fuelP fuel cfg S r = .ok res →
    SSInv g root res.2.1 ∧
    (∀ a, res.1 = some a →
      res.2.1.assignment.complete_assignment = some a) := by
  intro fuel
  induction fuel with
  | zero =>
    intro cfg S r res _ h
    cases h
  | succ fuel ih =>
    intro cfg S r res hS h
    unfold assignLoop at h
    cases hpr : playoutsRep nc cq g est fuelP cfg.playouts_per_round S r with
    | panic =>
      rw [hpr] at h
      cases h
    | out =>
      rw [hpr] at h
      cases h
    | ok p =>
      rw [hpr] at h
      have hS2 : SSInv g root p.1 :=
        playoutsRep_ok nc cq hest fuelP cfg.playouts_per_round S r p hS hpr
      have h1 : (Res.bind (pick_node g p.1) fun pk =>
          match pk with
          | none => (Res.ok (none, p.1, p.2) :
              Res (Option Assignment × SearchState × Rng))
          | some (false, S2) =>
            .ok (S2.assignment.complete_assignment, S2, p.2)
          | some (true, S2) =>
            assignLoop nc cq g est fuelP fuel cfg S2 p.2) = .ok res := h
      cases hpk : pick_node g p.1 with
      | panic =>
        rw [hpk] at h1
        cases h1
      | out =>
        rw [hpk] at h1
        cases h1
      | ok v =>
        rw [hpk] at h1
        rcases pick_node_ok hS2 hpk with hv | hv | ⟨S2, hv, hS3⟩
        · subst hv
          have h2 : (Res.ok (none, p.1, p.2) :
              Res (Option Assignment × SearchState × Rng)) = .ok res := h1
          injection h2 with h3
          rw [← h3]
          exact ⟨hS2, fun a ha => by cases ha⟩
        · subst hv
          have h2 : (Res.ok (p.1.assignment.complete_assignment, p.1, p.2) :
              Res (Option Assignment × SearchState × Rng)) = .ok res := h1
          injection h2 with h3
          rw [← h3]
          exact ⟨hS2, fun a ha => ha⟩
        · subst hv
          have h2 : assignLoop nc cq g est fuelP fuel cfg S2 p.2 = .ok res :=
            h1
          exact ih cfg S2 p.2 res hS3 h2

/-- C1: whenever `mcts_extract` returns an assignment, every assigned class
maps to one of its member e-nodes, every child class of every chosen e-node
is itself assigned, the root class is assigned, and the term obtained by
recursively unfolding the assignment from the root is finite (the bounded
unfolding succeeds). -/
theorem mcts_extract_sound {nc : NumCtx} {cq : ℚ} {g : EgraphT}
    {root : ClassId} {cfg : MctsConfig} {r : Rng} {fuel : Nat}
    {a : Assignment}
    (h : mcts_extract nc cq g root cfg r fuel = .ok (some a)) :
    (∀ e ∈ a, e.2 ∈ g.members e.1) ∧
    (∀ e ∈ a, ∀ ch ∈ g.children e.2, ch ∈ keysA a) ∧
    root ∈ keysA a ∧
    (∃ t, unfoldClass g a a.length root = some t) := by
  unfold mcts_extract at h
  have h0 : (Res.bind (assignLoop nc cq g
      (mctsEstimate g cfg.terms_to_sample fuel) fuel fuel cfg
      ⟨SearchTree.new root, ExtractionState.new root, 0⟩ r) fun res =>
      (Res.ok res.1 : Res (Option Assignment))) = .ok (some a) := h
  cases hal : assignLoop nc cq g (mctsEstimate g cfg.terms_to_sample fuel)
      fuel fuel cfg ⟨SearchTree.new root, ExtractionState.new root, 0⟩ r with
  | panic =>
    rw [hal] at h0
    cases h0
  | out =>
    rw [hal] at h0
    cases h0
  | ok res =>
    rw [hal] at h0
    have h2 : (Res.ok res.1 : Res (Option Assignment)) = .ok (some a) := h0
    injection h2 with h3
    have hS0 : SSInv g root ⟨SearchTree.new root, ExtractionState.new root,
        0⟩ := ⟨new_inv g root, TreeInv_new g root⟩
    obtain ⟨hS, hcomp⟩ := assignLoop_ok nc cq
      (mctsEstimate_ok g root cfg.terms_to_sample fuel) fuel fuel cfg _ r res
      hS0 hal
    exact complete_sound hS.1 (hcomp a h3)

/-- A one-class, one-node e-graph used for concrete runs. -/
def gC : EgraphT :=
  { children := fun _ => [], members := fun c => if c = 0 then [0] else [],
    utility := fun _ => 0 }

/-- C1 witness: a concrete extraction run on the one-node e-graph. -/
theorem mcts_extract_sound_witness :
    (∀ e ∈ ([(0, 0)] : Assignment), e.2 ∈ gC.members e.1) ∧
    (∀ e ∈ ([(0, 0)] : Assignment), ∀ ch ∈ gC.children e.2,
      ch ∈ keysA [(0, 0)]) ∧
    0 ∈ keysA [(0, 0)] ∧
    (∃ t, unfoldClass gC [(0, 0)] ([(0, 0)] : Assignment).length 0 =
      some t) :=
  @mcts_extract_sound ⟨fun _ => 0, fun _ => 0⟩ 0 gC 0 ⟨2, 1⟩ (fun _ => 0) 6
    [(0, 0)] (by rfl)

/-! ## C10: termination — class bounds and fuel sufficiency -/

/-- Finiteness of the e-graph, as used by the extraction engine: every
child class mentioned by any e-node lies below `N`. -/
def ClassBound (g : EgraphT) (N : Nat) : Prop :=
  ∀ n : NodeId, ∀ c ∈ g.children n, c < N

/-- All classes recorded in the provisional assignment and in the queue's
backing store lie below `N`. -/
def BoundSt (N : Nat) (st : ExtractionState) : Prop :=
  (∀ e ∈ st.pending.provisional_assign, e.1 < N) ∧
  (∀ c ∈ st.pending.to_visit.data, c < N)

/-- The top snapshot on the stack records exactly the current lengths: the
shape of the state right after a `push_snapshot`. -/
def TopSnap (st : ExtractionState) : Prop :=
  ∃ rest, st.snapshots =
    (⟨st.assign.length, st.pending.provisional_assign.length,
      st.pending.n_remaining, st.pending.to_visit.snapshot⟩ :
      StateSnapshot) :: rest

theorem TopSnap_push (st : ExtractionState) : TopSnap st.push_snapshot :=
  ⟨st.snapshots, rfl⟩

/-- A duplicate-free list of keys below `N` has length at most `N`. -/
theorem prov_length_le {N : Nat} {p : Assignment}
    (hnd : (keysA p).Nodup) (hb : ∀ e ∈ p, e.1 < N) : p.length ≤ N := by
  have h1 : (keysA p).toFinset ⊆ Finset.range N := by
    intro x hx
    rw [List.mem_toFinset] at hx
    rcases List.mem_map.mp hx with ⟨e, he, rfl⟩
    exact Finset.mem_range.mpr (hb e he)
  have h2 := Finset.card_le_card h1
  rw [Finset.card_range, List.toFinset_card_of_nodup hnd] at h2
  calc p.length = (keysA p).length := (List.length_map _ _).symm
    _ ≤ N := h2

theorem obs_parts {st st2 : ExtractionState} (h : obs st2 = obs st) :
    st2.assign = st.assign ∧
    st2.pending.provisional_assign = st.pending.provisional_assign ∧
    st2.pending.n_remaining = st.pending.n_remaining ∧
    st2.pending.to_visit = st.pending.to_visit ∧
    st2.pending.to_visit_set = st.pending.to_visit_set ∧
    st2.snapshots = st.snapshots := by
  simp only [obs, Prod.mk.injEq] at h
  exact h

theorem BoundSt_of_obs {N : Nat} {st st2 : ExtractionState}
    (h : obs st2 = obs st) (hBd : BoundSt N st) : BoundSt N st2 := by
  obtain ⟨-, h2, -, h4, -, -⟩ := obs_parts h
  refine ⟨by rw [h2]; exact hBd.1, ?_⟩
  rw [show st2.pending.to_visit.data = st.pending.to_visit.data from
    congrArg BQueue.data h4]
  exact hBd.2

/-- Every key of `insertA a c n` is a key of `a` or equals `c`. -/
theorem insertA_key_mem {a : Assignment} {c : ClassId} {n : NodeId} :
    ∀ e ∈ insertA a c n, e.1 ∈ keysA a ∨ e.1 = c := by
  intro e he
  unfold insertA at he
  by_cases hc : containsKeyA a c
  · rw [if_pos hc] at he
    rcases List.mem_map.mp he with ⟨e2, he2, heq⟩
    by_cases hk : e2.1 = c
    · rw [if_pos hk] at heq
      rw [← heq]
      exact Or.inr rfl
    · rw [if_neg hk] at heq
      rw [← heq]
      exact Or.inl (List.mem_map.mpr ⟨e2, he2, rfl⟩)
  · rw [if_neg hc] at he
    rcases List.mem_append.mp he with h | h
    · exact Or.inl (List.mem_map.mpr ⟨e, h, rfl⟩)
    · simp at h
      rw [h]
      exact Or.inr rfl

/-- The child-enqueueing fold leaves the provisional assignment alone. -/
theorem push_foldl_prov (A2 : Assignment) (l : List ClassId) :
    ∀ ps : PendingState,
    (l.foldl (fun acc ch => if containsKeyA A2 ch then acc
      else acc.push_to_visit ch) ps).provisional_assign =
      ps.provisional_assign := by
  induction l with
  | nil => intro ps; rfl
  | cons c rest ih =>
    intro ps
    rw [List.foldl_cons]
    by_cases hc : containsKeyA A2 c
    · rw [if_pos hc]
      exact ih ps
    · rw [if_neg hc]
      rw [ih (ps.push_to_visit c)]
      unfold PendingState.push_to_visit
      by_cases hcond : ¬ containsKeyA ps.provisional_assign c = true ∧
          c ∉ ps.to_visit_set
      · rw [if_pos hcond]
      · rw [if_neg hcond]

/-- Every element of the queue store after the child-enqueueing fold was
there before or is one of the folded classes. -/
theorem push_foldl_data_mem (A2 : Assignment) (l : List ClassId) :
    ∀ ps : PendingState, ∀ x ∈ (l.foldl (fun acc ch =>
      if containsKeyA A2 ch then acc
      else acc.push_to_visit ch) ps).to_visit.data,
      x ∈ ps.to_visit.data ∨ x ∈ l := by
  induction l with
  | nil =>
    intro ps x hx
    exact Or.inl hx
  | cons c rest ih =>
    intro ps x hx
    rw [List.foldl_cons] at hx
    by_cases hc : containsKeyA A2 c
    · rw [if_pos hc] at hx
      rcases ih ps x hx with h | h
      · exact Or.inl h
      · exact Or.inr (List.mem_cons_of_mem _ h)
    · rw [if_neg hc] at hx
      rcases ih (ps.push_to_visit c) x hx with h | h
      · unfold PendingState.push_to_visit at h
        by_cases hcond : ¬ containsKeyA ps.provisional_assign c = true ∧
            c ∉ ps.to_visit_set
        · rw [if_pos hcond] at h
          have h2 : x ∈ ps.to_visit.data ++ [c] := h
          rcases List.mem_append.mp h2 with h3 | h3
          · exact Or.inl h3
          · simp at h3
            rw [h3]
            exact Or.inr (List.mem_cons_self _ _)
        · rw [if_neg hcond] at h
          exact Or.inl h
      · exact Or.inr (List.mem_cons_of_mem _ h)

/-- Every element of the queue store after `do_assign` was there before or
is a child class of the assigned e-node. -/
theorem do_assign_data_mem {g : EgraphT} {st st2 : ExtractionState}
    {node : NodeId} (h : st.do_assign g node = .ok st2) :
    ∀ x ∈ st2.pending.to_visit.data,
      x ∈ st.pending.to_visit.data ∨ x ∈ g.children node := by
  unfold ExtractionState.do_assign at h
  cases hget : st.pending.to_visit.data.get? st.pending.to_visit.front with
  | none =>
    have hpop : st.pending.to_visit.popFront = (none, st.pending.to_visit) := by
      unfold BQueue.popFront
      rw [hget]
    rw [hpop] at h
    cases h
  | some c =>
    have hpop : st.pending.to_visit.popFront =
        (some c, ⟨st.pending.to_visit.data,
          st.pending.to_visit.front + 1⟩) := by
      unfold BQueue.popFront
      rw [hget]
    rw [hpop] at h
    have h2 : Res.ok (ExtractionState.provisional_assign g
        { st with pending := { st.pending with
            to_visit := ⟨st.pending.to_visit.data,
              st.pending.to_visit.front + 1⟩ } } c node) = .ok st2 := h
    injection h2 with h3
    rw [← h3]
    intro x hx
    have hx2 : x ∈ ((g.children node).foldl
        (fun (acc : PendingState) ch => if containsKeyA
            (track_pending_assignment st.pending.deps node c st.assign
              (g.children node)).2.2 ch
          then acc else acc.push_to_visit ch)
        (⟨insertA st.pending.provisional_assign c node,
         st.pending.n_remaining + 1 - (track_pending_assignment
            st.pending.deps node c st.assign (g.children node)).1,
         (track_pending_assignment st.pending.deps node c st.assign
            (g.children node)).2.1,
         ⟨st.pending.to_visit.data, st.pending.to_visit.front + 1⟩,
         st.pending.to_visit_set.erase c⟩ : PendingState)).to_visit.data := hx
    exact push_foldl_data_mem
      (track_pending_assignment st.pending.deps node c st.assign
        (g.children node)).2.2 (g.children node)
      ⟨insertA st.pending.provisional_assign c node,
       st.pending.n_remaining + 1 - (track_pending_assignment
          st.pending.deps node c st.assign (g.children node)).1,
       (track_pending_assignment st.pending.deps node c st.assign
          (g.children node)).2.1,
       ⟨st.pending.to_visit.data, st.pending.to_visit.front + 1⟩,
       st.pending.to_visit_set.erase c⟩ x hx2

/-- The provisional assignment after `do_assign` is `insertA` of the popped
class on the old one. -/
theorem do_assign_prov_mem {g : EgraphT} {st st2 : ExtractionState}
    {node : NodeId} (h : st.do_assign g node = .ok st2) :
    ∃ c, st.pending.to_visit.data.get? st.pending.to_visit.front = some c ∧
      st2.pending.provisional_assign =
        insertA st.pending.provisional_assign c node := by
  unfold ExtractionState.do_assign at h
  cases hget : st.pending.to_visit.data.get? st.pending.to_visit.front with
  | none =>
    have hpop : st.pending.to_visit.popFront = (none, st.pending.to_visit) := by
      unfold BQueue.popFront
      rw [hget]
    rw [hpop] at h
    cases h
  | some c =>
    have hpop : st.pending.to_visit.popFront =
        (some c, ⟨st.pending.to_visit.data,
          st.pending.to_visit.front + 1⟩) := by
      unfold BQueue.popFront
      rw [hget]
    rw [hpop] at h
    have h2 : Res.ok (ExtractionState.provisional_assign g
        { st with pending := { st.pending with
            to_visit := ⟨st.pending.to_visit.data,
              st.pending.to_visit.front + 1⟩ } } c node) = .ok st2 := h
    injection h2 with h3
    refine ⟨c, rfl, ?_⟩
    rw [← h3]
    exact (push_foldl_prov _ _ _).trans rfl

/-- `do_assign` preserves the class bounds. -/
theorem do_assign_bound {g : EgraphT} {N : Nat} {st st2 : ExtractionState}
    {node : NodeId} (hB : ClassBound g N) (hBd : BoundSt N st)
    (h : st.do_assign g node = .ok st2) : BoundSt N st2 := by
  obtain ⟨c, hget, hprov⟩ := do_assign_prov_mem h
  have hc : c < N := hBd.2 c (List.get?_mem hget)
  constructor
  · intro e he
    rw [hprov] at he
    rcases insertA_key_mem e he with h1 | h1
    · rcases List.mem_map.mp h1 with ⟨e2, he2, heq⟩
      rw [← heq]
      exact hBd.1 e2 he2
    · rw [h1]
      exact hc
  · intro x hx
    rcases do_assign_data_mem h x hx with h1 | h1
    · exact hBd.2 x h1
    · exact hB node x h1

/-- `reset` preserves the class bounds. -/
theorem reset_bound {g : EgraphT} {root : ClassId} {N : Nat}
    {st st2 : ExtractionState} (hInv : StInv g root st) (hBd : BoundSt N st)
    (h : st.reset g = .ok st2) : BoundSt N st2 := by
  obtain ⟨st3, hok, _, _, hnil, hcons⟩ := reset_spec hInv
  rw [hok] at h
  injection h with h2
  rw [← h2]
  cases hsn : st.snapshots with
  | nil =>
    rw [hnil hsn]
    exact hBd
  | cons s rest =>
    obtain ⟨-, hP, -, hq, -⟩ := hcons s rest hsn
    constructor
    · intro e he
      rw [hP] at he
      exact hBd.1 e (List.mem_of_mem_take he)
    · intro x hx
      rw [show st3.pending.to_visit.data =
          st.pending.to_visit.data.take s.q.back from congrArg BQueue.data hq]
        at hx
      exact hBd.2 x (List.mem_of_mem_take hx)

/-- The freshly created state is bounded when the root class is. -/
theorem new_bound {N : Nat} {root : ClassId} (hroot : root < N) :
    BoundSt N (ExtractionState.new root) := by
  have hps : (⟨[], 0, [], BQueue.empty, ∅⟩ : PendingState).push_to_visit root
      = ⟨[], 0, [], ⟨[root], 0⟩, {root}⟩ := by
    unfold PendingState.push_to_visit
    rw [if_pos]
    · rfl
    · refine ⟨by simp [containsKeyA], by simp⟩
  constructor
  · intro e he
    have he2 : e ∈ ((⟨[], 0, [], BQueue.empty, ∅⟩ :
        PendingState).push_to_visit root).provisional_assign := he
    rw [hps] at he2
    cases he2
  · intro c hc
    have hc2 : c ∈ ((⟨[], 0, [], BQueue.empty, ∅⟩ :
        PendingState).push_to_visit root).to_visit.data := hc
    rw [hps] at hc2
    have hc3 : c ∈ [root] := hc2
    simp at hc3
    rw [hc3]
    exact hroot

/-- With fuel exceeding the number of classes still assignable, the rollout
loop never runs out of fuel: every iteration adds a distinct bounded class
to the provisional assignment. -/
theorem rolloutLoop_no_out {g : EgraphT} {root : ClassId} {N : Nat}
    (hB : ClassBound g N) :
    ∀ (fuel : Nat) (st : ExtractionState) (r : Rng),
    StInv g root st → BoundSt N st →
    N + 1 ≤ fuel + st.pending.provisional_assign.length →
    rolloutLoop g fuel st r ≠ .out := by
  intro fuel
  induction fuel with
  | zero =>
    intro st r hInv hBd hfuel
    exfalso
    have hle := prov_length_le hInv.nodupP hBd.1
    omega
  | succ fuel ih =>
    intro st r hInv hBd hfuel
    unfold rolloutLoop
    rw [start_next_assign_spec hInv]
    cases hfe : st.pending.to_visit.frontElem with
    | none =>
      intro hcon
      cases hcon
    | some c =>
      show (if (g.members c).isEmpty then Res.ok (none, st, r)
        else Res.bind (st.do_assign g ((g.members c).getD
            (genRange (g.members c).length r).1 0)) fun st2 =>
          rolloutLoop g fuel st2 (genRange (g.members c).length r).2) ≠ .out
      by_cases hmem : (g.members c).isEmpty
      · rw [if_pos hmem]
        intro hcon
        cases hcon
      · rw [if_neg hmem]
        have hlen : 0 < (g.members c).length := by
          cases hm : g.members c with
          | nil => rw [hm] at hmem; simp at hmem
          | cons x xs => simp [hm]
        have hidx : (genRange (g.members c).length r).1 <
            (g.members c).length := Nat.mod_lt _ hlen
        have hnode : (g.members c).getD (genRange (g.members c).length r).1 0
            ∈ g.members c := by
          rw [List.getD_eq_getElem _ _ hidx]
          exact List.getElem_mem _
        obtain ⟨st2, hok, hInv2, _, hdP, _, _, _⟩ :=
          do_assign_spec hInv hfe hnode
        rw [hok]
        show rolloutLoop g fuel st2 (genRange (g.members c).length r).2 ≠ .out
        refine ih st2 _ hInv2 (do_assign_bound hB hBd hok) ?_
        rw [hdP, List.length_append]
        simp only [List.length_cons, List.length_nil]
        omega

/-- The rollout loop preserves the class bounds. -/
theorem rolloutLoop_bound {g : EgraphT} {root : ClassId} {N : Nat}
    (hB : ClassBound g N) :
    ∀ (fuel : Nat) (st : ExtractionState) (r : Rng)
      (res : Option ℚ × ExtractionState × Rng),
    StInv g root st → BoundSt N st →
    rolloutLoop g fuel st r = .ok res → BoundSt N res.2.1 := by
  intro fuel
  induction fuel with
  | zero =>
    intro st r res _ _ h
    cases h
  | succ fuel ih =>
    intro st r res hInv hBd h
    unfold rolloutLoop at h
    rw [start_next_assign_spec hInv] at h
    cases hfe : st.pending.to_visit.frontElem with
    | none =>
      rw [hfe] at h
      have h2 : (Res.ok (st.complete_assignment.map g.utility, st, r) :
          Res (Option ℚ × ExtractionState × Rng)) = .ok res := h
      injection h2 with h3
      rw [← h3]
      exact hBd
    | some c =>
      rw [hfe] at h
      have h2 : (if (g.members c).isEmpty then Res.ok (none, st, r)
          else Res.bind (st.do_assign g ((g.members c).getD
              (genRange (g.members c).length r).1 0)) fun st2 =>
            rolloutLoop g fuel st2 (genRange (g.members c).length r).2) =
          .ok res := h
      by_cases hmem : (g.members c).isEmpty
      · rw [if_pos hmem] at h2
        injection h2 with h3
        rw [← h3]
        exact hBd
      · rw [if_neg hmem] at h2
        have hlen : 0 < (g.members c).length := by
          cases hm : g.members c with
          | nil => rw [hm] at hmem; simp at hmem
          | cons x xs => simp [hm]
        have hidx : (genRange (g.members c).length r).1 <
            (g.members c).length := Nat.mod_lt _ hlen
        have hnode : (g.members c).getD (genRange (g.members c).length r).1 0
            ∈ g.members c := by
          rw [List.getD_eq_getElem _ _ hidx]
          exact List.getElem_mem _
        obtain ⟨st2, hok, hInv2, _⟩ := do_assign_spec hInv hfe hnode
        rw [hok] at h2
        have h3 : rolloutLoop g fuel st2
            (genRange (g.members c).length r).2 = .ok res := h2
        exact ih st2 _ res hInv2 (do_assign_bound hB hBd hok) h3

/-- With enough fuel, `random_cost_estimate` always returns, preserves the
invariant and the bounds, and leaves the observable state unchanged. -/
theorem random_cost_estimate_good {g : EgraphT} {root : ClassId} {N : Nat}
    {st : ExtractionState} (hB : ClassBound g N) (fuel : Nat) (r : Rng)
    (hInv : StInv g root st) (hBd : BoundSt N st) (hfuel : N + 1 ≤ fuel) :
    ∃ u st2 r2, random_cost_estimate g fuel st r = .ok (u, st2, r2) ∧
      StInv g root st2 ∧ BoundSt N st2 ∧ obs st2 = obs st := by
  rcases random_cost_estimate_spec fuel r hInv with hout |
    ⟨u, st2, r2, hok, hInv2, hobs⟩
  · exfalso
    unfold random_cost_estimate at hout
    have hps : StInv g root st.push_snapshot := push_snapshot_inv hInv
    have hbs : BoundSt N st.push_snapshot := hBd
    rcases rolloutLoop_spec g root fuel st.push_snapshot r hps with h1 |
      ⟨res, hrun, hInv3, _⟩
    · exact rolloutLoop_no_out hB fuel st.push_snapshot r hps hbs
        (by omega) h1
    · rw [hrun] at hout
      obtain ⟨st3, hreset, _⟩ := reset_spec hInv3
      have hout2 : (Res.bind (res.2.1.reset g) fun st4 =>
          (Res.ok (res.1, st4.pop_snapshot, res.2.2) :
            Res (Option ℚ × ExtractionState × Rng))) = .out := hout
      rw [hreset] at hout2
      cases hout2
  · exact ⟨u, st2, r2, hok, hInv2, BoundSt_of_obs hobs hBd, hobs⟩

/-- The sampling loop always returns with enough rollout fuel, preserving
everything observable. -/
theorem sampleLoop_good {g : EgraphT} {root : ClassId} {N fuelR : Nat}
    (hB : ClassBound g N) (hfuel : N + 1 ≤ fuelR) :
    ∀ (k : Nat) (acc : ℚ) (st : ExtractionState) (r : Rng),
    StInv g root st → BoundSt N st →
    ∃ q st2 r2, sampleLoop g fuelR k acc st r = .ok (q, st2, r2) ∧
      StInv g root st2 ∧ BoundSt N st2 ∧ obs st2 = obs st := by
  intro k
  induction k with
  | zero =>
    intro acc st r hInv hBd
    exact ⟨acc, st, r, rfl, hInv, hBd, rfl⟩
  | succ k ih =>
    intro acc st r hInv hBd
    obtain ⟨u, st3, r3, hok, hInv3, hBd3, hobs3⟩ :=
      random_cost_estimate_good hB fuelR r hInv hBd hfuel
    obtain ⟨q, st2, r2, hok2, hInv2, hBd2, hobs2⟩ :=
      ih (acc + u.getD 0) st3 r3 hInv3 hBd3
    refine ⟨q, st2, r2, ?_, hInv2, hBd2, hobs2.trans hobs3⟩
    unfold sampleLoop
    rw [hok]
    exact hok2

/-- An estimator that always returns, preserves the invariant and the
bounds, and leaves the observable extraction state unchanged. -/
def EstGood (g : EgraphT) (root : ClassId) (N : Nat) (est : EstFn) : Prop :=
  ∀ st r, StInv g root st → BoundSt N st →
    ∃ u st2 r2, est st r = .ok (u, st2, r2) ∧ StInv g root st2 ∧
      BoundSt N st2 ∧ obs st2 = obs st

/-- The estimator closure of `mcts_extract` is good when its rollout fuel
exceeds the class bound. -/
theorem mctsEstimate_good {g : EgraphT} {root : ClassId} {N : Nat}
    (hB : ClassBound g N) (n_samples fuelR : Nat) (hfuel : N + 1 ≤ fuelR) :
    EstGood g root N (mctsEstimate g n_samples fuelR) := by
  intro st r hInv hBd
  unfold mctsEstimate
  cases hca : st.complete_assignment with
  | some a =>
    exact ⟨g.utility a, st, r, rfl, hInv, hBd, rfl⟩
  | none =>
    obtain ⟨q, st2, r2, hok, hInv2, hBd2, hobs⟩ :=
      sampleLoop_good hB hfuel n_samples 0 st r hInv hBd
    refine ⟨q / (n_samples : ℚ), st2, r2, ?_, hInv2, hBd2, hobs⟩
    show (Res.bind (sampleLoop g fuelR n_samples 0 st r) fun e =>
      (Res.ok (e.1 / (n_samples : ℚ), e.2.1, e.2.2) :
        Res (ℚ × ExtractionState × Rng))) = _
    rw [hok]
    rfl

/-- With fuel exceeding the number of classes still assignable and a good
estimator, the playout descent either panics (tree-index overflow) or
returns, preserving the invariants and bounds and only appending to the
extraction state. -/
theorem playoutLoop_run {g : EgraphT} {root : ClassId} {N : Nat}
    (hB : ClassBound g N) (nc : NumCtx) (cq : ℚ) {est : EstFn}
    (hest : EstGood g root N est) :
    ∀ (fuel cur : Nat) (path : List Nat) (tree : SearchTree)
      (st : ExtractionState) (r : Rng),
    StInv g root st → BoundSt N st → TreeInv g tree →
    N + 1 ≤ fuel + st.pending.provisional_assign.length →
    (playoutLoop nc cq g est fuel cur path tree st r = .panic) ∨
    (∃ res, playoutLoop nc cq g est fuel cur path tree st r = .ok res ∧
      StInv g root res.2.2.2.1 ∧ BoundSt N res.2.2.2.1 ∧
      TreeInv g res.2.2.1 ∧
      (∃ dA, res.2.2.2.1.assign = st.assign ++ dA) ∧
      (∃ dP, res.2.2.2.1.pending.provisional_assign =
        st.pending.provisional_assign ++ dP) ∧
      (∃ dQ, res.2.2.2.1.pending.to_visit.data =
        st.pending.to_visit.data ++ dQ) ∧
      res.2.2.2.1.snapshots = st.snapshots) := by
  intro fuel
  induction fuel with
  | zero =>
    intro cur path tree st r hInv hBd hTree hfuel
    exfalso
    have hle := prov_length_le hInv.nodupP hBd.1
    omega
  | succ fuel ih =>
    intro cur path tree st r hInv hBd hTree hfuel
    cases hres : playoutLoop nc cq g est (fuel + 1) cur path tree st r with
    | panic => exact Or.inl rfl
    | out =>
      exfalso
      unfold playoutLoop at hres
      rw [start_next_assign_spec hInv] at hres
      cases hfe : st.pending.to_visit.frontElem with
      | none =>
        rw [hfe] at hres
        have h2 : (Res.ok (none, path, tree, st, r) :
            Res (Option ℚ × List Nat × SearchTree × ExtractionState × Rng)) =
            .out := hres
        cases h2
      | some cl =>
        rw [hfe] at hres
        have h2 : (if (tree.nodes.getD cur default).n_visits = 0 then
            Res.bind (est st r) fun e =>
              .ok (some e.1, path, tree, e.2.1, e.2.2)
          else
            match chooseNext nc cq tree (tree.nodes.getD cur default)
              (tree.nodes.getD cur default).n_visits (g.members cl) with
            | none => .ok (some 0, path, tree, st, r)
            | some (_, copt, enode) =>
              Res.bind (match copt with
                | some ch => .ok (ch, tree)
                | none => Res.bind (tree.fresh_node cl) fun f =>
                    .ok (f.1, f.2.addChild cur enode f.1)) fun ct =>
              Res.bind (st.do_assign g enode) fun st2 =>
              playoutLoop nc cq g est fuel ct.1 (path ++ [ct.1]) ct.2
                st2 r) = .out := hres
        by_cases hnv : (tree.nodes.getD cur default).n_visits = 0
        · rw [if_pos hnv] at h2
          obtain ⟨u, st2, r2, hok, -, -, -⟩ := hest st r hInv hBd
          rw [hok] at h2
          have h3 : (Res.ok (some u, path, tree, st2, r2) :
              Res (Option ℚ × List Nat × SearchTree × ExtractionState ×
                Rng)) = .out := h2
          cases h3
        · rw [if_neg hnv] at h2
          cases hcn : chooseNext nc cq tree (tree.nodes.getD cur default)
              (tree.nodes.getD cur default).n_visits (g.members cl) with
          | none =>
            rw [hcn] at h2
            have h3 : (Res.ok (some 0, path, tree, st, r) :
                Res (Option ℚ × List Nat × SearchTree × ExtractionState ×
                  Rng)) = .out := h2
            cases h3
          | some trip =>
            rw [hcn] at h2
            obtain ⟨qv, copt, enode⟩ := trip
            have hen : enode ∈ g.members cl := chooseNext_node_mem hcn
            obtain ⟨st2, hok, hInv2, -, hdP1, -, -, -⟩ :=
              do_assign_spec hInv hfe hen
            have hBd2 : BoundSt N st2 := do_assign_bound hB hBd hok
            have hfuel2 : N + 1 ≤ fuel +
                st2.pending.provisional_assign.length := by
              rw [hdP1, List.length_append]
              simp only [List.length_cons, List.length_nil]
              omega
            cases copt with
            | some ch =>
              have h3 : (Res.bind (st.do_assign g enode) fun st3 =>
                  playoutLoop nc cq g est fuel ch (path ++ [ch]) tree
                    st3 r) = .out := h2
              rw [hok] at h3
              have h4 : playoutLoop nc cq g est fuel ch (path ++ [ch]) tree
                  st2 r = .out := h3
              rcases ih ch (path ++ [ch]) tree st2 r hInv2 hBd2 hTree hfuel2
                with hp | ⟨res2, hokr, -⟩
              · rw [h4] at hp
                cases hp
              · rw [h4] at hokr
                cases hokr
            | none =>
              cases hfn : tree.fresh_node cl with
              | out =>
                unfold SearchTree.fresh_node at hfn
                by_cases hlt : tree.nodes.length < 2 ^ 32
                · rw [if_pos hlt] at hfn
                  cases hfn
                · rw [if_neg hlt] at hfn
                  cases hfn
              | panic =>
                rw [hfn] at h2
                have h3 : (Res.panic :
                    Res (Option ℚ × List Nat × SearchTree × ExtractionState ×
                      Rng)) = .out := h2
                cases h3
              | ok f =>
                obtain ⟨fid, t2⟩ := f
                rw [hfn] at h2
                have h3 : (Res.bind (st.do_assign g enode) fun st3 =>
                    playoutLoop nc cq g est fuel fid (path ++ [fid])
                      (t2.addChild cur enode fid) st3 r) = .out := h2
                rw [hok] at h3
                have h4 : playoutLoop nc cq g est fuel fid (path ++ [fid])
                    (t2.addChild cur enode fid) st2 r = .out := h3
                obtain ⟨hT2, hfid, hlen2, hcls2, -⟩ := fresh_node_ok hTree hfn
                have hchlt : fid < t2.nodes.length := by
                  rw [hlen2, hfid]
                  omega
                have hmem2 : enode ∈ g.members
                    ((t2.nodes.getD fid default).cls) := by
                  rw [hcls2]
                  exact hen
                obtain ⟨hT3, -, -⟩ := @addChild_ok g t2 cur enode fid hT2
                  hchlt hmem2
                rcases ih fid (path ++ [fid]) (t2.addChild cur enode fid)
                    st2 r hInv2 hBd2 hT3 hfuel2 with hp | ⟨res2, hokr, -⟩
                · rw [h4] at hp
                  cases hp
                · rw [h4] at hokr
                  cases hokr
    | ok res0 =>
      right
      refine ⟨res0, rfl, ?_⟩
      unfold playoutLoop at hres
      rw [start_next_assign_spec hInv] at hres
      cases hfe : st.pending.to_visit.frontElem with
      | none =>
        rw [hfe] at hres
        have h2 : (Res.ok (none, path, tree, st, r) :
            Res (Option ℚ × List Nat × SearchTree × ExtractionState × Rng)) =
            .ok res0 := hres
        injection h2 with h3
        rw [← h3]
        exact ⟨hInv, hBd, hTree, ⟨[], (List.append_nil _).symm⟩,
          ⟨[], (List.append_nil _).symm⟩, ⟨[], (List.append_nil _).symm⟩, rfl⟩
      | some cl =>
        rw [hfe] at hres
        have h2 : (if (tree.nodes.getD cur default).n_visits = 0 then
            Res.bind (est st r) fun e =>
              .ok (some e.1, path, tree, e.2.1, e.2.2)
          else
            match chooseNext nc cq tree (tree.nodes.getD cur default)
              (tree.nodes.getD cur default).n_visits (g.members cl) with
            | none => .ok (some 0, path, tree, st, r)
            | some (_, copt, enode) =>
              Res.bind (match copt with
                | some ch => .ok (ch, tree)
                | none => Res.bind (tree.fresh_node cl) fun f =>
                    .ok (f.1, f.2.addChild cur enode f.1)) fun ct =>
              Res.bind (st.do_assign g enode) fun st2 =>
              playoutLoop nc cq g est fuel ct.1 (path ++ [ct.1]) ct.2
                st2 r) = .ok res0 := hres
        by_cases hnv : (tree.nodes.getD cur default).n_visits = 0
        · rw [if_pos hnv] at h2
          obtain ⟨u, st2, r2, hok, hInv2, hBd2, hobs⟩ := hest st r hInv hBd
          rw [hok] at h2
          have h3 : (Res.ok (some u, path, tree, st2, r2) :
              Res (Option ℚ × List Nat × SearchTree × ExtractionState ×
                Rng)) = .ok res0 := h2
          injection h3 with h4
          rw [← h4]
          obtain ⟨hA, hP, -, hq, -, hS⟩ := obs_parts hobs
          have hqd : st2.pending.to_visit.data =
              st.pending.to_visit.data ++ [] := by
            rw [List.append_nil]
            exact congrArg BQueue.data hq
          exact ⟨hInv2, hBd2, hTree,
            ⟨[], by rw [List.append_nil]; exact hA⟩,
            ⟨[], by rw [List.append_nil]; exact hP⟩, ⟨[], hqd⟩, hS⟩
        · rw [if_neg hnv] at h2
          cases hcn : chooseNext nc cq tree (tree.nodes.getD cur default)
              (tree.nodes.getD cur default).n_visits (g.members cl) with
          | none =>
            rw [hcn] at h2
            have h3 : (Res.ok (some 0, path, tree, st, r) :
                Res (Option ℚ × List Nat × SearchTree × ExtractionState ×
                  Rng)) = .ok res0 := h2
            injection h3 with h4
            rw [← h4]
            exact ⟨hInv, hBd, hTree, ⟨[], (List.append_nil _).symm⟩,
              ⟨[], (List.append_nil _).symm⟩, ⟨[], (List.append_nil _).symm⟩,
              rfl⟩
          | some trip =>
            rw [hcn] at h2
            obtain ⟨qv, copt, enode⟩ := trip
            have hen : enode ∈ g.members cl := chooseNext_node_mem hcn
            obtain ⟨st2, hok, hInv2, ⟨dA1, hdA1⟩, hdP1, ⟨dQ1, hdQ1⟩, -, hsn1⟩
              := do_assign_spec hInv hfe hen
            have hBd2 : BoundSt N st2 := do_assign_bound hB hBd hok
            have hfuel2 : N + 1 ≤ fuel +
                st2.pending.provisional_assign.length := by
              rw [hdP1, List.length_append]
              simp only [List.length_cons, List.length_nil]
              omega
            cases copt with
            | some ch =>
              have h3 : (Res.bind (st.do_assign g enode) fun st3 =>
                  playoutLoop nc cq g est fuel ch (path ++ [ch]) tree
                    st3 r) = .ok res0 := h2
              rw [hok] at h3
              have h4 : playoutLoop nc cq g est fuel ch (path ++ [ch]) tree
                  st2 r = .ok res0 := h3
              rcases ih ch (path ++ [ch]) tree st2 r hInv2 hBd2 hTree hfuel2
                with hp | ⟨res2, hokr, hI3, hB3, hT3, ⟨dA2, h2A⟩,
                  ⟨dP2, h2P⟩, ⟨dQ2, h2Q⟩, h2S⟩
              · rw [h4] at hp
                cases hp
              · rw [h4] at hokr
                injection hokr with h5
                rw [h5]
                exact ⟨hI3, hB3, hT3,
                  ⟨dA1 ++ dA2, by rw [h2A, hdA1, List.append_assoc]⟩,
                  ⟨(cl, enode) :: dP2, by rw [h2P, hdP1]; simp⟩,
                  ⟨dQ1 ++ dQ2, by rw [h2Q, hdQ1, List.append_assoc]⟩,
                  h2S.trans hsn1⟩
            | none =>
              cases hfn : tree.fresh_node cl with
              | out =>
                exfalso
                unfold SearchTree.fresh_node at hfn
                by_cases hlt : tree.nodes.length < 2 ^ 32
                · rw [if_pos hlt] at hfn
                  cases hfn
                · rw [if_neg hlt] at hfn
                  cases hfn
              | panic =>
                exfalso
                rw [hfn] at h2
                have h3 : (Res.panic :
                    Res (Option ℚ × List Nat × SearchTree × ExtractionState ×
                      Rng)) = .ok res0 := h2
                cases h3
              | ok f =>
                obtain ⟨fid, t2⟩ := f
                rw [hfn] at h2
                have h3 : (Res.bind (st.do_assign g enode) fun st3 =>
                    playoutLoop nc cq g est fuel fid (path ++ [fid])
                      (t2.addChild cur enode fid) st3 r) = .ok res0 := h2
                rw [hok] at h3
                have h4 : playoutLoop nc cq g est fuel fid (path ++ [fid])
                    (t2.addChild cur enode fid) st2 r = .ok res0 := h3
                obtain ⟨hT2, hfid, hlen2, hcls2, -⟩ := fresh_node_ok hTree hfn
                have hchlt : fid < t2.nodes.length := by
                  rw [hlen2, hfid]
                  omega
                have hmem2 : enode ∈ g.members
                    ((t2.nodes.getD fid default).cls) := by
                  rw [hcls2]
                  exact hen
                obtain ⟨hT3, -, -⟩ := @addChild_ok g t2 cur enode fid hT2
                  hchlt hmem2
                rcases ih fid (path ++ [fid]) (t2.addChild cur enode fid)
                    st2 r hInv2 hBd2 hT3 hfuel2 with hp | ⟨res2, hokr, hI3,
                  hB3, hT4, ⟨dA2, h2A⟩, ⟨dP2, h2P⟩, ⟨dQ2, h2Q⟩, h2S⟩
                · rw [h4] at hp
                  cases hp
                · rw [h4] at hokr
                  injection hokr with h5
                  rw [h5]
                  exact ⟨hI3, hB3, hT4,
                    ⟨dA1 ++ dA2, by rw [h2A, hdA1, List.append_assoc]⟩,
                    ⟨(cl, enode) :: dP2, by rw [h2P, hdP1]; simp⟩,
                    ⟨dQ1 ++ dQ2, by rw [h2Q, hdQ1, List.append_assoc]⟩,
                    h2S.trans hsn1⟩

/-- One playout on a state whose top snapshot is current: either a panic,
or the committed observable state is fully restored, the bounds and
invariants are preserved, and the start node is unchanged. -/
theorem run_playout_run {g : EgraphT} {root : ClassId} {N : Nat}
    (hB : ClassBound g N) (nc : NumCtx) (cq : ℚ) {est : EstFn}
    (hest : EstGood g root N est) (fuel : Nat) (S : SearchState) (r : Rng)
    (hS : SSInv g root S) (hBd : BoundSt N S.assignment)
    (hTop : TopSnap S.assignment) (hfuel : N + 1 ≤ fuel) :
    (run_playout nc cq g est fuel S r = .panic) ∨
    (∃ res, run_playout nc cq g est fuel S r = .ok res ∧
      SSInv g root res.1 ∧ BoundSt N res.1.assignment ∧
      TopSnap res.1.assignment ∧
      obs res.1.assignment = obs S.assignment ∧
      res.1.start_node = S.start_node) := by
  rcases playoutLoop_run hB nc cq hest fuel S.start_node [S.start_node]
      S.tree S.assignment r hS.1 hBd hS.2 (by omega) with hp |
    ⟨p, hpl, hInvP, hBdP, hTP, ⟨dA, hdA⟩, ⟨dP, hdP⟩, ⟨dQ, hdQ⟩, hsnP⟩
  · left
    unfold run_playout
    rw [hp]
    rfl
  · obtain ⟨e, hmid, hInvE, hBdE, ⟨dA2, hEA⟩, ⟨dP2, hEP⟩, ⟨dQ2, hEQ⟩, hES⟩ :
      ∃ e, (match p.1 with
        | some u => (.ok (u, p.2.2.2.1, p.2.2.2.2) :
            Res (ℚ × ExtractionState × Rng))
        | none => est p.2.2.2.1 p.2.2.2.2) = .ok e ∧
        StInv g root e.2.1 ∧ BoundSt N e.2.1 ∧
        (∃ dA2, e.2.1.assign = S.assignment.assign ++ dA2) ∧
        (∃ dP2, e.2.1.pending.provisional_assign =
          S.assignment.pending.provisional_assign ++ dP2) ∧
        (∃ dQ2, e.2.1.pending.to_visit.data =
          S.assignment.pending.to_visit.data ++ dQ2) ∧
        e.2.1.snapshots = S.assignment.snapshots := by
      cases hp1 : p.1 with
      | some u =>
        exact ⟨(u, p.2.2.2.1, p.2.2.2.2), rfl, hInvP, hBdP, ⟨dA, hdA⟩,
          ⟨dP, hdP⟩, ⟨dQ, hdQ⟩, hsnP⟩
      | none =>
        obtain ⟨u, st2, r2, hok, hInv2, hBd2, hobs⟩ :=
          hest p.2.2.2.1 p.2.2.2.2 hInvP hBdP
        obtain ⟨hA, hP, -, hq, -, hsn2⟩ := obs_parts hobs
        refine ⟨(u, st2, r2), hok, hInv2, hBd2,
          ⟨dA, by rw [hA, hdA]⟩, ⟨dP, by rw [hP, hdP]⟩,
          ⟨dQ, ?_⟩, by rw [hsn2, hsnP]⟩
        rw [show st2.pending.to_visit.data = p.2.2.2.1.pending.to_visit.data
          from congrArg BQueue.data hq, hdQ]
    obtain ⟨rest, hTopEq⟩ := hTop
    have hsnE : e.2.1.snapshots =
        (⟨S.assignment.assign.length,
          S.assignment.pending.provisional_assign.length,
          S.assignment.pending.n_remaining,
          S.assignment.pending.to_visit.snapshot⟩ : StateSnapshot) ::
          rest := by
      rw [hES, hTopEq]
    obtain ⟨st3, hreset, hInv4, hsn4, -, hcons⟩ := reset_spec hInvE
    obtain ⟨hA3, hP3, hnr3, hq3, hset3⟩ := hcons _ _ hsnE
    have e1 : st3.assign = S.assignment.assign := by
      rw [hA3, hEA]
      exact List.take_left _ _
    have e2 : st3.pending.provisional_assign =
        S.assignment.pending.provisional_assign := by
      rw [hP3, hEP]
      exact List.take_left _ _
    have e3 : st3.pending.n_remaining =
        S.assignment.pending.n_remaining := hnr3
    have e4 : st3.pending.to_visit = S.assignment.pending.to_visit := by
      rw [hq3]
      show (⟨e.2.1.pending.to_visit.data.take
        S.assignment.pending.to_visit.data.length,
        S.assignment.pending.to_visit.front⟩ : BQueue ClassId) = _
      rw [hEQ, List.take_left]
    have e5 : st3.pending.to_visit_set =
        S.assignment.pending.to_visit_set := by
      rw [hset3, e4, ← hS.1.qSet]
    have e6 : st3.snapshots = S.assignment.snapshots := by
      rw [hsn4, hES]
    have hobs3 : obs st3 = obs S.assignment := by
      show (st3.assign, st3.pending.provisional_assign,
        st3.pending.n_remaining, st3.pending.to_visit,
        st3.pending.to_visit_set, st3.snapshots) = _
      rw [e1, e2, e3, e4, e5, e6]
      rfl
    have hTop3 : TopSnap st3 := by
      refine ⟨rest, ?_⟩
      rw [e6, hTopEq, e1, e2, e3, e4]
    have hrun : run_playout nc cq g est fuel S r =
        .ok (⟨backprop p.2.2.1 p.2.1 e.1, st3, S.start_node⟩, e.2.2) := by
      unfold run_playout
      rw [hpl]
      show (Res.bind (match p.1 with
          | some u => (.ok (u, p.2.2.2.1, p.2.2.2.2) :
              Res (ℚ × ExtractionState × Rng))
          | none => est p.2.2.2.1 p.2.2.2.2) fun e =>
          Res.bind (e.2.1.reset g) fun st4 =>
          (.ok (⟨backprop p.2.2.1 p.2.1 e.1, st4, S.start_node⟩, e.2.2) :
            Res (SearchState × Rng))) = _
      rw [hmid]
      show (Res.bind (e.2.1.reset g) fun st4 =>
          (.ok (⟨backprop p.2.2.1 p.2.1 e.1, st4, S.start_node⟩, e.2.2) :
            Res (SearchState × Rng))) = _
      rw [hreset]
      rfl
    right
    refine ⟨(⟨backprop p.2.2.1 p.2.1 e.1, st3, S.start_node⟩, e.2.2), hrun,
      ⟨hInv4, ?_⟩, ?_, hTop3, hobs3, rfl⟩
    · obtain ⟨hlen, hpt⟩ := backprop_shape e.1 p.2.1 p.2.2.1
      exact TreeInv_of_shape hlen hpt hTP
    · refine ⟨by rw [show (⟨backprop p.2.2.1 p.2.1 e.1, st3,
        S.start_node⟩ : SearchState).assignment.pending.provisional_assign =
          S.assignment.pending.provisional_assign from e2]; exact hBd.1, ?_⟩
      intro c hc
      have hc2 : c ∈ st3.pending.to_visit.data := hc
      rw [show st3.pending.to_visit.data =
        S.assignment.pending.to_visit.data from congrArg BQueue.data e4]
        at hc2
      exact hBd.2 c hc2

/-- Repeated playouts: panic, or the committed observable state is exactly
as before the round of playouts. -/
theorem playoutsRep_run {g : EgraphT} {root : ClassId} {N : Nat}
    (hB : ClassBound g N) (nc : NumCtx) (cq : ℚ) {est : EstFn}
    (hest : EstGood g root N est) {fuel : Nat} (hfuel : N + 1 ≤ fuel) :
    ∀ (k : Nat) (S : SearchState) (r : Rng),
    SSInv g root S → BoundSt N S.assignment → TopSnap S.assignment →
    (playoutsRep nc cq g est fuel k S r = .panic) ∨
    (∃ res, playoutsRep nc cq g est fuel k S r = .ok res ∧
      SSInv g root res.1 ∧ BoundSt N res.1.assignment ∧
      TopSnap res.1.assignment ∧
      obs res.1.assignment = obs S.assignment ∧
      res.1.start_node = S.start_node) := by
  intro k
  induction k with
  | zero =>
    intro S r hS hBd hTop
    exact Or.inr ⟨(S, r), rfl, hS, hBd, hTop, rfl, rfl⟩
  | succ k ih =>
    intro S r hS hBd hTop
    rcases run_playout_run hB nc cq hest fuel S r hS hBd hTop hfuel with hp |
      ⟨p, hok, hS2, hBd2, hTop2, hobs2, hstn2⟩
    · left
      unfold playoutsRep
      rw [hp]
      rfl
    · rcases ih p.1 p.2 hS2 hBd2 hTop2 with hp2 |
        ⟨res, hok2, hS3, hBd3, hTop3, hobs3, hstn3⟩
      · left
        unfold playoutsRep
        rw [hok]
        exact hp2
      · right
        refine ⟨res, ?_, hS3, hBd3, hTop3, hobs3.trans hobs2,
          hstn3.trans hstn2⟩
        unfold playoutsRep
        rw [hok]
        exact hok2

/-- `pick_node` on an invariant-satisfying bounded state: panic, a dead
end, a leaf, or one more dispatched class with a freshly pushed snapshot. -/
theorem pick_node_run {g : EgraphT} {root : ClassId} {N : Nat}
    {S : SearchState} (hS : SSInv g root S) (hB : ClassBound g N)
    (hBd : BoundSt N S.assignment) :
    (pick_node g S = .panic) ∨
    (pick_node g S = .ok none) ∨
    (pick_node g S = .ok (some (false, S))) ∨
    (∃ S2, pick_node g S = .ok (some (true, S2)) ∧ SSInv g root S2 ∧
      BoundSt N S2.assignment ∧ TopSnap S2.assignment ∧
      S2.assignment.pending.provisional_assign.length =
        S.assignment.pending.provisional_assign.length + 1) := by
  cases hfe : S.assignment.pending.to_visit.frontElem with
  | none =>
    right
    right
    left
    unfold pick_node
    rw [start_next_assign_spec hS.1, hfe]
    rfl
  | some cl =>
    have hred : pick_node g S =
        (match maxVisitsChild S.tree
            (S.tree.nodes.getD S.start_node default).state with
          | none => (Res.ok none : Res (Option (Bool × SearchState)))
          | some (enode, chId) =>
            if (S.tree.nodes.getD chId default).cls = cl then
              Res.bind (S.assignment.do_assign g enode) fun st2 =>
                .ok (some (true, ⟨S.tree, st2.push_snapshot, chId⟩))
            else .panic) := by
      unfold pick_node
      rw [start_next_assign_spec hS.1, hfe]
      rfl
    rw [hred]
    cases hmv : maxVisitsChild S.tree
        (S.tree.nodes.getD S.start_node default).state with
    | none =>
      right
      left
      rfl
    | some pr =>
      obtain ⟨enode, chId⟩ := pr
      by_cases hcls : (S.tree.nodes.getD chId default).cls = cl
      swap
      · left
        show (if (S.tree.nodes.getD chId default).cls = cl then
            Res.bind (S.assignment.do_assign g enode) fun st2 =>
              Res.ok (some (true,
                (⟨S.tree, st2.push_snapshot, chId⟩ : SearchState)))
          else .panic) = .panic
        rw [if_neg hcls]
      · by_cases hsb : S.start_node < S.tree.nodes.length
        swap
        · exfalso
          have h0 : S.tree.nodes.getD S.start_node default = default := by
            rw [List.getD_eq_getElem?_getD, List.getElem?_eq_none (by omega)]
            rfl
          rw [h0] at hmv
          cases hmv
        · have hcm : S.tree.nodes.getD S.start_node default ∈
              S.tree.nodes := by
            rw [List.getD_eq_getElem _ _ hsb]
            exact List.getElem_mem _
          have hentry := maxVisitsChild_mem hmv
          obtain ⟨-, hmem⟩ := hS.2 _ hcm (enode, chId) hentry
          rw [hcls] at hmem
          obtain ⟨st2, hok, hInv2, -, hdP, -, -, -⟩ :=
            do_assign_spec hS.1 hfe hmem
          have hBd2 : BoundSt N st2 := do_assign_bound hB hBd hok
          have hBdS : BoundSt N
              (⟨S.tree, st2.push_snapshot, chId⟩ : SearchState).assignment :=
            ⟨hBd2.1, hBd2.2⟩
          have hTopS : TopSnap
              (⟨S.tree, st2.push_snapshot, chId⟩ : SearchState).assignment :=
            TopSnap_push st2
          right
          right
          right
          refine ⟨⟨S.tree, st2.push_snapshot, chId⟩, ?_,
            ⟨push_snapshot_inv hInv2, hS.2⟩, hBdS, hTopS, ?_⟩
          · show (if (S.tree.nodes.getD chId default).cls = cl then
                Res.bind (S.assignment.do_assign g enode) fun st3 =>
                  Res.ok (some (true,
                    (⟨S.tree, st3.push_snapshot, chId⟩ : SearchState)))
              else .panic) = _
            rw [if_pos hcls, hok]
            rfl
          · show st2.pending.provisional_assign.length = _
            rw [hdP, List.length_append]
            simp

/-- With fuel exceeding the number of classes still dispatchable, the round
loop of `SearchState::assign` never runs out of fuel: every advancing round
dispatches a fresh bounded class. -/
theorem assignLoop_no_out {g : EgraphT} {root : ClassId} {N : Nat}
    (hB : ClassBound g N) (nc : NumCtx) (cq : ℚ) {est : EstFn}
    (hest : EstGood g root N est) {fuelP : Nat} (hfP : N + 1 ≤ fuelP) :
    ∀ (fuel : Nat) (cfg : MctsConfig) (S : SearchState) (r : Rng),
    SSInv g root S → BoundSt N S.assignment → TopSnap S.assignment →
    N + 1 ≤ fuel + S.assignment.pending.provisional_assign.length →
    assignLoop nc cq g est fuelP fuel cfg S r ≠ .out := by
  intro fuel
  induction fuel with
  | zero =>
    intro cfg S r hS hBd hTop hfuel
    exfalso
    have hle := prov_length_le hS.1.nodupP hBd.1
    omega
  | succ fuel ih =>
    intro cfg S r hS hBd hTop hfuel
    unfold assignLoop
    rcases playoutsRep_run hB nc cq hest hfP cfg.playouts_per_round S r hS
        hBd hTop with hp | ⟨p, hok, hS2, hBd2, hTop2, hobs2, -⟩
    · rw [hp]
      intro hcon
      cases hcon
    · rw [hok]
      show (Res.bind (pick_node g p.1) fun pk =>
        match pk with
        | none => (Res.ok (none, p.1, p.2) :
            Res (Option Assignment × SearchState × Rng))
        | some (false, S2) =>
          .ok (S2.assignment.complete_assignment, S2, p.2)
        | some (true, S2) =>
          assignLoop nc cq g est fuelP fuel cfg S2 p.2) ≠ .out
      rcases pick_node_run hS2 hB hBd2 with hpk | hpk | hpk |
        ⟨S2, hpk, hS3, hBd3, hTop3, hlen3⟩
      · rw [hpk]
        intro hcon
        cases hcon
      · rw [hpk]
        intro hcon
        cases hcon
      · rw [hpk]
        intro hcon
        cases hcon
      · rw [hpk]
        show assignLoop nc cq g est fuelP fuel cfg S2 p.2 ≠ .out
        refine ih cfg S2 p.2 hS3 hBd3 hTop3 ?_
        have hpl : p.1.assignment.pending.provisional_assign =
            S.assignment.pending.provisional_assign :=
          (obs_parts hobs2).2.1
        rw [hlen3, hpl]
        omega

/-- C10: on a finite e-graph — every child class below `N` — rooted at a
class below `N`, `mcts_extract` terminates for every configuration and
every RNG stream: with fuel `N + 2` the run never exhausts its fuel (the
modelled form of divergence); it either returns or aborts on a programmer
error.  Each playout descent and each rollout makes at most `N`
assignments (the dispatched classes are distinct and below `N`), and the
round loop advances the committed frontier by one fresh class per round,
even when the e-graph contains cycles or empty classes. -/
theorem mcts_extract_terminates {g : EgraphT} {N : Nat} (nc : NumCtx)
    (cq : ℚ) {root : ClassId} (cfg : MctsConfig) (r : Rng)
    (hB : ClassBound g N) (hroot : root < N) :
    mcts_extract nc cq g root cfg r (N + 2) ≠ .out := by
  intro hcon
  unfold mcts_extract at hcon
  have hS0 : SSInv g root ⟨SearchTree.new root, ExtractionState.new root,
      0⟩ := ⟨new_inv g root, TreeInv_new g root⟩
  have hest := @mctsEstimate_good g root N hB cfg.terms_to_sample (N + 2)
    (by omega)
  have hBd0 : BoundSt N (ExtractionState.new root) := new_bound hroot
  have hTop0 : TopSnap (ExtractionState.new root) :=
    TopSnap_push ⟨[], (⟨[], 0, [], BQueue.empty, ∅⟩ :
      PendingState).push_to_visit root, []⟩
  have hprov0 : (ExtractionState.new root).pending.provisional_assign
      = [] := by
    show ((⟨[], 0, [], BQueue.empty, ∅⟩ :
      PendingState).push_to_visit root).provisional_assign = []
    unfold PendingState.push_to_visit
    by_cases hcond : ¬ containsKeyA ([] : Assignment) root = true ∧
        root ∉ (∅ : Finset ClassId)
    · rw [if_pos hcond]
    · rw [if_neg hcond]
  have hno := @assignLoop_no_out g root N hB nc cq
    (mctsEstimate g cfg.terms_to_sample (N + 2)) hest (N + 2) (by omega)
    (N + 2) cfg ⟨SearchTree.new root, ExtractionState.new root, 0⟩ r
    hS0 hBd0 hTop0
    (by rw [show (⟨SearchTree.new root, ExtractionState.new root, 0⟩ :
        SearchState).assignment.pending.provisional_assign = [] from hprov0]
        simp)
  have hcon2 : (Res.bind (assignLoop nc cq g
      (mctsEstimate g cfg.terms_to_sample (N + 2)) (N + 2) (N + 2) cfg
      ⟨SearchTree.new root, ExtractionState.new root, 0⟩ r) fun res =>
      (Res.ok res.1 : Res (Option Assignment))) = .out := hcon
  cases hal : assignLoop nc cq g (mctsEstimate g cfg.terms_to_sample
      (N + 2)) (N + 2) (N + 2) cfg
      ⟨SearchTree.new root, ExtractionState.new root, 0⟩ r with
  | ok res =>
    rw [hal] at hcon2
    have h2 : (Res.ok res.1 : Res (Option Assignment)) = .out := hcon2
    cases h2
  | panic =>
    rw [hal] at hcon2
    cases hcon2
  | out => exact hno hal

/-- C10 witness: a concrete run on the one-node e-graph with class bound 1
does not run out of fuel. -/
theorem mcts_extract_terminates_witness :
    mcts_extract ⟨fun _ => 0, fun _ => 0⟩ 0 gC 0 ⟨1, 1⟩ (fun _ => 0)
      (1 + 2) ≠ .out :=
  mcts_extract_terminates ⟨fun _ => 0, fun _ => 0⟩ 0 ⟨1, 1⟩ (fun _ => 0)
    (fun n c hc => absurd hc (List.not_mem_nil c)) (by decide)

/-! ## C5: the unextractable e-graph — ghost tracking of descent states -/

/-- The part of the extraction state that drives all control decisions
during a descent when nothing ever commits: provisional assignment,
`n_remaining`, queue and to-visit set (the dependency index and the
snapshot stack are excluded). -/
def obsA (st : ExtractionState) :
    Assignment × Nat × BQueue ClassId × Finset ClassId :=
  (st.pending.provisional_assign, st.pending.n_remaining,
   st.pending.to_visit, st.pending.to_visit_set)

theorem obsA_of_obs {st st2 : ExtractionState} (h : obs st2 = obs st) :
    obsA st2 = obsA st := by
  obtain ⟨-, h2, h3, h4, h5, -⟩ := obs_parts h
  show (st2.pending.provisional_assign, st2.pending.n_remaining,
    st2.pending.to_visit, st2.pending.to_visit_set) = _
  rw [h2, h3, h4, h5]
  rfl

/-- The queue/set effect of enqueueing a list of classes through
`push_to_visit`. -/
def pushList (prov : Assignment) : List ClassId →
    BQueue ClassId × Finset ClassId → BQueue ClassId × Finset ClassId
  | [], qs => qs
  | ch :: rest, qs =>
    if ¬ containsKeyA prov ch ∧ ch ∉ qs.2 then
      pushList prov rest (qs.1.pushBack ch, insert ch qs.2)
    else pushList prov rest qs

/-- The observable effect of `do_assign` when the chosen e-node has
children and nothing is committed. -/
def stepA (g : EgraphT)
    (o : Assignment × Nat × BQueue ClassId × Finset ClassId)
    (node : NodeId) : Assignment × Nat × BQueue ClassId × Finset ClassId :=
  match o.2.2.1.popFront with
  | (some c, q2) =>
    let prov2 := insertA o.1 c node
    let qs := pushList prov2 (g.children node) (q2, o.2.2.2.erase c)
    (prov2, o.2.1 + 1, qs.1, qs.2)
  | (none, _) => o

/-- The child-enqueueing fold, written as a pure function of the queue and
the set. -/
theorem foldl_push_to_pushList (l : List ClassId) :
    ∀ ps : PendingState,
    l.foldl (fun acc ch => acc.push_to_visit ch) ps =
      ⟨ps.provisional_assign, ps.n_remaining, ps.deps,
       (pushList ps.provisional_assign l (ps.to_visit, ps.to_visit_set)).1,
       (pushList ps.provisional_assign l (ps.to_visit, ps.to_visit_set)).2⟩
    := by
  induction l with
  | nil => intro ps; rfl
  | cons ch rest ih =>
    intro ps
    rw [List.foldl_cons]
    unfold PendingState.push_to_visit pushList
    by_cases hcond : ¬ containsKeyA ps.provisional_assign ch = true ∧
        ch ∉ ps.to_visit_set
    · rw [if_pos hcond, if_pos hcond]
      exact ih ⟨ps.provisional_assign, ps.n_remaining, ps.deps,
        ps.to_visit.pushBack ch, insert ch ps.to_visit_set⟩
    · rw [if_neg hcond, if_neg hcond]
      exact ih ps

/-- With an empty committed assignment the guard of the child-enqueueing
fold never fires. -/
theorem foldl_push_nil_assign (l : List ClassId) :
    ∀ ps : PendingState,
    l.foldl (fun acc ch => if containsKeyA ([] : Assignment) ch then acc
      else acc.push_to_visit ch) ps =
    l.foldl (fun acc ch => acc.push_to_visit ch) ps := by
  induction l with
  | nil => intro ps; rfl
  | cons ch rest ih =>
    intro ps
    rw [List.foldl_cons, List.foldl_cons,
      if_neg (by simp [containsKeyA]), ih]

/-- On a state with an empty committed assignment, assigning an e-node with
at least one child commits nothing: the committed assignment stays empty
and the observable pending state evolves by `stepA`. -/
theorem do_assign_obsA {g : EgraphT} {st st2 : ExtractionState}
    {node : NodeId} (hA : st.assign = []) (hne : g.children node ≠ [])
    (h : st.do_assign g node = .ok st2) :
    st2.assign = [] ∧ obsA st2 = stepA g (obsA st) node := by
  unfold ExtractionState.do_assign at h
  cases hget : st.pending.to_visit.data.get? st.pending.to_visit.front with
  | none =>
    have hpop : st.pending.to_visit.popFront = (none, st.pending.to_visit) := by
      unfold BQueue.popFront
      rw [hget]
    rw [hpop] at h
    cases h
  | some c =>
    have hpop : st.pending.to_visit.popFront =
        (some c, ⟨st.pending.to_visit.data,
          st.pending.to_visit.front + 1⟩) := by
      unfold BQueue.popFront
      rw [hget]
    rw [hpop] at h
    have h2 : Res.ok (ExtractionState.provisional_assign g
        { st with pending := { st.pending with
            to_visit := ⟨st.pending.to_visit.data,
              st.pending.to_visit.front + 1⟩ } } c node) = .ok st2 := h
    injection h2 with h3
    -- the tracking step does not commit
    have htr : track_pending_assignment st.pending.deps node c st.assign
        (g.children node) = (0, bucketPush st.pending.deps
          ((g.children node).headI)
          ⟨node, c, g.children node⟩, st.assign) := by
      unfold track_pending_assignment
      have hflt : (g.children node).filter
          (fun d => ¬ containsKeyA st.assign d) = g.children node := by
        rw [hA]
        refine List.filter_eq_self.mpr ?_
        intro a _
        simp [containsKeyA]
      rw [hflt]
      cases hk : g.children node with
      | nil => exact absurd hk hne
      | cons d ds => rfl
    simp only [ExtractionState.provisional_assign] at h3
    rw [htr] at h3
    dsimp only [] at h3
    rw [hA, Nat.sub_zero] at h3
    rw [← h3]
    refine ⟨rfl, ?_⟩
    show (((g.children node).foldl
        (fun (acc : PendingState) ch =>
          if containsKeyA ([] : Assignment) ch then acc
          else acc.push_to_visit ch)
        (⟨insertA st.pending.provisional_assign c node,
         st.pending.n_remaining + 1,
         bucketPush st.pending.deps ((g.children node).headI)
           ⟨node, c, g.children node⟩,
         ⟨st.pending.to_visit.data, st.pending.to_visit.front + 1⟩,
         st.pending.to_visit_set.erase c⟩ : PendingState)).provisional_assign,
      ((g.children node).foldl
        (fun (acc : PendingState) ch =>
          if containsKeyA ([] : Assignment) ch then acc
          else acc.push_to_visit ch)
        (⟨insertA st.pending.provisional_assign c node,
         st.pending.n_remaining + 1,
         bucketPush st.pending.deps ((g.children node).headI)
           ⟨node, c, g.children node⟩,
         ⟨st.pending.to_visit.data, st.pending.to_visit.front + 1⟩,
         st.pending.to_visit_set.erase c⟩ : PendingState)).n_remaining,
      ((g.children node).foldl
        (fun (acc : PendingState) ch =>
          if containsKeyA ([] : Assignment) ch then acc
          else acc.push_to_visit ch)
        (⟨insertA st.pending.provisional_assign c node,
         st.pending.n_remaining + 1,
         bucketPush st.pending.deps ((g.children node).headI)
           ⟨node, c, g.children node⟩,
         ⟨st.pending.to_visit.data, st.pending.to_visit.front + 1⟩,
         st.pending.to_visit_set.erase c⟩ : PendingState)).to_visit,
      ((g.children node).foldl
        (fun (acc : PendingState) ch =>
          if containsKeyA ([] : Assignment) ch then acc
          else acc.push_to_visit ch)
        (⟨insertA st.pending.provisional_assign c node,
         st.pending.n_remaining + 1,
         bucketPush st.pending.deps ((g.children node).headI)
           ⟨node, c, g.children node⟩,
         ⟨st.pending.to_visit.data, st.pending.to_visit.front + 1⟩,
         st.pending.to_visit_set.erase c⟩ : PendingState)).to_visit_set) =
      stepA g (obsA st) node
    rw [foldl_push_nil_assign, foldl_push_to_pushList]
    show _ = stepA g (obsA st) node
    unfold stepA
    rw [show (obsA st).2.2.1.popFront = (some c,
      (⟨st.pending.to_visit.data, st.pending.to_visit.front + 1⟩ :
        BQueue ClassId)) from hpop]
    rfl

/-- When the UCT selection returns an existing child, that child is
recorded in the current node's children map under the chosen e-node. -/
theorem chooseNext_child_mem {nc : NumCtx} {cq : ℚ} {t : SearchTree}
    {cur : TreeNode} {total : Nat} {mems : List NodeId} {q : ℚ} {ch : Nat}
    {enode : NodeId}
    (h : chooseNext nc cq t cur total mems = some (q, some ch, enode)) :
    (enode, ch) ∈ cur.state := by
  unfold chooseNext at h
  suffices haux : ∀ (l : List NodeId) (acc : Option (ℚ × Option Nat × NodeId)),
      (∀ b, acc = some b → ∀ c2, b.2.1 = some c2 → (b.2.2, c2) ∈ cur.state) →
      ∀ res2, l.foldl
        (fun best node =>
          let triple :=
            match (cur.state.find? (fun e => e.1 = node)).map (fun e => e.2)
              with
            | some child =>
              let cn := t.nodes.getD child default
              (uct_score nc cn.n_visits
                (cn.total_utility / cast_util (max cn.n_visits 1)) total cq,
               some child, node)
            | none => (uct_score nc 0 (cast_util 0) total cq, none, node)
          match best with
          | none => some triple
          | some b => if triple.1 ≥ b.1 then some triple else some b)
        acc = some res2 → ∀ c2, res2.2.1 = some c2 → (res2.2.2, c2) ∈
          cur.state by
    exact haux mems none (by simp) _ h ch rfl
  intro l
  induction l with
  | nil =>
    intro acc hacc res2 h2
    exact hacc res2 h2
  | cons x rest ih =>
    intro acc hacc res2 h2
    refine ih _ ?_ res2 h2
    intro b hb c2 hc2
    have hnew : ∀ child, (cur.state.find? (fun e => e.1 = x)).map
        (fun e => e.2) = some child → (x, child) ∈ cur.state := by
      intro child hfind
      rcases Option.map_eq_some'.mp hfind with ⟨e, he, hech⟩
      have hmem := List.mem_of_find?_eq_some he
      have hpred := List.find?_some he
      have hx : e.1 = x := by
        cases hde : decide (e.1 = x) with
        | false => rw [hde] at hpred; cases hpred
        | true => exact of_decide_eq_true hde
      have : e = (x, child) := by
        cases e
        simp at hx hech ⊢
        exact ⟨hx, hech⟩
      rw [← this]
      exact hmem
    cases hfind : (cur.state.find? (fun e => e.1 = x)).map (fun e => e.2) with
    | some child =>
      simp only [hfind] at hb
      split at hb
      · injection hb with hb2
        rw [← hb2] at hc2 ⊢
        have hch : child = c2 := by
          have : (some child : Option Nat) = some c2 := hc2
          injection this
        rw [← hch]
        exact hnew child hfind
      · rename_i bb b2
        split at hb
        · injection hb with hb2
          rw [← hb2] at hc2 ⊢
          have hch : child = c2 := by
            have : (some child : Option Nat) = some c2 := hc2
            injection this
          rw [← hch]
          exact hnew child hfind
        · injection hb with hb2
          rw [← hb2] at hc2 ⊢
          exact hacc b2 rfl c2 hc2
    | none =>
      simp only [hfind] at hb
      split at hb
      · injection hb with hb2
        rw [← hb2] at hc2
        cases hc2
      · rename_i bb b2
        split at hb
        · injection hb with hb2
          rw [← hb2] at hc2
          cases hc2
        · injection hb with hb2
          rw [← hb2] at hc2 ⊢
          exact hacc b2 rfl c2 hc2

/-- The ghost invariant of the search tree: `sf i` records the observable
pending state that every descent reaching tree node `i` passes through;
each recorded edge was created at the then-current queue front, and leads
to the `stepA`-successor state. -/
def TSInv (g : EgraphT) (t : SearchTree)
    (sf : Nat → Assignment × Nat × BQueue ClassId × Finset ClassId) : Prop :=
  ∀ i, ∀ e ∈ (t.nodes.getD i default).state,
    ((sf i).2.2.1.frontElem = some ((t.nodes.getD e.2 default).cls)) ∧
    sf e.2 = stepA g (sf i) e.1

/-- The ghost invariant only depends on classes and children maps. -/
theorem TSInv_of_shape {g : EgraphT} {t t2 : SearchTree}
    {sf : Nat → Assignment × Nat × BQueue ClassId × Finset ClassId}
    (hpt : ∀ i, ((t2.nodes.getD i default).cls =
        (t.nodes.getD i default).cls) ∧
      (t2.nodes.getD i default).state = (t.nodes.getD i default).state)
    (h : TSInv g t sf) : TSInv g t2 sf := by
  intro i e he
  rw [(hpt i).2] at he
  obtain ⟨h1, h2⟩ := h i e he
  exact ⟨by rw [(hpt e.2).1]; exact h1, h2⟩

/-- `remCount` over an empty committed assignment counts everything. -/
theorem remCount_nil (p : Assignment) : remCount [] p = p.length := by
  unfold remCount
  rw [List.filter_eq_self.mpr]
  intro a _
  simp [containsKeyA]

/-- On a reachable state whose committed assignment is empty,
`complete_assignment` returns `none`: the root class is still pending. -/
theorem complete_none_of_nil {g : EgraphT} {root : ClassId}
    {st : ExtractionState} (hInv : StInv g root st)
    (hA : st.assign = []) : st.complete_assignment = none := by
  unfold ExtractionState.complete_assignment
  rw [if_neg]
  intro hcon
  obtain ⟨h0, hset⟩ := hcon
  have hnr := hInv.nrEq
  rw [hA, remCount_nil] at hnr
  have hplen : st.pending.provisional_assign.length = 0 := by omega
  have hprov : st.pending.provisional_assign = [] :=
    List.eq_nil_of_length_eq_zero hplen
  have hlive : st.pending.to_visit.live = [] := by
    have h9 := hInv.qSet
    rw [hset] at h9
    exact (List.toFinset_eq_empty_iff _).mp h9.symm
  rcases hInv.rootIn with h | h
  · rw [hlive] at h
    cases h
  · rw [hprov] at h
    cases h

/-- Scenario B: every child class lies below 4. -/
theorem gB_classBound : ClassBound gB 4 := by
  intro n c hc
  have hc2 : c ∈ [[0, 1], [2, 2], [3, 2], [0, 3], [1, 0],
      [2, 3, 1]].getD n [] := hc
  clear hc
  rcases n with _ | _ | _ | _ | _ | _ | n
  · simp at hc2; rcases hc2 with h | h <;> subst h <;> decide
  · simp at hc2; subst hc2; decide
  · simp at hc2; rcases hc2 with h | h <;> subst h <;> decide
  · simp at hc2; rcases hc2 with h | h <;> subst h <;> decide
  · simp at hc2; rcases hc2 with h | h <;> subst h <;> decide
  · simp at hc2; rcases hc2 with h | h | h <;> subst h <;> decide
  · rw [List.getD_eq_getElem?_getD, List.getElem?_eq_none (by simp)] at hc2
    cases hc2

/-- Scenario B: every member of every class has at least one child, so no
assignment ever commits. -/
theorem gB_goodMember : ∀ c, ∀ n ∈ gB.members c, gB.children n ≠ [] := by
  intro c n hn
  have hn2 : n ∈ [[0, 1], [2, 3], [4], [5]].getD c [] := hn
  have hsmall : n < 6 := by
    clear hn
    rcases c with _ | _ | _ | _ | c
    · simp at hn2; rcases hn2 with h | h <;> subst h <;> decide
    · simp at hn2; rcases hn2 with h | h <;> subst h <;> decide
    · simp at hn2; subst hn2; decide
    · simp at hn2; subst hn2; decide
    · rw [List.getD_eq_getElem?_getD, List.getElem?_eq_none (by simp)] at hn2
      cases hn2
  show [[0, 1], [2, 2], [3, 2], [0, 3], [1, 0], [2, 3, 1]].getD n [] ≠ []
  rcases n with _ | _ | _ | _ | _ | _ | n
  · simp
  · simp
  · simp
  · simp
  · simp
  · simp
  · exact absurd hsmall (by simp)

/-- A freshly created tree node has no recorded children. -/
theorem fresh_node_state {t : SearchTree} {cls : ClassId} {idv : Nat}
    {t2 : SearchTree} (h : t.fresh_node cls = .ok (idv, t2)) :
    (t2.nodes.getD idv default).state = [] := by
  unfold SearchTree.fresh_node at h
  by_cases hlt : t.nodes.length < 2 ^ 32
  swap
  · rw [if_neg hlt] at h
    cases h
  rw [if_pos hlt] at h
  injection h with h2
  have hid : idv = t.nodes.length := (congrArg Prod.fst h2).symm
  have ht2 : t2 = { t with nodes := t.nodes ++ [⟨cls, 0, 0, []⟩] } :=
    (congrArg Prod.snd h2).symm
  subst hid ht2
  simp only [List.getD_eq_getElem?_getD,
    List.getElem?_append_right (le_refl _)]
  simp

/-- The playout descent preserves the ghost tracking: whenever it returns,
the committed assignment is still empty, the tree has grown by at most
`fuel` nodes, and a ghost state function extending the old one witnesses
the tracking invariant for the new tree. -/
theorem playoutLoop_ts {g : EgraphT} {root : ClassId} {N : Nat}
    (hGM : ∀ c, ∀ n ∈ g.members c, g.children n ≠ []) (nc : NumCtx) (cq : ℚ)
    {est : EstFn} (hest : EstGood g root N est) (hB : ClassBound g N) :
    ∀ (fuel cur : Nat) (path : List Nat) (tree : SearchTree)
      (st : ExtractionState) (r : Rng)
      (sf : Nat → Assignment × Nat × BQueue ClassId × Finset ClassId)
      (res : Option ℚ × List Nat × SearchTree × ExtractionState × Rng),
    StInv g root st → BoundSt N st → TreeInv g tree →
    st.assign = [] → cur < tree.nodes.length →
    obsA st = sf cur → TSInv g tree sf →
    playoutLoop nc cq g est fuel cur path tree st r = .ok res →
    ∃ sf2,
      res.2.2.2.1.assign = [] ∧
      tree.nodes.length ≤ res.2.2.1.nodes.length ∧
      res.2.2.1.nodes.length ≤ tree.nodes.length + fuel ∧
      (∀ j, j < tree.nodes.length → sf2 j = sf j) ∧
      TSInv g res.2.2.1 sf2 := by
  intro fuel
  induction fuel with
  | zero =>
    intro cur path tree st r sf res _ _ _ _ _ _ _ h
    cases h
  | succ fuel ih =>
    intro cur path tree st r sf res hInv hBd hTree hA hcur hsf hts h
    unfold playoutLoop at h
    rw [start_next_assign_spec hInv] at h
    cases hfe : st.pending.to_visit.frontElem with
    | none =>
      rw [hfe] at h
      have h2 : (Res.ok (none, path, tree, st, r) :
          Res (Option ℚ × List Nat × SearchTree × ExtractionState × Rng)) =
          .ok res := h
      injection h2 with h3
      rw [← h3]
      exact ⟨sf, hA, le_refl _, Nat.le_add_right _ _,
        fun j _ => rfl, hts⟩
    | some cl =>
      rw [hfe] at h
      have h2 : (if (tree.nodes.getD cur default).n_visits = 0 then
          Res.bind (est st r) fun e =>
            .ok (some e.1, path, tree, e.2.1, e.2.2)
        else
          match chooseNext nc cq tree (tree.nodes.getD cur default)
            (tree.nodes.getD cur default).n_visits (g.members cl) with
          | none => .ok (some 0, path, tree, st, r)
          | some (_, copt, enode) =>
            Res.bind (match copt with
              | some ch => .ok (ch, tree)
              | none => Res.bind (tree.fresh_node cl) fun f =>
                  .ok (f.1, f.2.addChild cur enode f.1)) fun ct =>
            Res.bind (st.do_assign g enode) fun st2 =>
            playoutLoop nc cq g est fuel ct.1 (path ++ [ct.1]) ct.2
              st2 r) = .ok res := h
      by_cases hnv : (tree.nodes.getD cur default).n_visits = 0
      · rw [if_pos hnv] at h2
        obtain ⟨u, st2, r2, hok, hInv2, hBd2, hobs⟩ := hest st r hInv hBd
        rw [hok] at h2
        have h3 : (Res.ok (some u, path, tree, st2, r2) :
            Res (Option ℚ × List Nat × SearchTree × ExtractionState ×
              Rng)) = .ok res := h2
        injection h3 with h4
        rw [← h4]
        refine ⟨sf, ?_, le_refl _, Nat.le_add_right _ _,
          fun j _ => rfl, hts⟩
        rw [(obs_parts hobs).1]
        exact hA
      · rw [if_neg hnv] at h2
        cases hcn : chooseNext nc cq tree (tree.nodes.getD cur default)
            (tree.nodes.getD cur default).n_visits (g.members cl) with
        | none =>
          rw [hcn] at h2
          have h3 : (Res.ok (some 0, path, tree, st, r) :
              Res (Option ℚ × List Nat × SearchTree × ExtractionState ×
                Rng)) = .ok res := h2
          injection h3 with h4
          rw [← h4]
          exact ⟨sf, hA, le_refl _, Nat.le_add_right _ _,
            fun j _ => rfl, hts⟩
        | some trip =>
          rw [hcn] at h2
          obtain ⟨qv, copt, enode⟩ := trip
          have hen : enode ∈ g.members cl := chooseNext_node_mem hcn
          have hne : g.children enode ≠ [] := hGM cl enode hen
          obtain ⟨st2, hok, hInv2, -, hdP1, -, -, hsn1⟩ :=
            do_assign_spec hInv hfe hen
          have hBd2 : BoundSt N st2 := do_assign_bound hB hBd hok
          obtain ⟨hA2, hstep⟩ := do_assign_obsA hA hne hok
          have hcm : tree.nodes.getD cur default ∈ tree.nodes := by
            rw [List.getD_eq_getElem _ _ hcur]
            exact List.getElem_mem _
          cases copt with
          | some ch =>
            have h3 : (Res.bind (st.do_assign g enode) fun st3 =>
                playoutLoop nc cq g est fuel ch (path ++ [ch]) tree
                  st3 r) = .ok res := h2
            rw [hok] at h3
            have h4 : playoutLoop nc cq g est fuel ch (path ++ [ch]) tree
                st2 r = .ok res := h3
            have hmemE : (enode, ch) ∈ (tree.nodes.getD cur default).state :=
              chooseNext_child_mem hcn
            obtain ⟨hfr, hsfch⟩ := hts cur (enode, ch) hmemE
            have hchlt : ch < tree.nodes.length :=
              (hTree _ hcm (enode, ch) hmemE).1
            have hsf2 : obsA st2 = sf ch := by
              rw [hstep, hsf, ← hsfch]
            obtain ⟨sf2, p1, p2, p3, p4, p5⟩ := ih ch (path ++ [ch]) tree
              st2 r sf res hInv2 hBd2 hTree hA2 hchlt hsf2 hts h4
            exact ⟨sf2, p1, p2, by omega, p4, p5⟩
          | none =>
            cases hfn : tree.fresh_node cl with
            | out =>
              exfalso
              unfold SearchTree.fresh_node at hfn
              by_cases hlt : tree.nodes.length < 2 ^ 32
              · rw [if_pos hlt] at hfn
                cases hfn
              · rw [if_neg hlt] at hfn
                cases hfn
            | panic =>
              exfalso
              rw [hfn] at h2
              have h3 : (Res.panic :
                  Res (Option ℚ × List Nat × SearchTree × ExtractionState ×
                    Rng)) = .ok res := h2
              cases h3
            | ok f =>
              obtain ⟨fid, t2⟩ := f
              rw [hfn] at h2
              have h3 : (Res.bind (st.do_assign g enode) fun st3 =>
                  playoutLoop nc cq g est fuel fid (path ++ [fid])
                    (t2.addChild cur enode fid) st3 r) = .ok res := h2
              rw [hok] at h3
              have h4 : playoutLoop nc cq g est fuel fid (path ++ [fid])
                  (t2.addChild cur enode fid) st2 r = .ok res := h3
              obtain ⟨hT2, hfid, hlen2, hcls2, hsame⟩ :=
                fresh_node_ok hTree hfn
              have hst2 : (t2.nodes.getD fid default).state = [] :=
                fresh_node_state hfn
              have hchlt : fid < t2.nodes.length := by
                rw [hlen2, hfid]
                omega
              have hmem2 : enode ∈ g.members
                  ((t2.nodes.getD fid default).cls) := by
                rw [hcls2]
                exact hen
              obtain ⟨hT3, hlen3, hcls3⟩ := @addChild_ok g t2 cur enode fid
                hT2 hchlt hmem2
              have hcur2 : cur < t2.nodes.length := by
                rw [hlen2]
                omega
              have hcurne : cur ≠ fid := by
                rw [hfid]
                omega
              -- the extended ghost function
              have hsf' : obsA st2 =
                  (fun j => if j = fid then stepA g (sf cur) enode
                    else sf j) fid := by
                show obsA st2 = if fid = fid then stepA g (sf cur) enode
                  else sf fid
                rw [if_pos rfl, hstep, hsf]
              have hsfcur : (fun j => if j = fid then stepA g (sf cur) enode
                  else sf j) cur = sf cur := by
                show (if cur = fid then _ else sf cur) = sf cur
                rw [if_neg hcurne]
              -- the node written at `cur`
              have h5 : (t2.addChild cur enode fid).nodes.getD cur default =
                  { t2.nodes.getD cur default with
                    state := (t2.nodes.getD cur default).state ++
                      [(enode, fid)] } := by
                show (t2.nodes.set cur _).getD cur default = _
                rw [List.getD_eq_getElem?_getD, List.getElem?_set_self',
                  List.getElem?_eq_getElem hcur2]
                rfl
              have h6 : ∀ i, i ≠ cur →
                  (t2.addChild cur enode fid).nodes.getD i default =
                  t2.nodes.getD i default := by
                intro i hi
                show (t2.nodes.set cur _).getD i default = _
                rw [List.getD_eq_getElem?_getD,
                  List.getElem?_set_ne (Ne.symm hi),
                  List.getD_eq_getElem?_getD]
              have hts3 : TSInv g (t2.addChild cur enode fid)
                  (fun j => if j = fid then stepA g (sf cur) enode
                    else sf j) := by
                intro i e he
                by_cases hic : i = cur
                · rw [hic] at he ⊢
                  rw [h5] at he
                  have he2 : e ∈ (t2.nodes.getD cur default).state ++
                      [(enode, fid)] := he
                  rw [hsame cur hcur] at he2
                  rcases List.mem_append.mp he2 with hold | hnew2
                  · obtain ⟨hfr, hstp⟩ := hts cur e hold
                    have helt : e.2 < tree.nodes.length :=
                      (hTree _ hcm e hold).1
                    have hefid : e.2 ≠ fid := by
                      rw [hfid]
                      intro hcon
                      rw [hcon] at helt
                      exact absurd helt (lt_irrefl _)
                    constructor
                    · show (if cur = fid then stepA g (sf cur) enode
                        else sf cur).2.2.1.frontElem = _
                      rw [if_neg hcurne, hcls3 e.2, hsame e.2 helt]
                      exact hfr
                    · show (if e.2 = fid then stepA g (sf cur) enode
                        else sf e.2) = stepA g (if cur = fid then
                          stepA g (sf cur) enode else sf cur) e.1
                      rw [if_neg hefid, if_neg hcurne]
                      exact hstp
                  · have he3 : e = (enode, fid) := by
                      simp at hnew2
                      exact hnew2
                    rw [he3]
                    constructor
                    · show (if cur = fid then stepA g (sf cur) enode
                        else sf cur).2.2.1.frontElem =
                        some (((t2.addChild cur enode fid).nodes.getD fid
                          default).cls)
                      rw [if_neg hcurne, hcls3 fid, hcls2, ← hsf]
                      exact hfe
                    · show (if fid = fid then stepA g (sf cur) enode
                        else sf fid) = stepA g (if cur = fid then
                          stepA g (sf cur) enode else sf cur) enode
                      rw [if_pos rfl, if_neg hcurne]
                · rw [h6 i hic] at he
                  by_cases hif : i = fid
                  · rw [hif, hst2] at he
                    cases he
                  · by_cases hilen : i < tree.nodes.length
                    · rw [hsame i hilen] at he
                      obtain ⟨hfr, hstp⟩ := hts i e he
                      have hmi : tree.nodes.getD i default ∈ tree.nodes := by
                        rw [List.getD_eq_getElem _ _ hilen]
                        exact List.getElem_mem _
                      have helt : e.2 < tree.nodes.length :=
                        (hTree _ hmi e he).1
                      have hefid : e.2 ≠ fid := by
                        rw [hfid]
                        intro hcon
                        rw [hcon] at helt
                        exact absurd helt (lt_irrefl _)
                      constructor
                      · show (if i = fid then stepA g (sf cur) enode
                          else sf i).2.2.1.frontElem = _
                        rw [if_neg hif, hcls3 e.2, hsame e.2 helt]
                        exact hfr
                      · show (if e.2 = fid then stepA g (sf cur) enode
                          else sf e.2) = stepA g (if i = fid then
                            stepA g (sf cur) enode else sf i) e.1
                        rw [if_neg hefid, if_neg hif]
                        exact hstp
                    · have hd : t2.nodes.getD i default = default := by
                        rw [List.getD_eq_getElem?_getD,
                          List.getElem?_eq_none ?hge]
                        · rfl
                        case hge =>
                          rw [hlen2]
                          rcases Nat.lt_or_ge i (tree.nodes.length + 1)
                            with hlt2 | hge2
                          · exfalso
                            have hieq : i = tree.nodes.length := by omega
                            rw [hfid] at hif
                            exact hif hieq
                          · exact hge2
                      rw [hd] at he
                      cases he
              have hfidlt : fid < (t2.addChild cur enode fid).nodes.length
                  := by
                rw [hlen3]
                exact hchlt
              obtain ⟨sf2, p1, p2, p3, p4, p5⟩ := ih fid (path ++ [fid])
                (t2.addChild cur enode fid) st2 r
                (fun j => if j = fid then stepA g (sf cur) enode else sf j)
                res hInv2 hBd2 hT3 hA2 hfidlt hsf' hts3 h4
              have hlen23 : (t2.addChild cur enode fid).nodes.length =
                  tree.nodes.length + 1 := by
                rw [hlen3, hlen2]
              refine ⟨sf2, p1, by omega, by omega, ?_, p5⟩
              intro j hj
              have hjne : j ≠ fid := by
                rw [hfid]
                intro hcon
                rw [hcon] at hj
                exact absurd hj (lt_irrefl _)
              have := p4 j (by omega)
              rw [this]
              show (if j = fid then stepA g (sf cur) enode else sf j) = sf j
              rw [if_neg hjne]

/-- `addChild` does not change the number of tree nodes. -/
theorem addChild_length (t : SearchTree) (cur : Nat) (enode : NodeId)
    (ch : Nat) : (t.addChild cur enode ch).nodes.length = t.nodes.length :=
  List.length_set _ _ _

/-- With a good estimator and room in the node vector, the playout descent
never panics. -/
theorem playoutLoop_no_panic {g : EgraphT} {root : ClassId} {N : Nat}
    (hB : ClassBound g N) (nc : NumCtx) (cq : ℚ) {est : EstFn}
    (hest : EstGood g root N est) :
    ∀ (fuel cur : Nat) (path : List Nat) (tree : SearchTree)
      (st : ExtractionState) (r : Rng),
    StInv g root st → BoundSt N st →
    tree.nodes.length + fuel ≤ 2 ^ 32 →
    playoutLoop nc cq g est fuel cur path tree st r ≠ .panic := by
  intro fuel
  induction fuel with
  | zero =>
    intro cur path tree st r _ _ _
    intro hcon
    cases hcon
  | succ fuel ih =>
    intro cur path tree st r hInv hBd hroom
    cases hres : playoutLoop nc cq g est (fuel + 1) cur path tree st r with
    | ok res =>
      intro hcon
      cases hcon
    | out =>
      intro hcon
      cases hcon
    | panic =>
      exfalso
      unfold playoutLoop at hres
      rw [start_next_assign_spec hInv] at hres
      cases hfe : st.pending.to_visit.frontElem with
      | none =>
        rw [hfe] at hres
        have h2 : (Res.ok (none, path, tree, st, r) :
            Res (Option ℚ × List Nat × SearchTree × ExtractionState × Rng)) =
            .panic := hres
        cases h2
      | some cl =>
        rw [hfe] at hres
        have h2 : (if (tree.nodes.getD cur default).n_visits = 0 then
            Res.bind (est st r) fun e =>
              .ok (some e.1, path, tree, e.2.1, e.2.2)
          else
            match chooseNext nc cq tree (tree.nodes.getD cur default)
              (tree.nodes.getD cur default).n_visits (g.members cl) with
            | none => .ok (some 0, path, tree, st, r)
            | some (_, copt, enode) =>
              Res.bind (match copt with
                | some ch => .ok (ch, tree)
                | none => Res.bind (tree.fresh_node cl) fun f =>
                    .ok (f.1, f.2.addChild cur enode f.1)) fun ct =>
              Res.bind (st.do_assign g enode) fun st2 =>
              playoutLoop nc cq g est fuel ct.1 (path ++ [ct.1]) ct.2
                st2 r) = .panic := hres
        by_cases hnv : (tree.nodes.getD cur default).n_visits = 0
        · rw [if_pos hnv] at h2
          obtain ⟨u, st2, r2, hok, -, -, -⟩ := hest st r hInv hBd
          rw [hok] at h2
          have h3 : (Res.ok (some u, path, tree, st2, r2) :
              Res (Option ℚ × List Nat × SearchTree × ExtractionState ×
                Rng)) = .panic := h2
          cases h3
        · rw [if_neg hnv] at h2
          cases hcn : chooseNext nc cq tree (tree.nodes.getD cur default)
              (tree.nodes.getD cur default).n_visits (g.members cl) with
          | none =>
            rw [hcn] at h2
            have h3 : (Res.ok (some 0, path, tree, st, r) :
                Res (Option ℚ × List Nat × SearchTree × ExtractionState ×
                  Rng)) = .panic := h2
            cases h3
          | some trip =>
            rw [hcn] at h2
            obtain ⟨qv, copt, enode⟩ := trip
            have hen : enode ∈ g.members cl := chooseNext_node_mem hcn
            obtain ⟨st2, hok, hInv2, -, -, -, -, -⟩ :=
              do_assign_spec hInv hfe hen
            have hBd2 : BoundSt N st2 := do_assign_bound hB hBd hok
            cases copt with
            | some ch =>
              have h3 : (Res.bind (st.do_assign g enode) fun st3 =>
                  playoutLoop nc cq g est fuel ch (path ++ [ch]) tree
                    st3 r) = .panic := h2
              rw [hok] at h3
              have h4 : playoutLoop nc cq g est fuel ch (path ++ [ch]) tree
                  st2 r = .panic := h3
              exact ih ch (path ++ [ch]) tree st2 r hInv2 hBd2 (by omega) h4
            | none =>
              have hlt : tree.nodes.length < 2 ^ 32 := by omega
              have hfn : tree.fresh_node cl = .ok (tree.nodes.length,
                  { tree with nodes := tree.nodes ++ [⟨cl, 0, 0, []⟩] }) := by
                unfold SearchTree.fresh_node
                rw [if_pos hlt]
              rw [hfn] at h2
              have h3 : (Res.bind (st.do_assign g enode) fun st3 =>
                  playoutLoop nc cq g est fuel tree.nodes.length
                    (path ++ [tree.nodes.length])
                    (({ tree with nodes := tree.nodes ++ [⟨cl, 0, 0, []⟩] } :
                      SearchTree).addChild cur enode tree.nodes.length)
                    st3 r) = .panic := h2
              rw [hok] at h3
              have h4 : playoutLoop nc cq g est fuel tree.nodes.length
                  (path ++ [tree.nodes.length])
                  (({ tree with nodes := tree.nodes ++ [⟨cl, 0, 0, []⟩] } :
                    SearchTree).addChild cur enode tree.nodes.length)
                  st2 r = .panic := h3
              refine ih tree.nodes.length _ _ st2 r hInv2 hBd2 ?_ h4
              rw [addChild_length]
              show (tree.nodes ++ [(⟨cl, 0, 0, []⟩ : TreeNode)]).length +
                fuel ≤ 2 ^ 32
              rw [List.length_append]
              simp only [List.length_cons, List.length_nil]
              omega

/-- With a good estimator and room in the node vector, a playout never
panics. -/
theorem run_playout_no_panic {g : EgraphT} {root : ClassId} {N : Nat}
    (hB : ClassBound g N) (nc : NumCtx) (cq : ℚ) {est : EstFn}
    (hest : EstGood g root N est) (fuel : Nat) (S : SearchState) (r : Rng)
    (hS : SSInv g root S) (hBd : BoundSt N S.assignment)
    (hfuel : N + 1 ≤ fuel)
    (hroom : S.tree.nodes.length + fuel ≤ 2 ^ 32) :
    run_playout nc cq g est fuel S r ≠ .panic := by
  rcases playoutLoop_run hB nc cq hest fuel S.start_node [S.start_node]
      S.tree S.assignment r hS.1 hBd hS.2 (by omega) with hp |
    ⟨p, hpl, hInvP, hBdP, hTP, -, -, -, -⟩
  · exact absurd hp (playoutLoop_no_panic hB nc cq hest fuel S.start_node
      [S.start_node] S.tree S.assignment r hS.1 hBd hroom)
  · obtain ⟨e, hmid, hInvE⟩ :
      ∃ e, (match p.1 with
        | some u => (.ok (u, p.2.2.2.1, p.2.2.2.2) :
            Res (ℚ × ExtractionState × Rng))
        | none => est p.2.2.2.1 p.2.2.2.2) = .ok e ∧
        StInv g root e.2.1 := by
      cases hp1 : p.1 with
      | some u => exact ⟨(u, p.2.2.2.1, p.2.2.2.2), rfl, hInvP⟩
      | none =>
        obtain ⟨u, st2, r2, hok, hInv2, -, -⟩ :=
          hest p.2.2.2.1 p.2.2.2.2 hInvP hBdP
        exact ⟨(u, st2, r2), hok, hInv2⟩
    obtain ⟨st3, hreset, -⟩ := reset_spec hInvE
    intro hcon
    unfold run_playout at hcon
    rw [hpl] at hcon
    have h2 : (Res.bind (match p.1 with
        | some u => (.ok (u, p.2.2.2.1, p.2.2.2.2) :
            Res (ℚ × ExtractionState × Rng))
        | none => est p.2.2.2.1 p.2.2.2.2) fun e =>
        Res.bind (e.2.1.reset g) fun st4 =>
        (.ok (⟨backprop p.2.2.1 p.2.1 e.1, st4, S.start_node⟩, e.2.2) :
          Res (SearchState × Rng))) = .panic := hcon
    rw [hmid] at h2
    have h3 : (Res.bind (e.2.1.reset g) fun st4 =>
        (.ok (⟨backprop p.2.2.1 p.2.1 e.1, st4, S.start_node⟩, e.2.2) :
          Res (SearchState × Rng))) = .panic := h2
    rw [hreset] at h3
    cases h3

/-- One playout with a good estimator and the ghost tracking: it returns,
restores the committed observable state, keeps the committed assignment
empty, grows the tree by at most `fuel` nodes, and extends the ghost
state function. -/
theorem run_playout_ts {g : EgraphT} {root : ClassId} {N : Nat}
    (hB : ClassBound g N)
    (hGM : ∀ c, ∀ n ∈ g.members c, g.children n ≠ []) (nc : NumCtx) (cq : ℚ)
    {est : EstFn} (hest : EstGood g root N est) (fuel : Nat)
    (S : SearchState) (r : Rng)
    (sf : Nat → Assignment × Nat × BQueue ClassId × Finset ClassId)
    (hS : SSInv g root S) (hBd : BoundSt N S.assignment)
    (hTop : TopSnap S.assignment) (hA : S.assignment.assign = [])
    (hstart : S.start_node < S.tree.nodes.length)
    (hsf : sf S.start_node = obsA S.assignment)
    (hts : TSInv g S.tree sf) (hfuel : N + 1 ≤ fuel)
    (hroom : S.tree.nodes.length + fuel ≤ 2 ^ 32) :
    ∃ res sf2, run_playout nc cq g est fuel S r = .ok res ∧
      SSInv g root res.1 ∧ BoundSt N res.1.assignment ∧
      TopSnap res.1.assignment ∧
      obs res.1.assignment = obs S.assignment ∧
      res.1.start_node = S.start_node ∧
      res.1.assignment.assign = [] ∧
      S.tree.nodes.length ≤ res.1.tree.nodes.length ∧
      res.1.tree.nodes.length ≤ S.tree.nodes.length + fuel ∧
      (∀ j, j < S.tree.nodes.length → sf2 j = sf j) ∧
      TSInv g res.1.tree sf2 := by
  rcases run_playout_run hB nc cq hest fuel S r hS hBd hTop hfuel with hp |
    ⟨res, hok, hS2, hBd2, hTop2, hobs2, hstn2⟩
  · exact absurd hp (run_playout_no_panic hB nc cq hest fuel S r hS hBd
      hfuel hroom)
  · rcases playoutLoop_run hB nc cq hest fuel S.start_node [S.start_node]
        S.tree S.assignment r hS.1 hBd hS.2 (by omega) with hp |
      ⟨p, hpl, hInvP, hBdP, hTP, -, -, -, -⟩
    · exact absurd hp (playoutLoop_no_panic hB nc cq hest fuel S.start_node
        [S.start_node] S.tree S.assignment r hS.1 hBd hroom)
    · obtain ⟨sfP, hAP, hlow, hup, hagree, htsP⟩ := playoutLoop_ts hGM nc cq
        hest hB fuel S.start_node [S.start_node] S.tree S.assignment r sf p
        hS.1 hBd hS.2 hA hstart hsf.symm hts hpl
      -- identify the final tree with the backprop of the playout tree
      obtain ⟨e, hmid, hInvE, hAE⟩ :
        ∃ e, (match p.1 with
          | some u => (.ok (u, p.2.2.2.1, p.2.2.2.2) :
              Res (ℚ × ExtractionState × Rng))
          | none => est p.2.2.2.1 p.2.2.2.2) = .ok e ∧
          StInv g root e.2.1 ∧ e.2.1.assign = [] := by
        cases hp1 : p.1 with
        | some u => exact ⟨(u, p.2.2.2.1, p.2.2.2.2), rfl, hInvP, hAP⟩
        | none =>
          obtain ⟨u, st2, r2, hok2, hInv2, -, hobsE⟩ :=
            hest p.2.2.2.1 p.2.2.2.2 hInvP hBdP
          refine ⟨(u, st2, r2), hok2, hInv2, ?_⟩
          rw [(obs_parts hobsE).1]
          exact hAP
      obtain ⟨st3, hreset, -⟩ := reset_spec hInvE
      have hrun2 : run_playout nc cq g est fuel S r =
          .ok (⟨backprop p.2.2.1 p.2.1 e.1, st3, S.start_node⟩, e.2.2) := by
        unfold run_playout
        rw [hpl]
        show (Res.bind (match p.1 with
            | some u => (.ok (u, p.2.2.2.1, p.2.2.2.2) :
                Res (ℚ × ExtractionState × Rng))
            | none => est p.2.2.2.1 p.2.2.2.2) fun e =>
            Res.bind (e.2.1.reset g) fun st4 =>
            (.ok (⟨backprop p.2.2.1 p.2.1 e.1, st4, S.start_node⟩, e.2.2) :
              Res (SearchState × Rng))) = _
        rw [hmid]
        show (Res.bind (e.2.1.reset g) fun st4 =>
            (.ok (⟨backprop p.2.2.1 p.2.1 e.1, st4, S.start_node⟩, e.2.2) :
              Res (SearchState × Rng))) = _
        rw [hreset]
        rfl
      have hres : res = (⟨backprop p.2.2.1 p.2.1 e.1, st3, S.start_node⟩,
          e.2.2) := by
        rw [hok] at hrun2
        injection hrun2 with h5
      obtain ⟨hlen, hpt⟩ := backprop_shape e.1 p.2.1 p.2.2.1
      refine ⟨res, sfP, hok, hS2, hBd2, hTop2, hobs2, hstn2, ?_, ?_, ?_,
        hagree, ?_⟩
      · -- the restored committed assignment is empty
        have := (obs_parts hobs2).1
        rw [this, hA]
      · rw [hres]
        show S.tree.nodes.length ≤ (backprop p.2.2.1 p.2.1 e.1).nodes.length
        rw [hlen]
        exact hlow
      · rw [hres]
        show (backprop p.2.2.1 p.2.1 e.1).nodes.length ≤
          S.tree.nodes.length + fuel
        rw [hlen]
        exact hup
      · rw [hres]
        show TSInv g (backprop p.2.2.1 p.2.1 e.1) sfP
        exact TSInv_of_shape hpt htsP

/-- A full round of playouts with the ghost tracking. -/
theorem playoutsRep_ts {g : EgraphT} {root : ClassId} {N : Nat}
    (hB : ClassBound g N)
    (hGM : ∀ c, ∀ n ∈ g.members c, g.children n ≠ []) (nc : NumCtx) (cq : ℚ)
    {est : EstFn} (hest : EstGood g root N est) {fuel : Nat}
    (hfuel : N + 1 ≤ fuel) :
    ∀ (k : Nat) (S : SearchState) (r : Rng)
      (sf : Nat → Assignment × Nat × BQueue ClassId × Finset ClassId),
    SSInv g root S → BoundSt N S.assignment → TopSnap S.assignment →
    S.assignment.assign = [] →
    S.start_node < S.tree.nodes.length →
    sf S.start_node = obsA S.assignment → TSInv g S.tree sf →
    S.tree.nodes.length + k * fuel ≤ 2 ^ 32 →
    ∃ res sf2, playoutsRep nc cq g est fuel k S r = .ok res ∧
      SSInv g root res.1 ∧ BoundSt N res.1.assignment ∧
      TopSnap res.1.assignment ∧
      obs res.1.assignment = obs S.assignment ∧
      res.1.start_node = S.start_node ∧
      res.1.assignment.assign = [] ∧
      S.tree.nodes.length ≤ res.1.tree.nodes.length ∧
      res.1.tree.nodes.length ≤ S.tree.nodes.length + k * fuel ∧
      (∀ j, j < S.tree.nodes.length → sf2 j = sf j) ∧
      TSInv g res.1.tree sf2 ∧
      sf2 res.1.start_node = obsA res.1.assignment := by
  intro k
  induction k with
  | zero =>
    intro S r sf hS hBd hTop hA hstart hsf hts hroom
    exact ⟨(S, r), sf, rfl, hS, hBd, hTop, rfl, rfl, hA, le_refl _,
      Nat.le_add_right _ _, fun j _ => rfl, hts, hsf⟩
  | succ k ih =>
    intro S r sf hS hBd hTop hA hstart hsf hts hroom
    rw [Nat.succ_mul] at hroom
    obtain ⟨p, sf2, hok, hS2, hBd2, hTop2, hobs2, hstn2, hA2, hlow2, hup2,
        hagree2, hts2⟩ := run_playout_ts hB hGM nc cq hest fuel S r sf hS
      hBd hTop hA hstart hsf hts hfuel (by omega)
    have hstart2 : p.1.start_node < p.1.tree.nodes.length := by
      rw [hstn2]
      omega
    have hsf2 : sf2 p.1.start_node = obsA p.1.assignment := by
      rw [hstn2, hagree2 S.start_node hstart, hsf,
        obsA_of_obs hobs2]
    obtain ⟨res, sf3, hok3, hS3, hBd3, hTop3, hobs3, hstn3, hA3, hlow3,
        hup3, hagree3, hts3, hsf3⟩ := ih p.1 p.2 sf2 hS2 hBd2 hTop2 hA2
      hstart2 hsf2 hts2 (by omega)
    refine ⟨res, sf3, ?_, hS3, hBd3, hTop3, hobs3.trans hobs2,
      hstn3.trans hstn2, hA3, by omega, by rw [Nat.succ_mul]; omega, ?_,
      hts3, hsf3⟩
    · unfold playoutsRep
      rw [hok]
      exact hok3
    · intro j hj
      rw [hagree3 j (by omega), hagree2 j hj]

/-- `pick_node` with the ghost tracking: the recorded class of the most
visited child matches the queue front, so the in-source assertion never
fires; advancing keeps the ghost state function valid for the new start
node. -/
theorem pick_node_ts {g : EgraphT} {root : ClassId} {N : Nat}
    {S : SearchState}
    {sf : Nat → Assignment × Nat × BQueue ClassId × Finset ClassId}
    (hS : SSInv g root S) (hB : ClassBound g N)
    (hGM : ∀ c, ∀ n ∈ g.members c, g.children n ≠ [])
    (hBd : BoundSt N S.assignment) (hA : S.assignment.assign = [])
    (hstart : S.start_node < S.tree.nodes.length)
    (hsf : sf S.start_node = obsA S.assignment)
    (hts : TSInv g S.tree sf) :
    (pick_node g S = .ok none) ∨
    (pick_node g S = .ok (some (false, S))) ∨
    (∃ S2, pick_node g S = .ok (some (true, S2)) ∧ SSInv g root S2 ∧
      BoundSt N S2.assignment ∧ TopSnap S2.assignment ∧
      S2.assignment.assign = [] ∧ S2.tree = S.tree ∧
      S2.start_node < S2.tree.nodes.length ∧
      sf S2.start_node = obsA S2.assignment ∧
      S2.assignment.pending.provisional_assign.length =
        S.assignment.pending.provisional_assign.length + 1) := by
  cases hfe : S.assignment.pending.to_visit.frontElem with
  | none =>
    right
    left
    unfold pick_node
    rw [start_next_assign_spec hS.1, hfe]
    rfl
  | some cl =>
    have hred : pick_node g S =
        (match maxVisitsChild S.tree
            (S.tree.nodes.getD S.start_node default).state with
          | none => (Res.ok none : Res (Option (Bool × SearchState)))
          | some (enode, chId) =>
            if (S.tree.nodes.getD chId default).cls = cl then
              Res.bind (S.assignment.do_assign g enode) fun st2 =>
                .ok (some (true, ⟨S.tree, st2.push_snapshot, chId⟩))
            else .panic) := by
      unfold pick_node
      rw [start_next_assign_spec hS.1, hfe]
      rfl
    rw [hred]
    cases hmv : maxVisitsChild S.tree
        (S.tree.nodes.getD S.start_node default).state with
    | none =>
      left
      rfl
    | some pr =>
      obtain ⟨enode, chId⟩ := pr
      have hentry := maxVisitsChild_mem hmv
      obtain ⟨hfr, hstep⟩ := hts S.start_node (enode, chId) hentry
      have hcls : (S.tree.nodes.getD chId default).cls = cl := by
        rw [hsf] at hfr
        have hfr2 : S.assignment.pending.to_visit.frontElem =
            some ((S.tree.nodes.getD chId default).cls) := hfr
        rw [hfe] at hfr2
        injection hfr2 with h5
        exact h5.symm
      have hcm : S.tree.nodes.getD S.start_node default ∈
          S.tree.nodes := by
        rw [List.getD_eq_getElem _ _ hstart]
        exact List.getElem_mem _
      obtain ⟨hchlt, hmem⟩ := hS.2 _ hcm (enode, chId) hentry
      rw [hcls] at hmem
      obtain ⟨st2, hok, hInv2, -, hdP, -, -, -⟩ :=
        do_assign_spec hS.1 hfe hmem
      have hne : g.children enode ≠ [] := hGM cl enode hmem
      obtain ⟨hA2, hstep2⟩ := do_assign_obsA hA hne hok
      have hBd2 : BoundSt N st2 := do_assign_bound hB hBd hok
      right
      right
      refine ⟨⟨S.tree, st2.push_snapshot, chId⟩, ?_,
        ⟨push_snapshot_inv hInv2, hS.2⟩, ⟨hBd2.1, hBd2.2⟩,
        TopSnap_push st2, hA2, rfl, hchlt, ?_, ?_⟩
      · show (if (S.tree.nodes.getD chId default).cls = cl then
            Res.bind (S.assignment.do_assign g enode) fun st3 =>
              Res.ok (some (true,
                (⟨S.tree, st3.push_snapshot, chId⟩ : SearchState)))
          else .panic) = _
        rw [if_pos hcls, hok]
        rfl
      · show sf chId = obsA st2.push_snapshot
        have hobsp : obsA st2.push_snapshot = obsA st2 := rfl
        rw [hobsp, hstep2, ← hsf]
        exact hstep
      · show st2.pending.provisional_assign.length = _
        rw [hdP, List.length_append]
        simp

/-- The round loop with the ghost tracking, for a graph in which nothing
ever commits: it always returns, and the returned extraction result is
`none`. -/
theorem assignLoop_ts {g : EgraphT} {root : ClassId} {N : Nat}
    (hB : ClassBound g N)
    (hGM : ∀ c, ∀ n ∈ g.members c, g.children n ≠ []) (nc : NumCtx) (cq : ℚ)
    {est : EstFn} (hest : EstGood g root N est) {fuelP : Nat}
    (hfP : N + 1 ≤ fuelP) :
    ∀ (fuel : Nat) (cfg : MctsConfig) (S : SearchState) (r : Rng)
      (sf : Nat → Assignment × Nat × BQueue ClassId × Finset ClassId),
    SSInv g root S → BoundSt N S.assignment → TopSnap S.assignment →
    S.assignment.assign = [] →
    S.start_node < S.tree.nodes.length →
    sf S.start_node = obsA S.assignment → TSInv g S.tree sf →
    N + 1 ≤ fuel + S.assignment.pending.provisional_assign.length →
    S.tree.nodes.length + fuel * (cfg.playouts_per_round * fuelP) ≤ 2 ^ 32 →
    ∃ res, assignLoop nc cq g est fuelP fuel cfg S r = .ok res ∧
      res.1 = none := by
  intro fuel
  induction fuel with
  | zero =>
    intro cfg S r sf hS hBd _ _ _ _ _ hfuel _
    exfalso
    have hle := prov_length_le hS.1.nodupP hBd.1
    omega
  | succ fuel ih =>
    intro cfg S r sf hS hBd hTop hA hstart hsf hts hfuel hroom
    have hmul : cfg.playouts_per_round * fuelP ≤
        (fuel + 1) * (cfg.playouts_per_round * fuelP) :=
      Nat.le_mul_of_pos_left _ (by omega)
    obtain ⟨p, sf2, hok, hS2, hBd2, hTop2, hobs2, hstn2, hA2, hlow2, hup2,
        hagree2, hts2, hsf2⟩ := playoutsRep_ts hB hGM nc cq hest hfP
      cfg.playouts_per_round S r sf hS hBd hTop hA hstart hsf hts
      (by omega)
    have hstart2 : p.1.start_node < p.1.tree.nodes.length := by
      rw [hstn2]
      omega
    have hprovS : p.1.assignment.pending.provisional_assign =
        S.assignment.pending.provisional_assign := (obs_parts hobs2).2.1
    rcases pick_node_ts hS2 hB hGM hBd2 hA2 hstart2 hsf2 hts2 with hpk |
      hpk | ⟨S2, hpk, hS3, hBd3, hTop3, hA3, htree3, hstart3, hsf3, hlen3⟩
    · refine ⟨(none, p.1, p.2), ?_, rfl⟩
      unfold assignLoop
      rw [hok]
      show (Res.bind (pick_node g p.1) fun pk =>
        match pk with
        | none => (Res.ok (none, p.1, p.2) :
            Res (Option Assignment × SearchState × Rng))
        | some (false, S2) =>
          .ok (S2.assignment.complete_assignment, S2, p.2)
        | some (true, S2) =>
          assignLoop nc cq g est fuelP fuel cfg S2 p.2) = _
      rw [hpk]
      rfl
    · refine ⟨(p.1.assignment.complete_assignment, p.1, p.2), ?_, ?_⟩
      · unfold assignLoop
        rw [hok]
        show (Res.bind (pick_node g p.1) fun pk =>
          match pk with
          | none => (Res.ok (none, p.1, p.2) :
              Res (Option Assignment × SearchState × Rng))
          | some (false, S2) =>
            .ok (S2.assignment.complete_assignment, S2, p.2)
          | some (true, S2) =>
            assignLoop nc cq g est fuelP fuel cfg S2 p.2) = _
        rw [hpk]
        rfl
      · exact complete_none_of_nil hS2.1 hA2
    · have hts3 : TSInv g S2.tree sf2 := by
        rw [htree3]
        exact hts2
      have hstart3b : S2.start_node < S2.tree.nodes.length := hstart3
      have hfuel3 : N + 1 ≤ fuel +
          S2.assignment.pending.provisional_assign.length := by
        rw [hlen3, hprovS]
        omega
      have hsm : (fuel + 1) * (cfg.playouts_per_round * fuelP) =
          fuel * (cfg.playouts_per_round * fuelP) +
          cfg.playouts_per_round * fuelP := Nat.succ_mul _ _
      have hroom3 : S2.tree.nodes.length +
          fuel * (cfg.playouts_per_round * fuelP) ≤ 2 ^ 32 := by
        rw [htree3]
        rw [hsm] at hroom
        omega
      obtain ⟨res, hok3, hnone3⟩ := ih cfg S2 p.2 sf2 hS3 hBd3 hTop3 hA3
        hstart3b hsf3 hts3 hfuel3 hroom3
      refine ⟨res, ?_, hnone3⟩
      unfold assignLoop
      rw [hok]
      show (Res.bind (pick_node g p.1) fun pk =>
        match pk with
        | none => (Res.ok (none, p.1, p.2) :
            Res (Option Assignment × SearchState × Rng))
        | some (false, S2) =>
          .ok (S2.assignment.complete_assignment, S2, p.2)
        | some (true, S2) =>
          assignLoop nc cq g est fuelP fuel cfg S2 p.2) = _
      rw [hpk]
      exact hok3

/-- C5: on the Scenario B e-graph, whose cyclic dependencies make every
choice of nodes unextractable, `mcts_extract` from root class 0 with
`playouts_per_round = 4` and `terms_to_sample = 4` returns no assignment,
for every numeric context, exploration constant and RNG stream: no e-node
choice ever commits (every member has children that are never all
committed), so after the tree is fully descended `complete_assignment`
still reports classes outstanding and the engine answers `none`. -/
theorem mcts_extract_unextractable (nc : NumCtx) (cq : ℚ) (r : Rng) :
    mcts_extract nc cq gB 0 ⟨4, 4⟩ r 6 = .ok none := by
  have hB := gB_classBound
  have hGM := gB_goodMember
  have hest := @mctsEstimate_good gB 0 4 hB 4 6 (by omega)
  have hS0 : SSInv gB 0 ⟨SearchTree.new 0, ExtractionState.new 0, 0⟩ :=
    ⟨new_inv gB 0, TreeInv_new gB 0⟩
  have hBd0 : BoundSt 4 (ExtractionState.new 0) := new_bound (by decide)
  have hTop0 : TopSnap (ExtractionState.new 0) :=
    TopSnap_push ⟨[], (⟨[], 0, [], BQueue.empty, ∅⟩ :
      PendingState).push_to_visit 0, []⟩
  have hA0 : (ExtractionState.new 0).assign = [] := rfl
  have hstart0 : (0 : Nat) < (SearchTree.new 0).nodes.length := by
    show (0 : Nat) < 1
    omega
  have hprov0 : (ExtractionState.new 0).pending.provisional_assign
      = [] := by
    show ((⟨[], 0, [], BQueue.empty, ∅⟩ :
      PendingState).push_to_visit 0).provisional_assign = []
    unfold PendingState.push_to_visit
    by_cases hcond : ¬ containsKeyA ([] : Assignment) 0 = true ∧
        (0 : ClassId) ∉ (∅ : Finset ClassId)
    · rw [if_pos hcond]
    · rw [if_neg hcond]
  have hts0 : TSInv gB (SearchTree.new 0)
      (fun j => obsA (ExtractionState.new 0)) := by
    intro i e he
    exfalso
    rcases i with _ | i
    · have he2 : e ∈ ([] : List (NodeId × Nat)) := he
      cases he2
    · have hd : (SearchTree.new 0).nodes.getD (i + 1) default = default := by
        rw [List.getD_eq_getElem?_getD, List.getElem?_eq_none (by
          show 1 ≤ i + 1
          omega)]
        rfl
      rw [hd] at he
      cases he
  have hfP6 : (4 : Nat) + 1 ≤ (6 : Nat) := by omega
  obtain ⟨res, hal, hnone⟩ := assignLoop_ts hB hGM nc cq hest hfP6 6
    ⟨4, 4⟩ ⟨SearchTree.new 0, ExtractionState.new 0, 0⟩ r
    (fun j => obsA (ExtractionState.new 0)) hS0 hBd0 hTop0 hA0 hstart0 rfl
    hts0
    (by rw [show (⟨SearchTree.new 0, ExtractionState.new 0, 0⟩ :
        SearchState).assignment.pending.provisional_assign = []
        from hprov0]
        simp)
    (by show 1 + 6 * (4 * 6) ≤ 2 ^ 32
        norm_num)
  have heq : (Res.bind (assignLoop nc cq gB (mctsEstimate gB 4 6) 6 6
      ⟨4, 4⟩ ⟨SearchTree.new 0, ExtractionState.new 0, 0⟩ r) fun res2 =>
      (Res.ok res2.1 : Res (Option Assignment))) = .ok none := by
    rw [hal]
    show Res.ok res.1 = .ok none
    rw [hnone]
  exact heq

/-! ## C4: the Scenario A e-graph finds the high-utility assignment -/

/-- `reset`, written out: truncate, restore the queue, and replay. -/
theorem reset_eq {g : EgraphT} {st : ExtractionState} {s : StateSnapshot}
    {rest : List StateSnapshot} (hsn : st.snapshots = s :: rest)
    {m2 : DepsMap} {a2 : Assignment}
    (hrep : replayLoop g (st.pending.provisional_assign.take s.prov_len) []
      (st.assign.take s.assign_len) = .ok (m2, a2)) :
    st.reset g = .ok ⟨a2,
      ⟨st.pending.provisional_assign.take s.prov_len, s.n_remaining, m2,
       st.pending.to_visit.restore s.q,
       (st.pending.to_visit.restore s.q).live.toFinset⟩,
      st.snapshots⟩ := by
  unfold ExtractionState.reset
  rw [hsn]
  show (Res.bind (Res.bind (replayLoop g
      (st.pending.provisional_assign.take s.prov_len) []
      (st.assign.take s.assign_len)) fun r =>
      (Res.ok (⟨st.pending.provisional_assign.take s.prov_len,
        s.n_remaining, r.1, st.pending.to_visit.restore s.q,
        (st.pending.to_visit.restore s.q).live.toFinset⟩, r.2) :
        Res (PendingState × Assignment))) fun r =>
      (Res.ok ⟨r.2, r.1, s :: rest⟩ : Res ExtractionState)) = _
  rw [hrep, ← hsn]
  rfl

/-- `random_cost_estimate` on a state whose dependency index is already the
canonical replay of its provisional assignment: the state comes back
exactly (not just observably). -/
theorem random_cost_estimate_exact {g : EgraphT} {root : ClassId} {N : Nat}
    {st : ExtractionState} (hB : ClassBound g N) {fuel : Nat} (r : Rng)
    (hInv : StInv g root st) (hBd : BoundSt N st) (hfuel : N + 1 ≤ fuel)
    (hrep : replayLoop g st.pending.provisional_assign [] st.assign =
      .ok (st.pending.deps, st.assign)) :
    ∃ u r2, random_cost_estimate g fuel st r = .ok (u, st, r2) := by
  have hps : StInv g root st.push_snapshot := push_snapshot_inv hInv
  have hbs : BoundSt N st.push_snapshot := hBd
  rcases rolloutLoop_spec g root fuel st.push_snapshot r hps with hout |
    ⟨res, hrun, hInv2, ⟨dA, hdA⟩, ⟨dP, hdP⟩, ⟨dQ, hdQ⟩, hsn⟩
  · exact absurd hout (rolloutLoop_no_out hB fuel st.push_snapshot r hps
      hbs (by omega))
  · have hdA2 : res.2.1.assign = st.assign ++ dA := hdA
    have hdP2 : res.2.1.pending.provisional_assign =
        st.pending.provisional_assign ++ dP := hdP
    have hdQ2 : res.2.1.pending.to_visit.data =
        st.pending.to_visit.data ++ dQ := hdQ
    have hsn2 : res.2.1.snapshots =
        (⟨st.assign.length, st.pending.provisional_assign.length,
          st.pending.n_remaining, st.pending.to_visit.snapshot⟩ :
          StateSnapshot) :: st.snapshots := hsn
    have htkA : res.2.1.assign.take st.assign.length = st.assign := by
      rw [hdA2]
      exact List.take_left _ _
    have htkP : res.2.1.pending.provisional_assign.take
        st.pending.provisional_assign.length =
        st.pending.provisional_assign := by
      rw [hdP2]
      exact List.take_left _ _
    have hrep2 : replayLoop g (res.2.1.pending.provisional_assign.take
        st.pending.provisional_assign.length) []
        (res.2.1.assign.take st.assign.length) =
        .ok (st.pending.deps, st.assign) := by
      rw [htkA, htkP]
      exact hrep
    have hreset := reset_eq hsn2 hrep2
    have hqrest : res.2.1.pending.to_visit.restore
        st.pending.to_visit.snapshot = st.pending.to_visit := by
      show (⟨res.2.1.pending.to_visit.data.take
        st.pending.to_visit.data.length, st.pending.to_visit.front⟩ :
        BQueue ClassId) = st.pending.to_visit
      rw [hdQ2, List.take_left]
    have hst3 : (⟨st.assign,
        ⟨st.pending.provisional_assign, st.pending.n_remaining,
         st.pending.deps,
         res.2.1.pending.to_visit.restore st.pending.to_visit.snapshot,
         (res.2.1.pending.to_visit.restore
           st.pending.to_visit.snapshot).live.toFinset⟩,
        res.2.1.snapshots⟩ : ExtractionState).pop_snapshot = st := by
      rw [hqrest]
      show (⟨st.assign,
        ⟨st.pending.provisional_assign, st.pending.n_remaining,
         st.pending.deps, st.pending.to_visit,
         st.pending.to_visit.live.toFinset⟩,
        res.2.1.snapshots.tail⟩ : ExtractionState) = st
      rw [← hInv.qSet, hsn2]
      rfl
    refine ⟨res.1, res.2.2, ?_⟩
    unfold random_cost_estimate
    rw [hrun]
    show (Res.bind (res.2.1.reset g) fun st2 =>
        (Res.ok (res.1, st2.pop_snapshot, res.2.2) :
          Res (Option ℚ × ExtractionState × Rng))) = _
    rw [show res.2.1.pending.provisional_assign.take
        st.pending.provisional_assign.length =
        res.2.1.pending.provisional_assign.take
        ((⟨st.assign.length, st.pending.provisional_assign.length,
          st.pending.n_remaining, st.pending.to_visit.snapshot⟩ :
          StateSnapshot)).prov_len from rfl] at htkP
    rw [hreset]
    show (Res.ok (res.1, ExtractionState.pop_snapshot _, res.2.2) :
      Res (Option ℚ × ExtractionState × Rng)) = _
    rw [htkP, hst3]

/-- One forced rollout step: the front class has a single member. -/
theorem rolloutLoop_step {g : EgraphT} {st st2 : ExtractionState}
    {c : ClassId} {x : NodeId} (fuel : Nat) (r : Rng)
    (hfe : st.start_next_assign = .ok (some c))
    (hm : g.members c = [x])
    (hda : st.do_assign g x = .ok st2) :
    rolloutLoop g (fuel + 1) st r =
      rolloutLoop g fuel st2 (fun i => r (i + 1)) := by
  conv_lhs => rw [rolloutLoop]
  rw [hfe]
  show (if (g.members c).isEmpty then Res.ok (none, st, r)
    else Res.bind (st.do_assign g ((g.members c).getD
        (genRange (g.members c).length r).1 0)) fun st3 =>
      rolloutLoop g fuel st3 (genRange (g.members c).length r).2) = _
  rw [hm]
  show (if False then Res.ok (none, st, r)
    else Res.bind (st.do_assign g ([x].getD (r 0 % 1) 0)) fun st3 =>
      rolloutLoop g fuel st3 (fun i => r (i + 1))) = _
  rw [Nat.mod_one]
  show (Res.bind (st.do_assign g x) fun st3 =>
    rolloutLoop g fuel st3 (fun i => r (i + 1))) = _
  rw [hda]
  rfl

/-- The rollout terminates when the queue is empty. -/
theorem rolloutLoop_done {g : EgraphT} {st : ExtractionState} (fuel : Nat)
    (r : Rng) (hfe : st.start_next_assign = .ok none) :
    rolloutLoop g (fuel + 1) st r =
      .ok (st.complete_assignment.map g.utility, st, r) := by
  conv_lhs => rw [rolloutLoop]
  rw [hfe]
  rfl
